import Mathlib

/-!
# Filtered image rescaling (`src/resize.c`)

A shallow embedding of Dale Schumacher's filtered image rescaling as shipped in
simage (`resize.c`), and theorems about it.

Conventions of the embedding.

* C `float`/`double` values are elements of an arbitrary linearly ordered field
  `α` with a floor function (`ℚ` for evaluation, `ℝ` for the statements about
  real numbers).  All arithmetic is exact: rounding, infinities and NaN are not
  modelled.
* The one place where rounding decides a property is the allocation of the
  contribution lists.  For it the builders are embedded a second time, as
  `row_contributions32` and `column_contributions32`, with every `float`
  variable rounded to IEEE binary32 (`fl32`).
* C `int` values are `Nat` (sizes, loop counters that start at zero) or `Int`
  (the source sample number `j`, the mirrored index `n`, the stored byte offset
  `pixel`).  Machine overflow is not modelled.
* `unsigned char` buffers are `List Nat`.
* An `assert` that fails, and a read or write outside an allocated object, make
  the function return `none`.
* `sin` of the C library is a parameter of the Lanczos kernel.
-/

namespace Resize

section Definitions

variable {α : Type} [LinearOrderedField α]

/-! ## Filter kernels (`resize.c` lines 91-201) -/

/-- Macro `M_PI` of line 27. -/
def M_PI : α := 3.14159265358979323846

/-- Macro `filter_support`. -/
def filter_support : α := 1.0

/-- Function `filter`: `2|t|^3 - 3|t|^2 + 1` on `-1 <= t <= 1`. -/
def filter (t : α) : α :=
  let t := if t < 0.0 then -t else t
  if t < 1.0 then (2.0 * t - 3.0) * t * t + 1.0
  else 0.0

/-- Macro `box_support`. -/
def box_support : α := 0.5

/-- Function `box_filter`. -/
def box_filter (t : α) : α :=
  if t > -0.5 ∧ t ≤ 0.5 then 1.0
  else 0.0

/-- Macro `triangle_support`. -/
def triangle_support : α := 1.0

/-- Function `triangle_filter`. -/
def triangle_filter (t : α) : α :=
  let t := if t < 0.0 then -t else t
  if t < 1.0 then 1.0 - t
  else 0.0

/-- Macro `bell_support`. -/
def bell_support : α := 1.5

/-- Function `bell_filter` (box * box * box). -/
def bell_filter (t : α) : α :=
  let t := if t < 0 then -t else t
  if t < 0.5 then 0.75 - t * t
  else if t < 1.5 then
    let t := t - 1.5
    0.5 * (t * t)
  else 0.0

/-- Macro `B_spline_support`. -/
def B_spline_support : α := 2.0

/-- Function `B_spline_filter` (box * box * box * box). -/
def B_spline_filter (t : α) : α :=
  let t := if t < 0 then -t else t
  if t < 1 then
    let tt := t * t
    0.5 * tt * t - tt + 2.0 / 3.0
  else if t < 2 then
    let t := 2 - t
    1.0 / 6.0 * (t * t * t)
  else 0.0

/-- Function `sinc`; `sin` is the C library's sine. -/
def sinc (sin : α → α) (x : α) : α :=
  let x := x * M_PI
  if x ≠ 0 then sin x / x
  else 1.0

/-- Macro `Lanczos3_support`. -/
def Lanczos3_support : α := 3.0

/-- Function `Lanczos3_filter`; `sin` is the C library's sine. -/
def Lanczos3_filter (sin : α → α) (t : α) : α :=
  let t := if t < 0 then -t else t
  if t < 3.0 then sinc sin t * sinc sin (t / 3.0)
  else 0.0

/-- Macro `Mitchell_support`. -/
def Mitchell_support : α := 2.0

/-- Macro `B` of the Mitchell kernel. -/
def B : α := 1.0 / 3.0

/-- Macro `C` of the Mitchell kernel. -/
def C : α := 1.0 / 3.0

/-- Function `Mitchell_filter`. -/
def Mitchell_filter (t : α) : α :=
  let tt := t * t
  let t := if t < 0.0 then -t else t
  if t < 1.0 then
    let t := (12.0 - 9.0 * B - 6.0 * C) * (t * tt)
        + (-18.0 + 12.0 * B + 6.0 * C) * tt
        + (6.0 - 2.0 * B)
    t / 6.0
  else if t < 2.0 then
    let t := (-1.0 * B - 6.0 * C) * (t * tt)
        + (6.0 * B + 30.0 * C) * tt
        + (-12.0 * B - 48.0 * C) * t
        + (8.0 * B + 24.0 * C)
    t / 6.0
  else 0.0

/-- The seven kernels the file ships, as an index for statements that range
over all of them. -/
inductive Kernel where
  | filter
  | box
  | triangle
  | bell
  | B_spline
  | Lanczos3
  | Mitchell
  deriving DecidableEq, Repr

/-- The C function of a shipped kernel. -/
def Kernel.weight (sin : α → α) : Kernel → α → α
  | .filter => Resize.filter
  | .box => box_filter
  | .triangle => triangle_filter
  | .bell => bell_filter
  | .B_spline => B_spline_filter
  | .Lanczos3 => Lanczos3_filter sin
  | .Mitchell => Mitchell_filter

/-- The `*_support` macro that accompanies a shipped kernel. -/
def Kernel.support : Kernel → α
  | .filter => filter_support
  | .box => box_support
  | .triangle => triangle_support
  | .bell => bell_support
  | .B_spline => B_spline_support
  | .Lanczos3 => Lanczos3_support
  | .Mitchell => Mitchell_support

/-! ## Images and pixel access (`resize.c` lines 30-88, 217-228) -/

/-- A C `for (i = 0; i < n; i++)` loop over a state: `body i` may fail. -/
def forLoop {σ : Type} : Nat → (Nat → σ → Option σ) → σ → Option σ
  | 0, _, s => some s
  | n + 1, body, s => (forLoop n body s).bind (body n)

/-- Struct `Image`. -/
structure Image where
  xsize : Nat
  ysize : Nat
  bpp : Nat
  data : List Nat
  span : Nat
  deriving DecidableEq, Repr

/-- The invariant of an image: a scanline holds `xsize` pixels and the buffer
holds `ysize` scanlines. -/
def Image.wf (image : Image) : Prop :=
  image.xsize * image.bpp ≤ image.span ∧ image.span * image.ysize ≤ image.data.length

instance (image : Image) : Decidable image.wf :=
  inferInstanceAs (Decidable (_ ∧ _))

/-- Function `get_row`: the `memcpy` of `bpp * xsize` bytes that start at
`data + y * span`. -/
def get_row (image : Image) (y : Nat) : Option (List Nat) :=
  if y < image.ysize then
    if y * image.span + image.bpp * image.xsize ≤ image.data.length then
      some ((image.data.drop (y * image.span)).take (image.bpp * image.xsize))
    else none
  else none

/-- Function `get_column`: `*column++ = p[j]` with `p = data + x * bpp + i * d`. -/
def get_column (image : Image) (x : Nat) : Option (List Nat) :=
  if x < image.xsize then
    let d := image.span
    let bpp := image.bpp
    let ysize := image.ysize
    forLoop ysize (fun i column =>
      forLoop bpp (fun j column =>
        (image.data[x * bpp + i * d + j]?).bind (fun v => some (column ++ [v]))) column) []
  else none

/-- Store `v` at index `i` of a buffer; fails outside the buffer. -/
def store {β : Type} (buf : List β) (i : Nat) (v : β) : Option (List β) :=
  if i < buf.length then some (buf.set i v) else none

/-- Read `buf[i]` for a C `int` index; fails outside the buffer. -/
def load {β : Type} (buf : List β) (i : Int) : Option β :=
  if 0 ≤ i then buf[i.toNat]? else none

variable [FloorRing α]

/-- The body of the loop of `put_pixel`: clamp to `[0, 255]`, then the cast
`(unsigned char) val`, which truncates a value in that range. -/
def clampByte (val : α) : Nat :=
  let val := if val < 0.0 then 0.0 else if val > 255.0 then 255.0 else val
  ⌊val⌋₊

/-- Function `put_pixel`. -/
def put_pixel (image : Image) (x y : Nat) (data : List α) : Option Image :=
  if x < image.xsize ∧ y < image.ysize then
    let bpp := image.bpp
    let p := image.span * y + x * bpp
    forLoop bpp (fun i img =>
      (data[i]?).bind (fun val =>
        (store img.data (p + i) (clampByte val)).bind (fun d =>
          some { img with data := d }))) image
  else none

/-- Function `new_image`; the bytes of a `malloc`ed block are taken to be zero. -/
def new_image (xsize ysize bpp : Nat) (data : Option (List Nat)) : Image :=
  let span := xsize * bpp
  { xsize := xsize
    ysize := ysize
    bpp := bpp
    span := span
    data := match data with
      | some d => d
      | none => List.replicate (span * ysize) 0 }

/-! ## Contribution lists (`resize.c` lines 207-215, 258-313, 350-405) -/

/-- Struct `CONTRIB`; a `CLIST` is a `List (CONTRIB α)`, its `n` the length. -/
structure CONTRIB (α : Type) where
  pixel : Int
  weight : α
  deriving DecidableEq, Repr

/-- The C cast `(int) x` of a floating value: truncation toward zero. -/
def c_int (x : α) : Int := if 0 ≤ x then ⌊x⌋ else ⌈x⌉

/-- The statements `k = contrib[i].n++; contrib[i].p[k] = c`, where `p` was
`calloc`ed with `cap` elements. -/
def clist_push (cap : Int) (p : List (CONTRIB α)) (c : CONTRIB α) :
    Option (List (CONTRIB α)) :=
  if (p.length : Int) < cap then some (p ++ [c]) else none

/-- Lines 258-313 of `zoom`: the filter contributions for a row. -/
def row_contributions (dstxsize src_xsize bpp : Nat) (xscale : α)
    (filterf : α → α) (fwidth : α) : Option (List (List (CONTRIB α))) :=
  if xscale < 1.0 then
    let width := fwidth / xscale
    let fscale := 1.0 / xscale
    forLoop dstxsize (fun i contrib =>
      let cap := c_int (width * 2 + 1)
      let center := (i : α) / xscale
      let left := ⌈center - width⌉
      let right := ⌊center + width⌋
      (forLoop (right + 1 - left).toNat (fun idx p =>
        let j : Int := left + idx
        let weight := center - (j : α)
        let weight := filterf (weight / fscale) / fscale
        let n : Int :=
          if j < 0 then -j
          else if j ≥ src_xsize then (src_xsize - j) + src_xsize - 1
          else j
        clist_push cap p ⟨n * bpp, weight⟩) []).bind (fun p =>
      some (contrib ++ [p]))) []
  else
    forLoop dstxsize (fun i contrib =>
      let cap := c_int (fwidth * 2 + 1)
      let center := (i : α) / xscale
      let left := ⌈center - fwidth⌉
      let right := ⌊center + fwidth⌋
      (forLoop (right + 1 - left).toNat (fun idx p =>
        let j : Int := left + idx
        let weight := center - (j : α)
        let weight := filterf weight
        let n : Int :=
          if j < 0 then -j
          else if j ≥ src_xsize then (src_xsize - j) + src_xsize - 1
          else j
        clist_push cap p ⟨n * bpp, weight⟩) []).bind (fun p =>
      some (contrib ++ [p]))) []

/-- Lines 350-405 of `zoom`: the filter contributions for a column. -/
def column_contributions (dstysize tmp_ysize bpp : Nat) (yscale : α)
    (filterf : α → α) (fwidth : α) : Option (List (List (CONTRIB α))) :=
  if yscale < 1.0 then
    let width := fwidth / yscale
    let fscale := 1.0 / yscale
    forLoop dstysize (fun i contrib =>
      let cap := c_int (width * 2 + 1)
      let center := (i : α) / yscale
      let left := ⌈center - width⌉
      let right := ⌊center + width⌋
      (forLoop (right + 1 - left).toNat (fun idx p =>
        let j : Int := left + idx
        let weight := center - (j : α)
        let weight := filterf (weight / fscale) / fscale
        let n : Int :=
          if j < 0 then -j
          else if j ≥ tmp_ysize then (tmp_ysize - j) + tmp_ysize - 1
          else j
        clist_push cap p ⟨n * bpp, weight⟩) []).bind (fun p =>
      some (contrib ++ [p]))) []
  else
    forLoop dstysize (fun i contrib =>
      let cap := c_int (fwidth * 2 + 1)
      let center := (i : α) / yscale
      let left := ⌈center - fwidth⌉
      let right := ⌊center + fwidth⌋
      (forLoop (right + 1 - left).toNat (fun idx p =>
        let j : Int := left + idx
        let weight := center - (j : α)
        let weight := filterf weight
        let n : Int :=
          if j < 0 then -j
          else if j ≥ tmp_ysize then (tmp_ysize - j) + tmp_ysize - 1
          else j
        clist_push cap p ⟨n * bpp, weight⟩) []).bind (fun p =>
      some (contrib ++ [p]))) []

/-! ## The two passes of `zoom` (`resize.c` lines 230-443) -/

/-- The accumulation of one output pixel (lines 323-329 and 413-419):
`pixel[b] = 0.0` for every channel, then
`pixel[b] += raster[p[j].pixel + b] * p[j].weight` for every entry and channel.
The accumulator `pixel` is the array `float pixel[4]`. -/
def accumulate (bpp : Nat) (raster : List Nat) (clist : List (CONTRIB α))
    (pixel : List α) : Option (List α) :=
  (forLoop bpp (fun b pixel => store pixel b 0.0) pixel).bind (fun pixel =>
    clist.foldlM (fun pixel c =>
      forLoop bpp (fun b pixel =>
        (load raster (c.pixel + b)).bind (fun r =>
          (pixel[b]?).bind (fun old =>
            store pixel b (old + (r : α) * c.weight)))) pixel) pixel)

/-- Lines 249-348 of `zoom`: the intermediate image, the row contributions and
the horizontal pass from `src` to `tmp`.  The result is `tmp`.  The array
`pixel` starts with unspecified content, taken to be zero: every channel that
is read is first set to `0.0`. -/
def zoom_horizontal (dst src : Image) (filterf : α → α) (fwidth : α) :
    Option Image :=
  let bpp := src.bpp
  let dstxsize := dst.xsize
  let tmp := new_image dstxsize src.ysize dst.bpp none
  let xscale : α := (dstxsize : α) / (src.xsize : α)
  (row_contributions dstxsize src.xsize bpp xscale filterf fwidth).bind
    (fun contrib =>
      (forLoop tmp.ysize (fun k st =>
        (get_row src k).bind (fun raster =>
          forLoop tmp.xsize (fun i st =>
            (contrib[i]?).bind (fun clist =>
              (accumulate bpp raster clist st.2).bind (fun pixel =>
                (put_pixel st.1 i k pixel).bind (fun tmp =>
                  some (tmp, pixel))))) st))
        (tmp, List.replicate 4 (0 : α))).bind (fun st => some st.1))

/-- Lines 350-442 of `zoom`: the column contributions and the vertical pass
from `tmp` to `dst`.  The result is `dst`.  The array `pixel` is the one of the
horizontal pass; its content at this point is immaterial for the same reason. -/
def zoom_vertical (dst src tmp : Image) (filterf : α → α) (fwidth : α) :
    Option Image :=
  let bpp := src.bpp
  let dstxsize := dst.xsize
  let dstysize := dst.ysize
  let yscale : α := (dstysize : α) / (src.ysize : α)
  (column_contributions dstysize tmp.ysize bpp yscale filterf fwidth).bind
    (fun contrib =>
      (forLoop dstxsize (fun k st =>
        (get_column tmp k).bind (fun raster =>
          forLoop dstysize (fun i st =>
            (contrib[i]?).bind (fun clist =>
              (accumulate bpp raster clist st.2).bind (fun pixel =>
                (put_pixel st.1 k i pixel).bind (fun dst =>
                  some (dst, pixel))))) st))
        (dst, List.replicate 4 (0 : α))).bind (fun st => some st.1))

/-- Function `zoom`: the image `dst` after the call. -/
def zoom (dst src : Image) (filterf : α → α) (fwidth : α) : Option Image :=
  (zoom_horizontal dst src filterf fwidth).bind (fun tmp =>
    zoom_vertical dst src tmp filterf fwidth)

/-- Function `simage_resize`: the returned buffer `dstdata`. -/
def simage_resize (α : Type) [LinearOrderedField α] [FloorRing α]
    (src : List Nat) (width height num_comp newwidth newheight : Nat) :
    Option (List Nat) :=
  let srcimg := new_image width height num_comp (some src)
  let dstimg := new_image newwidth newheight num_comp none
  (zoom dstimg srcimg (bell_filter : α → α) bell_support).bind (fun dstimg =>
    some dstimg.data)

/-! ## Notions used in the statements -/

/-- Byte `k` of a buffer as the statements read it: `buf[k]` inside the buffer
and `0` outside it. -/
def byteAt (buf : List Nat) (k : Int) : Nat := (load buf k).getD 0

/-- Byte `k` of scanline `r` of an image, as the statements read it. -/
def Image.row_byte (image : Image) (r : Int) (k : Int) : Nat :=
  byteAt image.data ((image.span : Int) * r + k)

/-- Channel `b` of pixel `(x, y)` of an image, as the statements read it. -/
def Image.channel (image : Image) (x y : Int) (b : Nat) : Nat :=
  image.row_byte y (x * (image.bpp : Int) + (b : Int))

/-- The weighted sum `Σ raster[c.pixel + b] * c.weight` over the entries `c` of
a contribution list, for channel `b`. -/
def weighted_sum (raster : List Nat) (clist : List (CONTRIB α)) (b : Nat) : α :=
  (clist.map (fun c => (byteAt raster (c.pixel + (b : Int)) : α) * c.weight)).sum

/-- The sum of the weights of a contribution list. -/
def weight_total (clist : List (CONTRIB α)) : α :=
  (clist.map (fun c => c.weight)).sum

/-- Two images of the same geometry agree on channel `c` at every pixel. -/
def agree_on_channel (c : Nat) (a b : Image) : Prop :=
  a.xsize = b.xsize ∧ a.ysize = b.ysize ∧ a.bpp = b.bpp ∧ a.span = b.span ∧
    a.data.length = b.data.length ∧
    ∀ x, x < a.xsize → ∀ y, y < a.ysize →
      a.data[a.span * y + x * a.bpp + c]? = b.data[a.span * y + x * a.bpp + c]?

instance (c : Nat) (a b : Image) : Decidable (agree_on_channel c a b) :=
  inferInstanceAs (Decidable (_ ∧ _ ∧ _ ∧ _ ∧ _ ∧ ∀ x, x < a.xsize → ∀ y, y < a.ysize → _))

/-- Two images of geometry `X, Y, B, SP` agree on channel `c` at every pixel. -/
def image_agree (X Y B SP c : Nat) (a b : Image) : Prop :=
  a.xsize = X ∧ a.ysize = Y ∧ a.bpp = B ∧ a.span = SP ∧ agree_on_channel c a b

/-- Two runs fail together, or both succeed with results related by `R`. -/
def optRel {σ τ : Type} (R : σ → τ → Prop) : Option σ → Option τ → Prop
  | some a, some b => R a b
  | none, none => True
  | _, _ => False

/-- Two rasters of the same length agree on channel `c` of every pixel. -/
def raster_agree (bpp c : Nat) (r1 r2 : List Nat) : Prop :=
  r1.length = r2.length ∧ ∀ n, r1[n * bpp + c]? = r2[n * bpp + c]?

/-- Two accumulators of the same length agree on channel `c`. -/
def pixel_agree (c : Nat) (p1 p2 : List α) : Prop :=
  p1.length = p2.length ∧ p1[c]? = p2[c]?

/-! ## The contribution table in the words of the specification (§4.3) -/

/-- The mirror rule of the specification: `-j` if `j < 0`, `2S - 1 - j` if
`j >= S`, `j` otherwise. -/
def reflect (S : Nat) (j : Int) : Int :=
  if j < 0 then -j else if j ≥ S then 2 * S - 1 - j else j

/-- The filter half-width used for scale `D / S`: `s / scale` when
`scale < 1`, and `s` otherwise. -/
def spec_width (S D : Nat) (s : α) : α :=
  if (D : α) / (S : α) < 1 then s / ((D : α) / (S : α)) else s

/-- The filter scale used for scale `D / S`: `1 / scale` when `scale < 1`,
and `1` otherwise. -/
def spec_fscale (S D : Nat) : α :=
  if (D : α) / (S : α) < 1 then 1 / ((D : α) / (S : α)) else 1

/-- The centre `i / scale` of destination sample `i`. -/
def spec_center (S D i : Nat) : α := (i : α) / ((D : α) / (S : α))

/-- The first source sample `ceil (center - width)`. -/
def spec_left (S D : Nat) (s : α) (i : Nat) : Int :=
  ⌈(spec_center S D i : α) - spec_width S D s⌉

/-- The last source sample `floor (center + width)`. -/
def spec_right (S D : Nat) (s : α) (i : Nat) : Int :=
  ⌊(spec_center S D i : α) + spec_width S D s⌋

/-- The entry the specification stores for source sample `j`. -/
def spec_entry (S D : Nat) (f : α → α) (bpp i : Nat) (j : Int) : CONTRIB α :=
  ⟨reflect S j * bpp, f ((spec_center S D i - (j : α)) / spec_fscale S D) / spec_fscale S D⟩

/-- The contribution list of destination sample `i` in the words of the
specification: one entry for every integer `j` from `ceil (center - width)` to
`floor (center + width)`, in ascending order. -/
def contribution_spec (S D : Nat) (f : α → α) (s : α) (bpp i : Nat) :
    List (CONTRIB α) :=
  (List.range (spec_right S D s i + 1 - spec_left S D s i).toNat).map
    (fun (k : Nat) => spec_entry S D f bpp i (spec_left S D s i + (k : Int)))

/-! ## The contribution builders in IEEE binary32 (`resize.c` lines 255-313, 350-405) -/

/-- Round to the nearest integer, ties to the even one. -/
def round_even (q : ℚ) : Int :=
  if q - (⌊q⌋ : ℚ) < 1 / 2 then ⌊q⌋
  else if 1 / 2 < q - (⌊q⌋ : ℚ) then ⌊q⌋ + 1
  else if ⌊q⌋ % 2 = 0 then ⌊q⌋
  else ⌊q⌋ + 1

/-- Scale a positive value into `[lo, 2 * lo)` by doubling or halving it; `u` is
the weight that a unit of the scaled value has in the original one. -/
def scale_into (lo : ℚ) : Nat → ℚ → ℚ → ℚ × ℚ
  | 0, a, u => (a, u)
  | fuel + 1, a, u =>
    if a < lo then scale_into lo fuel (a * 2) (u / 2)
    else if 2 * lo ≤ a then scale_into lo fuel (a / 2) (u * 2)
    else (a, u)

/-- Round to the binary floating-point format whose significand has as many
bits as `lo = 2 ^ (p - 1)` (round to nearest, ties to even).  The exponent is
not bounded: the function is the rounding of the format on its normal
numbers. -/
def round_to (lo : ℚ) (q : ℚ) : ℚ :=
  if q = 0 then 0
  else
    let s := scale_into lo 2200 (if q < 0 then -q else q) 1
    let r := (round_even s.1 : ℚ) * s.2
    if q < 0 then -r else r

/-- The C type `float`: IEEE binary32, a significand of 24 bits. -/
def fl32 (q : ℚ) : ℚ := round_to 8388608 q

/-- The C type `double`: IEEE binary64, a significand of 53 bits. -/
def fl64 (q : ℚ) : ℚ := round_to 4503599627370496 q

/-- Lines 258-313 of `zoom` with the `float` variables `xscale`, `width`,
`fscale`, `center`, `left`, `right` and `weight` held in binary32: every
operation on `float` operands is rounded by `fl32`, `1.0 / xscale` is a `double`
division stored in a `float`, `ceil` and `floor` are exact.  `filterf` is the
kernel as a function on `float` values.  The loop `for (j = left; j <= right;
j++)` starts at `(int) left` and runs over the integers up to `right`. -/
def row_contributions32 (dstxsize src_xsize bpp : Nat)
    (filterf : ℚ → ℚ) (fwidth : ℚ) : Option (List (List (CONTRIB ℚ))) :=
  let xscale := fl32 (fl32 (dstxsize : ℚ) / fl32 (src_xsize : ℚ))
  if xscale < 1.0 then
    let width := fl32 (fwidth / xscale)
    let fscale := fl32 (fl64 (1.0 / xscale))
    forLoop dstxsize (fun i contrib =>
      let cap := c_int (fl32 (fl32 (width * 2) + 1))
      let center := fl32 (fl32 (i : ℚ) / xscale)
      let left := fl32 (⌈fl32 (center - width)⌉ : ℚ)
      let right := fl32 (⌊fl32 (center + width)⌋ : ℚ)
      (forLoop (⌊right⌋ + 1 - c_int left).toNat (fun idx p =>
        let j : Int := c_int left + idx
        let weight := fl32 (center - fl32 (j : ℚ))
        let weight := fl32 (filterf (fl32 (weight / fscale)) / fscale)
        let n : Int :=
          if j < 0 then -j
          else if j ≥ src_xsize then (src_xsize - j) + src_xsize - 1
          else j
        clist_push cap p ⟨n * bpp, weight⟩) []).bind (fun p =>
      some (contrib ++ [p]))) []
  else
    forLoop dstxsize (fun i contrib =>
      let cap := c_int (fl32 (fl32 (fwidth * 2) + 1))
      let center := fl32 (fl32 (i : ℚ) / xscale)
      let left := fl32 (⌈fl32 (center - fwidth)⌉ : ℚ)
      let right := fl32 (⌊fl32 (center + fwidth)⌋ : ℚ)
      (forLoop (⌊right⌋ + 1 - c_int left).toNat (fun idx p =>
        let j : Int := c_int left + idx
        let weight := fl32 (center - fl32 (j : ℚ))
        let weight := filterf weight
        let n : Int :=
          if j < 0 then -j
          else if j ≥ src_xsize then (src_xsize - j) + src_xsize - 1
          else j
        clist_push cap p ⟨n * bpp, weight⟩) []).bind (fun p =>
      some (contrib ++ [p]))) []

/-- Lines 350-405 of `zoom` with the `float` variables held in binary32, as in
`row_contributions32`; `yscale` is `(float) dstysize / (float) src->ysize` of
line 256, and `tmp->ysize` is `src->ysize`. -/
def column_contributions32 (dstysize tmp_ysize bpp : Nat)
    (filterf : ℚ → ℚ) (fwidth : ℚ) : Option (List (List (CONTRIB ℚ))) :=
  let yscale := fl32 (fl32 (dstysize : ℚ) / fl32 (tmp_ysize : ℚ))
  if yscale < 1.0 then
    let width := fl32 (fwidth / yscale)
    let fscale := fl32 (fl64 (1.0 / yscale))
    forLoop dstysize (fun i contrib =>
      let cap := c_int (fl32 (fl32 (width * 2) + 1))
      let center := fl32 (fl32 (i : ℚ) / yscale)
      let left := fl32 (⌈fl32 (center - width)⌉ : ℚ)
      let right := fl32 (⌊fl32 (center + width)⌋ : ℚ)
      (forLoop (⌊right⌋ + 1 - c_int left).toNat (fun idx p =>
        let j : Int := c_int left + idx
        let weight := fl32 (center - fl32 (j : ℚ))
        let weight := fl32 (filterf (fl32 (weight / fscale)) / fscale)
        let n : Int :=
          if j < 0 then -j
          else if j ≥ tmp_ysize then (tmp_ysize - j) + tmp_ysize - 1
          else j
        clist_push cap p ⟨n * bpp, weight⟩) []).bind (fun p =>
      some (contrib ++ [p]))) []
  else
    forLoop dstysize (fun i contrib =>
      let cap := c_int (fl32 (fl32 (fwidth * 2) + 1))
      let center := fl32 (fl32 (i : ℚ) / yscale)
      let left := fl32 (⌈fl32 (center - fwidth)⌉ : ℚ)
      let right := fl32 (⌊fl32 (center + fwidth)⌋ : ℚ)
      (forLoop (⌊right⌋ + 1 - c_int left).toNat (fun idx p =>
        let j : Int := c_int left + idx
        let weight := fl32 (center - fl32 (j : ℚ))
        let weight := filterf weight
        let n : Int :=
          if j < 0 then -j
          else if j ≥ tmp_ysize then (tmp_ysize - j) + tmp_ysize - 1
          else j
        clist_push cap p ⟨n * bpp, weight⟩) []).bind (fun p =>
      some (contrib ++ [p]))) []

end Definitions

/-! ## Kernel lemmas -/

section KernelLemmas

variable {α : Type} [LinearOrderedField α]

/-- The C idiom `if (t < 0) t = -t;` computes the absolute value. -/
theorem c_abs (t : α) : (if t < 0 then -t else t) = |t| := by
  split_ifs with h
  · exact (abs_of_neg h).symm
  · exact (abs_of_nonneg (not_lt.mp h)).symm

theorem filter_abs (t : α) : filter t = filter |t| := by
  have e : (0.0 : α) = 0 := by norm_num
  simp only [filter, e, c_abs, abs_abs]

theorem triangle_filter_abs (t : α) : triangle_filter t = triangle_filter |t| := by
  have e : (0.0 : α) = 0 := by norm_num
  simp only [triangle_filter, e, c_abs, abs_abs]

theorem bell_filter_abs (t : α) : bell_filter t = bell_filter |t| := by
  simp only [bell_filter, c_abs, abs_abs]

theorem B_spline_filter_abs (t : α) : B_spline_filter t = B_spline_filter |t| := by
  simp only [B_spline_filter, c_abs, abs_abs]

theorem Lanczos3_filter_abs (sin : α → α) (t : α) :
    Lanczos3_filter sin t = Lanczos3_filter sin |t| := by
  simp only [Lanczos3_filter, c_abs, abs_abs]

theorem Mitchell_filter_abs (t : α) : Mitchell_filter t = Mitchell_filter |t| := by
  have e : (0.0 : α) = 0 := by norm_num
  simp only [Mitchell_filter, e, c_abs, abs_abs, abs_mul_abs_self]

theorem box_filter_neg (t : α) (h : |t| ≠ 0.5) : box_filter t = box_filter (-t) := by
  have h1 : t ≠ 0.5 := fun e => h (by rw [e]; exact abs_of_nonneg (by norm_num))
  have h2 : t ≠ -0.5 := fun e => h (by rw [e, abs_neg]; exact abs_of_nonneg (by norm_num))
  unfold box_filter
  by_cases a : t > -0.5 ∧ t ≤ 0.5
  · have b : -t > -0.5 ∧ -t ≤ 0.5 :=
      ⟨neg_lt_neg (lt_of_le_of_ne a.2 h1), by linarith [a.1]⟩
    rw [if_pos a, if_pos b]
  · have b : ¬ (-t > -0.5 ∧ -t ≤ 0.5) := by
      rintro ⟨b1, b2⟩
      exact a ⟨lt_of_le_of_ne (by linarith) (Ne.symm h2), by linarith⟩
    rw [if_neg a, if_neg b]

/-- Claim C7 (as amended). Each shipped kernel other than the box kernel is
symmetric at every `t`; the box kernel, which is `1` on the half-open interval
`-0.5 < t <= 0.5`, is symmetric at every `t` with `|t| ≠ 0.5`. -/
theorem kernel_symmetric (sin : α → α) (k : Kernel) (t : α)
    (h : k = Kernel.box → |t| ≠ 0.5) :
    Kernel.weight sin k t = Kernel.weight sin k (-t) := by
  cases k
  · show filter t = filter (-t)
    rw [filter_abs t, filter_abs (-t), abs_neg]
  · exact box_filter_neg t (h rfl)
  · show triangle_filter t = triangle_filter (-t)
    rw [triangle_filter_abs t, triangle_filter_abs (-t), abs_neg]
  · show bell_filter t = bell_filter (-t)
    rw [bell_filter_abs t, bell_filter_abs (-t), abs_neg]
  · show B_spline_filter t = B_spline_filter (-t)
    rw [B_spline_filter_abs t, B_spline_filter_abs (-t), abs_neg]
  · show Lanczos3_filter sin t = Lanczos3_filter sin (-t)
    rw [Lanczos3_filter_abs sin t, Lanczos3_filter_abs sin (-t), abs_neg]
  · show Mitchell_filter t = Mitchell_filter (-t)
    rw [Mitchell_filter_abs t, Mitchell_filter_abs (-t), abs_neg]

/-- Witness for `kernel_symmetric`: the box kernel at `t = 1/4`. -/
theorem kernel_symmetric_witness :
    (Kernel.box = Kernel.box → |(1 / 4 : ℚ)| ≠ 0.5) ∧
      Kernel.weight (fun _ => (0 : ℚ)) Kernel.box (1 / 4) =
        Kernel.weight (fun _ => (0 : ℚ)) Kernel.box (-(1 / 4)) :=
  ⟨fun _ => by norm_num [abs_of_nonneg],
   kernel_symmetric (fun _ => (0 : ℚ)) Kernel.box (1 / 4)
     (fun _ => by norm_num [abs_of_nonneg])⟩

/-- Claim C7 (counterexample). The box kernel is not symmetric at `t = 1/2`:
`box_filter (1/2) = 1` but `box_filter (-1/2) = 0`. -/
theorem box_filter_not_symmetric :
    box_filter (1 / 2 : ℚ) = 1 ∧ box_filter (-(1 / 2) : ℚ) = 0 ∧
      ¬ (Kernel.weight (fun _ => (0 : ℚ)) Kernel.box (1 / 2) =
          Kernel.weight (fun _ => (0 : ℚ)) Kernel.box (-(1 / 2))) := by
  refine ⟨?_, ?_, ?_⟩ <;> norm_num [box_filter, Kernel.weight]

/-- Claim C8. Each shipped kernel is zero outside its declared support: for every
`t` with `|t| > support`, `weight t = 0`. -/
theorem kernel_zero_outside_support (sin : α → α) (k : Kernel) (t : α)
    (h : Kernel.support k < |t|) : Kernel.weight sin k t = 0 := by
  cases k
  · have h1 : ¬ (|t| < 1.0) := by
      have : (1.0 : α) < |t| := by simpa [Kernel.support, filter_support] using h
      exact not_lt.mpr this.le
    show filter t = 0
    rw [filter_abs]
    have e : ¬ (|t| < (0.0 : α)) := by norm_num
    simp only [filter, e, if_false, h1]
    norm_num
  · have h0 : (0.5 : α) < |t| := by simpa [Kernel.support, box_support] using h
    show box_filter t = 0
    unfold box_filter
    have b : ¬ (t > -0.5 ∧ t ≤ 0.5) := by
      rintro ⟨b1, b2⟩
      have : |t| ≤ 0.5 := abs_le.mpr ⟨b1.le, b2⟩
      exact absurd h0 (not_lt.mpr this)
    rw [if_neg b]
    norm_num
  · have h1 : ¬ (|t| < 1.0) := by
      have : (1.0 : α) < |t| := by simpa [Kernel.support, triangle_support] using h
      exact not_lt.mpr this.le
    show triangle_filter t = 0
    rw [triangle_filter_abs]
    have e : ¬ (|t| < (0.0 : α)) := by norm_num
    simp only [triangle_filter, e, if_false, h1]
    norm_num
  · have h0 : (1.5 : α) < |t| := by simpa [Kernel.support, bell_support] using h
    have h1 : ¬ (|t| < 1.5) := not_lt.mpr h0.le
    have h2 : ¬ (|t| < 0.5) := by
      intro h3
      have : (0.5 : α) < 1.5 := by norm_num
      linarith
    show bell_filter t = 0
    rw [bell_filter_abs]
    have e : ¬ (|t| < (0 : α)) := not_lt.mpr (abs_nonneg t)
    simp only [bell_filter, e, if_false, h1, h2]
    norm_num
  · have h0 : (2 : α) < |t| := by
      have : (2.0 : α) < |t| := by simpa [Kernel.support, B_spline_support] using h
      norm_num at this
      exact this
    have h1 : ¬ (|t| < 2) := not_lt.mpr h0.le
    have h2 : ¬ (|t| < 1) := by
      intro h3
      linarith
    show B_spline_filter t = 0
    rw [B_spline_filter_abs]
    have e : ¬ (|t| < (0 : α)) := not_lt.mpr (abs_nonneg t)
    simp only [B_spline_filter, e, if_false, h1, h2]
    norm_num
  · have h0 : (3.0 : α) < |t| := by simpa [Kernel.support, Lanczos3_support] using h
    have h1 : ¬ (|t| < 3.0) := not_lt.mpr h0.le
    show Lanczos3_filter sin t = 0
    rw [Lanczos3_filter_abs]
    have e : ¬ (|t| < (0 : α)) := not_lt.mpr (abs_nonneg t)
    simp only [Lanczos3_filter, e, if_false, h1]
    norm_num
  · have h0 : (2.0 : α) < |t| := by simpa [Kernel.support, Mitchell_support] using h
    have h1 : ¬ (|t| < 2.0) := not_lt.mpr h0.le
    have h2 : ¬ (|t| < 1.0) := by
      intro h3
      have : (1.0 : α) < 2.0 := by norm_num
      linarith
    show Mitchell_filter t = 0
    rw [Mitchell_filter_abs]
    have e : ¬ (|t| < (0.0 : α)) := by norm_num
    simp only [Mitchell_filter, e, if_false, h1, h2]
    norm_num

/-- Witness for `kernel_zero_outside_support`: the bell kernel at `t = 2`. -/
theorem kernel_zero_outside_support_witness :
    (Kernel.support Kernel.bell : ℚ) < |(2 : ℚ)| ∧
      Kernel.weight (fun _ => (0 : ℚ)) Kernel.bell 2 = 0 :=
  ⟨by norm_num [Kernel.support, bell_support],
   kernel_zero_outside_support (fun _ => (0 : ℚ)) Kernel.bell 2
     (by norm_num [Kernel.support, bell_support])⟩

theorem spec_width_nonneg (S D : Nat) (s : α) (hs : 0 ≤ s) :
    0 ≤ spec_width S D s := by
  unfold spec_width
  split_ifs
  · exact div_nonneg hs (div_nonneg (Nat.cast_nonneg D) (Nat.cast_nonneg S))
  · exact hs

theorem two_width_eq (S D : Nat) (s : α) (hS : 1 ≤ S) (hD : 1 ≤ D) :
    spec_width S D s * 2 = s * 2 * max 1 (1 / ((D : α) / (S : α))) := by
  have hSp : (0 : α) < S := by exact_mod_cast hS
  have hDp : (0 : α) < D := by exact_mod_cast hD
  have hsc : (0 : α) < (D : α) / (S : α) := div_pos hDp hSp
  unfold spec_width
  split_ifs with h
  · have : (1 : α) ≤ 1 / ((D : α) / (S : α)) := by
      rw [le_div_iff₀ hsc]
      linarith
    rw [max_eq_right this]
    ring
  · have : 1 / ((D : α) / (S : α)) ≤ (1 : α) := by
      rw [div_le_iff₀ hsc]
      linarith [not_lt.mp h]
    rw [max_eq_left this]
    ring

end KernelLemmas

/-! ## Loops -/

section LoopLemmas

/-- Invariant rule for `forLoop`: the loop terminates normally and establishes
`P n` when every iteration, started in a state with `P i`, succeeds and
establishes `P (i + 1)`. -/
theorem forLoop_inv {σ : Type} (P : Nat → σ → Prop) (n : Nat)
    (body : Nat → σ → Option σ) (s : σ) (h0 : P 0 s)
    (hstep : ∀ i, i < n → ∀ t, P i t → ∃ t', body i t = some t' ∧ P (i + 1) t') :
    ∃ t, forLoop n body s = some t ∧ P n t := by
  induction n with
  | zero => exact ⟨s, rfl, h0⟩
  | succ n ih =>
    obtain ⟨t, ht, hP⟩ := ih (fun i hi => hstep i (Nat.lt_succ_of_lt hi))
    obtain ⟨t', ht', hP'⟩ := hstep n (Nat.lt_succ_self n) t hP
    exact ⟨t', by simp [forLoop, ht, ht'], hP'⟩

/-- A loop that appends one computed element per iteration builds the list of
those elements. -/
theorem forLoop_collect {β : Type} (n : Nat) (g : Nat → List β → Option β)
    (h : Nat → β) (hg : ∀ i, i < n → g i ((List.range i).map h) = some (h i)) :
    forLoop n (fun i acc => (g i acc).bind (fun p => some (acc ++ [p]))) [] =
      some ((List.range n).map h) := by
  obtain ⟨t, ht, hP⟩ := forLoop_inv (fun i acc => acc = (List.range i).map h) n
    (fun i acc => (g i acc).bind (fun p => some (acc ++ [p]))) [] rfl
    (by
      intro i hi t ht
      subst ht
      refine ⟨(List.range i).map h ++ [h i], by simp [hg i hi], ?_⟩
      simp [List.range_succ])
  rw [ht, hP]

/-- The inner loop over `j` stores one entry per iteration as long as the
`calloc`ed capacity is not exceeded. -/
theorem clist_loop {α : Type} (cap : Int) (m : Nat) (g : Nat → CONTRIB α)
    (hcap : ∀ idx, idx < m → (idx : Int) < cap) :
    forLoop m (fun idx p => clist_push cap p (g idx)) [] =
      some ((List.range m).map g) := by
  have := forLoop_collect m
    (fun idx p => if ((p.length : Nat) : Int) < cap then some (g idx) else none) g
    (by
      intro i hi
      simp [hcap i hi])
  rw [← this]
  congr 1
  funext idx p
  unfold clist_push
  split_ifs with hc
  · simp [hc]
  · simp [hc]

end LoopLemmas

/-! ## Contribution tables -/

section ContributionLemmas

variable {α : Type} [LinearOrderedField α] [FloorRing α]

/-- The number of integers between `ceil (c - w)` and `floor (c + w)` fits the
capacity `(int) (w * 2 + 1)`. -/
theorem count_lt_capacity (c w : α) (idx : Nat)
    (h : idx < (⌊c + w⌋ + 1 - ⌈c - w⌉).toNat) : (idx : Int) < c_int (w * 2 + 1) := by
  have hpos : 0 < ⌊c + w⌋ + 1 - ⌈c - w⌉ := by
    by_contra hn
    rw [Int.toNat_of_nonpos (not_lt.mp hn)] at h
    exact Nat.not_lt_zero _ h
  have hle : ⌈c - w⌉ ≤ ⌊c + w⌋ := by omega
  have h1 : ((⌈c - w⌉ : Int) : α) ≤ ((⌊c + w⌋ : Int) : α) := by exact_mod_cast hle
  have h2 : c - w ≤ (⌈c - w⌉ : α) := Int.le_ceil _
  have h3 : ((⌊c + w⌋ : Int) : α) ≤ c + w := Int.floor_le _
  have hw : 0 ≤ w := by linarith
  have h4 : ⌊c + w⌋ - ⌈c - w⌉ ≤ ⌊w * 2⌋ := by
    rw [Int.le_floor]
    push_cast
    linarith
  have h5 : c_int (w * 2 + 1) = ⌊w * 2⌋ + 1 := by
    unfold c_int
    rw [if_pos (by positivity), Int.floor_add_one]
  rw [h5]
  have h6 : (idx : Int) < ⌊c + w⌋ + 1 - ⌈c - w⌉ := by
    have := Int.toNat_of_nonneg hpos.le
    omega
  omega

theorem mirror_eq_reflect (S : Nat) (j : Int) :
    (if j < 0 then -j else if j ≥ (S : Int) then ((S : Int) - j) + S - 1 else j) =
      reflect S j := by
  unfold reflect
  split_ifs <;> ring

/-- The row table is the table of the specification (for every input of the
embedding). -/
theorem row_contributions_eq (S D bpp : Nat) (f : α → α) (s : α) :
    row_contributions D S bpp ((D : α) / (S : α)) f s =
      some ((List.range D).map (contribution_spec S D f s bpp)) := by
  have e1 : (1.0 : α) = 1 := by norm_num
  unfold row_contributions
  by_cases hsc : (D : α) / (S : α) < 1
  · rw [if_pos (by rw [e1]; exact hsc)]
    refine forLoop_collect D _ _ ?_
    intro i _
    simp only [contribution_spec, spec_left, spec_right, spec_center, spec_width,
      spec_fscale, spec_entry, if_pos hsc, e1, mirror_eq_reflect]
    rw [clist_loop _ _ _ (count_lt_capacity _ _)]
  · rw [if_neg (by rw [e1]; exact hsc)]
    refine forLoop_collect D _ _ ?_
    intro i _
    simp only [contribution_spec, spec_left, spec_right, spec_center, spec_width,
      spec_fscale, spec_entry, if_neg hsc, e1, mirror_eq_reflect, div_one]
    rw [clist_loop _ _ _ (count_lt_capacity _ _)]

/-- The column table is the table of the specification (for every input of the
embedding). -/
theorem column_contributions_eq (S D bpp : Nat) (f : α → α) (s : α) :
    column_contributions D S bpp ((D : α) / (S : α)) f s =
      some ((List.range D).map (contribution_spec S D f s bpp)) := by
  have e1 : (1.0 : α) = 1 := by norm_num
  unfold column_contributions
  by_cases hsc : (D : α) / (S : α) < 1
  · rw [if_pos (by rw [e1]; exact hsc)]
    refine forLoop_collect D _ _ ?_
    intro i _
    simp only [contribution_spec, spec_left, spec_right, spec_center, spec_width,
      spec_fscale, spec_entry, if_pos hsc, e1, mirror_eq_reflect]
    rw [clist_loop _ _ _ (count_lt_capacity _ _)]
  · rw [if_neg (by rw [e1]; exact hsc)]
    refine forLoop_collect D _ _ ?_
    intro i _
    simp only [contribution_spec, spec_left, spec_right, spec_center, spec_width,
      spec_fscale, spec_entry, if_neg hsc, e1, mirror_eq_reflect, div_one]
    rw [clist_loop _ _ _ (count_lt_capacity _ _)]

theorem spec_left_le (S D : Nat) (s : α) (hs : 0 ≤ s) (i : Nat) :
    spec_left S D s i ≤ spec_right S D s i + 1 := by
  unfold spec_left spec_right
  have hw := spec_width_nonneg S D s hs
  rw [Int.ceil_le]
  have h := Int.lt_floor_add_one ((spec_center S D i : α) + spec_width S D s)
  push_cast
  linarith

theorem contribution_spec_length (S D : Nat) (f : α → α) (s : α) (bpp i : Nat) :
    (contribution_spec S D f s bpp i).length =
      (spec_right S D s i + 1 - spec_left S D s i).toNat := by
  simp [contribution_spec]

theorem contribution_spec_getElem (S D : Nat) (f : α → α) (s : α) (bpp i : Nat)
    (j : Int) (h1 : spec_left S D s i ≤ j) (h2 : j ≤ spec_right S D s i) :
    (contribution_spec S D f s bpp i)[(j - spec_left S D s i).toNat]? =
      some (spec_entry S D f bpp i j) := by
  have hlt : (j - spec_left S D s i).toNat <
      (spec_right S D s i + 1 - spec_left S D s i).toNat := by omega
  have hj : spec_left S D s i + ((j - spec_left S D s i).toNat : Int) = j := by omega
  simp only [contribution_spec, List.getElem?_map, List.getElem?_range hlt,
    Option.map_some', hj]

theorem contribution_spec_length_le (S D : Nat) (f : α → α) (s : α) (bpp i : Nat)
    (hs : 0 ≤ s) :
    ((contribution_spec S D f s bpp i).length : Int) ≤ ⌈spec_width S D s * 2⌉ + 1 := by
  rw [contribution_spec_length]
  have hle := spec_left_le S D s hs i
  rw [Int.toNat_of_nonneg (by omega)]
  have h2 : (spec_center S D i : α) - spec_width S D s ≤ (spec_left S D s i : α) :=
    Int.le_ceil _
  have h3 : ((spec_right S D s i : Int) : α) ≤ spec_center S D i + spec_width S D s :=
    Int.floor_le _
  have h4 : spec_right S D s i - spec_left S D s i ≤ ⌊spec_width S D s * 2⌋ := by
    rw [Int.le_floor]
    push_cast
    linarith
  have h5 := Int.floor_le_ceil (spec_width S D s * 2)
  omega

/-- Claim C2. For `S, D >= 1` and a kernel `f` of support `s >= 0`, the row table
and the column table built by `zoom` for source length `S` and destination
length `D` are the same table; it has `D` lists, and the list for `i` is the one
of the specification: it has `floor (center + width) - ceil (center - width) + 1`
entries, one for every integer `j` from `ceil (center - width)` to
`floor (center + width)` in ascending order, the entry for `j` being
`(reflect j * bpp, f ((center - j) / fscale) / fscale)` whatever its weight. -/
theorem contribution_table_builder (S D bpp : Nat) (f : α → α) (s : α)
    (hS : 1 ≤ S) (hD : 1 ≤ D) (hs : 0 ≤ s) :
    ∃ tbl : List (List (CONTRIB α)),
      row_contributions D S bpp ((D : α) / (S : α)) f s = some tbl ∧
      column_contributions D S bpp ((D : α) / (S : α)) f s = some tbl ∧
      tbl.length = D ∧
      ∀ i, i < D → ∃ l : List (CONTRIB α),
        tbl[i]? = some l ∧ l = contribution_spec S D f s bpp i ∧
        (l.length : Int) =
          ⌊(i : α) / ((D : α) / (S : α)) + spec_width S D s⌋ -
            ⌈(i : α) / ((D : α) / (S : α)) - spec_width S D s⌉ + 1 ∧
        ∀ j : Int, ⌈(i : α) / ((D : α) / (S : α)) - spec_width S D s⌉ ≤ j →
          j ≤ ⌊(i : α) / ((D : α) / (S : α)) + spec_width S D s⌋ →
          l[(j - ⌈(i : α) / ((D : α) / (S : α)) - spec_width S D s⌉).toNat]? =
            some ⟨reflect S j * bpp,
              f (((i : α) / ((D : α) / (S : α)) - (j : α)) / spec_fscale S D) /
                spec_fscale S D⟩ := by
  have _hS := hS
  have _hD := hD
  refine ⟨(List.range D).map (contribution_spec S D f s bpp),
    row_contributions_eq S D bpp f s, column_contributions_eq S D bpp f s, by simp, ?_⟩
  intro i hi
  refine ⟨contribution_spec S D f s bpp i, ?_, rfl, ?_, ?_⟩
  · simp [List.getElem?_map, List.getElem?_range hi]
  · rw [contribution_spec_length]
    have hle := spec_left_le S D s hs i
    rw [Int.toNat_of_nonneg (by omega)]
    simp only [spec_left, spec_right, spec_center]
    ring
  · intro j h1 h2
    exact contribution_spec_getElem S D f s bpp i j h1 h2

/-- Witness for `contribution_table_builder`: source length 4, destination
length 2, one channel, the bell kernel with its support. -/
theorem contribution_table_builder_witness :
    ∃ tbl : List (List (CONTRIB ℚ)),
      row_contributions 2 4 1 (((2 : Nat) : ℚ) / ((4 : Nat) : ℚ)) bell_filter
        bell_support = some tbl ∧ tbl.length = 2 := by
  obtain ⟨tbl, h1, _, h3, _⟩ := contribution_table_builder 4 2 1 (bell_filter : ℚ → ℚ)
    bell_support (by decide) (by decide) (by norm_num [bell_support])
  exact ⟨tbl, h1, h3⟩

/-- Claim C6. For `S, D >= 1` and support `s >= 0`, every contribution list of the
row table and of the column table has at most
`ceil (s * 2 * max 1 (1 / scale)) + 1` entries, `scale = D / S`; for `S = 100`,
`D = 10` and the Lanczos-3 kernel with support 3 every list has at most 61. -/
theorem contribution_list_size_bound (S D bpp : Nat) (f sin : α → α) (s : α)
    (hS : 1 ≤ S) (hD : 1 ≤ D) (hs : 0 ≤ s) :
    (∃ tbl : List (List (CONTRIB α)),
      row_contributions D S bpp ((D : α) / (S : α)) f s = some tbl ∧
      column_contributions D S bpp ((D : α) / (S : α)) f s = some tbl ∧
      tbl.length = D ∧
      ∀ l ∈ tbl, (l.length : Int) ≤ ⌈s * 2 * max 1 (1 / ((D : α) / (S : α)))⌉ + 1) ∧
    (∃ tbl : List (List (CONTRIB α)),
      row_contributions 10 100 bpp (((10 : Nat) : α) / ((100 : Nat) : α))
        (Lanczos3_filter sin) Lanczos3_support = some tbl ∧
      column_contributions 10 100 bpp (((10 : Nat) : α) / ((100 : Nat) : α))
        (Lanczos3_filter sin) Lanczos3_support = some tbl ∧
      tbl.length = 10 ∧ ∀ l ∈ tbl, l.length ≤ 61) := by
  constructor
  · refine ⟨(List.range D).map (contribution_spec S D f s bpp),
      row_contributions_eq S D bpp f s, column_contributions_eq S D bpp f s, by simp, ?_⟩
    intro l hl
    obtain ⟨i, _, rfl⟩ := List.mem_map.mp hl
    rw [← two_width_eq S D s hS hD]
    exact contribution_spec_length_le S D f s bpp i hs
  · refine ⟨(List.range 10).map
        (contribution_spec 100 10 (Lanczos3_filter sin) Lanczos3_support bpp),
      row_contributions_eq 100 10 bpp _ _, column_contributions_eq 100 10 bpp _ _,
      by simp, ?_⟩
    intro l hl
    obtain ⟨i, _, rfl⟩ := List.mem_map.mp hl
    have h3 : (0 : α) ≤ Lanczos3_support := by norm_num [Lanczos3_support]
    have hb := contribution_spec_length_le 100 10 (Lanczos3_filter sin)
      (Lanczos3_support : α) bpp i h3
    have hw : spec_width 100 10 (Lanczos3_support : α) * 2 = ((60 : Int) : α) := by
      norm_num [spec_width, Lanczos3_support]
    rw [hw, Int.ceil_intCast] at hb
    omega

/-- Witness for `contribution_list_size_bound`: source length 100, destination
length 10, three channels, the Lanczos-3 kernel. -/
theorem contribution_list_size_bound_witness :
    ∃ tbl : List (List (CONTRIB ℚ)),
      row_contributions 10 100 3 (((10 : Nat) : ℚ) / ((100 : Nat) : ℚ))
        (Lanczos3_filter (fun _ => 0)) Lanczos3_support = some tbl ∧
      tbl.length = 10 ∧ ∀ l ∈ tbl, l.length ≤ 61 := by
  obtain ⟨_, tbl, h1, _, h3, h4⟩ := contribution_list_size_bound 100 10 3
    (Lanczos3_filter (fun _ => (0 : ℚ))) (fun _ => (0 : ℚ)) Lanczos3_support
    (by decide) (by decide) (by norm_num [Lanczos3_support])
  exact ⟨tbl, h1, h3, h4⟩

/-- Claim C3 (the code at the failing input). For source length 1, destination
length 1 and the bell kernel (support 1.5), the contribution list of
destination index 0 is `[(1, 1/8), (0, 3/4), (0, 1/8)]` with one channel: the
sample `j = -1` is mirrored to `n = 1`, which is not below the source length 1,
and `simage_resize` of a 1 x 1 image to 1 x 1 reads outside the row. -/
theorem mirror_index_out_of_range :
    row_contributions 1 1 1 (((1 : Nat) : ℚ) / ((1 : Nat) : ℚ)) bell_filter bell_support =
        some [[⟨1, 1 / 8⟩, ⟨0, 3 / 4⟩, ⟨0, 1 / 8⟩]] ∧
      reflect 1 (-1) = 1 ∧
      get_row (new_image 1 1 1 (some [7])) 0 = some [7] ∧
      load [7] (1 + 0) = none ∧
      simage_resize ℚ [7] 1 1 1 1 1 = none := by
  refine ⟨?_, ?_, ?_, ?_, ?_⟩ <;> decide!

end ContributionLemmas

/-! ## Pixel access -/

section PixelLemmas

/-- The bytes of pixel `(x, y)` lie inside the buffer of a well-formed image. -/
theorem pixel_offset_le (image : Image) (hwf : image.wf) (x y : Nat)
    (hx : x < image.xsize) (hy : y < image.ysize) :
    image.span * y + x * image.bpp + image.bpp ≤ image.data.length := by
  obtain ⟨h1, h2⟩ := hwf
  have a : (x + 1) * image.bpp ≤ image.xsize * image.bpp :=
    Nat.mul_le_mul_right _ hx
  have b : image.span * (y + 1) ≤ image.span * image.ysize :=
    Nat.mul_le_mul_left _ hy
  rw [Nat.succ_mul] at a
  rw [Nat.mul_succ] at b
  omega

/-- Byte offsets of distinct (pixel, channel) pairs of a well-formed image are
distinct. -/
theorem pixel_offset_inj (span bpp xsize : Nat) (hsp : xsize * bpp ≤ span)
    (x y b x' y' b' : Nat) (hx : x < xsize) (hx' : x' < xsize) (hb : b < bpp)
    (hb' : b' < bpp) (e : span * y + x * bpp + b = span * y' + x' * bpp + b') :
    y = y' ∧ x = x' ∧ b = b' := by
  have a : (x + 1) * bpp ≤ xsize * bpp := Nat.mul_le_mul_right _ hx
  have a' : (x' + 1) * bpp ≤ xsize * bpp := Nat.mul_le_mul_right _ hx'
  rw [Nat.succ_mul] at a a'
  have hy : y = y' := by
    rcases Nat.lt_trichotomy y y' with h | h | h
    · have := Nat.mul_le_mul_left span (Nat.succ_le_of_lt h)
      rw [Nat.mul_succ] at this
      omega
    · exact h
    · have := Nat.mul_le_mul_left span (Nat.succ_le_of_lt h)
      rw [Nat.mul_succ] at this
      omega
  subst hy
  have hxx : x = x' := by
    rcases Nat.lt_trichotomy x x' with h | h | h
    · have := Nat.mul_le_mul_right bpp (Nat.succ_le_of_lt h)
      rw [Nat.succ_mul] at this
      omega
    · exact h
    · have := Nat.mul_le_mul_right bpp (Nat.succ_le_of_lt h)
      rw [Nat.succ_mul] at this
      omega
  subst hxx
  exact ⟨rfl, rfl, by omega⟩

variable {α : Type} [LinearOrderedField α] [FloorRing α]

theorem clampByte_eq (v : α) :
    clampByte v = if v < 0 then 0 else if v > 255 then 255 else ⌊v⌋₊ := by
  have e0 : (0.0 : α) = 0 := by norm_num
  have e1 : (255.0 : α) = 255 := by norm_num
  unfold clampByte
  simp only [e0, e1]
  split_ifs
  · exact Nat.floor_zero
  · exact Nat.floor_ofNat 255
  · rfl

theorem clampByte_le (v : α) : clampByte v ≤ 255 := by
  rw [clampByte_eq]
  split_ifs with h1 h2
  · exact Nat.zero_le _
  · exact le_refl _
  · have : v ≤ 255 := not_lt.mp h2
    have h3 : ⌊v⌋₊ ≤ ⌊(255 : α)⌋₊ := Nat.floor_mono this
    rwa [Nat.floor_ofNat] at h3

/-- A byte (converted to a floating value) is stored back unchanged. -/
theorem clampByte_natCast (n : Nat) (h : n ≤ 255) : clampByte (n : α) = n := by
  rw [clampByte_eq]
  have h1 : ¬ ((n : α) < 0) := not_lt.mpr (Nat.cast_nonneg n)
  have h2 : ¬ ((n : α) > 255) := by
    have : (n : α) ≤ ((255 : Nat) : α) := Nat.cast_le.mpr h
    simpa using this
  rw [if_neg h1, if_neg h2, Nat.floor_natCast]

/-- What `put_pixel` does: it succeeds on an in-range pixel, keeps the geometry
and the buffer length, stores the clamped channels and nothing else. -/
theorem put_pixel_spec (image : Image) (x y : Nat) (data : List α)
    (hx : x < image.xsize) (hy : y < image.ysize) (hlen : image.bpp ≤ data.length)
    (hbuf : image.span * y + x * image.bpp + image.bpp ≤ image.data.length) :
    ∃ img : Image, put_pixel image x y data = some img ∧
      img.xsize = image.xsize ∧ img.ysize = image.ysize ∧ img.bpp = image.bpp ∧
      img.span = image.span ∧ img.data.length = image.data.length ∧
      (∀ i, i < image.bpp →
        img.data[image.span * y + x * image.bpp + i]? = (data[i]?).map clampByte) ∧
      (∀ k, (k < image.span * y + x * image.bpp ∨
          image.span * y + x * image.bpp + image.bpp ≤ k) →
        img.data[k]? = image.data[k]?) := by
  unfold put_pixel
  rw [if_pos ⟨hx, hy⟩]
  obtain ⟨img, himg, h1, h2, h3, h4, h5, h6, h7⟩ := forLoop_inv
    (fun n (img : Image) =>
      img.xsize = image.xsize ∧ img.ysize = image.ysize ∧ img.bpp = image.bpp ∧
      img.span = image.span ∧ img.data.length = image.data.length ∧
      (∀ i, i < n →
        img.data[image.span * y + x * image.bpp + i]? = (data[i]?).map clampByte) ∧
      (∀ k, (k < image.span * y + x * image.bpp ∨
          image.span * y + x * image.bpp + n ≤ k) →
        img.data[k]? = image.data[k]?))
    image.bpp
    (fun i img =>
      (data[i]?).bind (fun val =>
        (store img.data (image.span * y + x * image.bpp + i) (clampByte val)).bind
          (fun d => some { img with data := d })))
    image
    ⟨rfl, rfl, rfl, rfl, rfl, fun i hi => absurd hi (Nat.not_lt_zero i), fun _ _ => rfl⟩
    (by
      intro i hi t ⟨h1, h2, h3, h4, h5, h6, h7⟩
      have hd : i < data.length := lt_of_lt_of_le hi hlen
      have hs : image.span * y + x * image.bpp + i < t.data.length := by omega
      refine ⟨Image.mk t.xsize t.ysize t.bpp
        (List.set t.data (image.span * y + x * image.bpp + i) (clampByte data[i])) t.span,
        ?_, h1, h2, h3, h4, ?_, ?_, ?_⟩
      · simp [List.getElem?_eq_getElem hd, store, hs]
      · simp [h5]
      · intro i' hi'
        rcases Nat.lt_succ_iff_lt_or_eq.mp hi' with hlt | heq
        · have hne : image.span * y + x * image.bpp + i ≠
              image.span * y + x * image.bpp + i' := by omega
          simp only [List.getElem?_set_ne hne]
          exact h6 i' hlt
        · subst heq
          simp [List.getElem?_set_self hs, List.getElem?_eq_getElem hd]
      · intro k hk
        have hne : image.span * y + x * image.bpp + i ≠ k := by omega
        simp only [List.getElem?_set_ne hne]
        exact h7 k (by omega))
  exact ⟨img, himg, h1, h2, h3, h4, h5, h6, h7⟩

/-- Claim C4. On a well-formed image and an in-range `(x, y)`, `put_pixel`
succeeds; for each of the `bpp` channel values `v` it stores, at offset
`span * y + x * bpp + i`, the byte `0` if `v < 0`, `255` if `v > 255` and
`floor v` otherwise; every other byte of the buffer, the buffer length and the
geometry are unchanged. -/
theorem put_pixel_clamps (image : Image) (x y : Nat) (data : List α)
    (hwf : image.wf) (hx : x < image.xsize) (hy : y < image.ysize)
    (hlen : image.bpp ≤ data.length) :
    ∃ img : Image, put_pixel image x y data = some img ∧
      img.xsize = image.xsize ∧ img.ysize = image.ysize ∧ img.bpp = image.bpp ∧
      img.span = image.span ∧ img.data.length = image.data.length ∧
      (∀ i, i < image.bpp → ∃ v : α, data[i]? = some v ∧
        img.data[image.span * y + x * image.bpp + i]? =
          some (if v < 0 then 0 else if v > 255 then 255 else ⌊v⌋₊)) ∧
      (∀ k, (k < image.span * y + x * image.bpp ∨
          image.span * y + x * image.bpp + image.bpp ≤ k) →
        img.data[k]? = image.data[k]?) := by
  obtain ⟨img, himg, h1, h2, h3, h4, h5, h6, h7⟩ := put_pixel_spec image x y data hx hy
    hlen (pixel_offset_le image hwf x y hx hy)
  refine ⟨img, himg, h1, h2, h3, h4, h5, ?_, h7⟩
  intro i hi
  have hd : i < data.length := lt_of_lt_of_le hi hlen
  refine ⟨data[i], List.getElem?_eq_getElem hd, ?_⟩
  rw [h6 i hi, List.getElem?_eq_getElem hd, Option.map_some', clampByte_eq]

/-- Witness for `put_pixel_clamps`: a 2 x 1 image of two channels, pixel
`(1, 0)`, channel values `-3` and `300.5`. -/
theorem put_pixel_clamps_witness :
    (new_image 2 1 2 (some [1, 2, 3, 4])).wf ∧
    ∃ img : Image,
      put_pixel (new_image 2 1 2 (some [1, 2, 3, 4])) 1 0 [(-3 : ℚ), 300.5] = some img ∧
      img.data.length = 4 := by
  refine ⟨by decide, ?_⟩
  obtain ⟨img, himg, _, _, _, _, h5, _, _⟩ := put_pixel_clamps
    (new_image 2 1 2 (some [1, 2, 3, 4])) 1 0 [(-3 : ℚ), 300.5]
    (by decide) (by decide) (by decide) (by decide)
  exact ⟨img, himg, h5⟩

end PixelLemmas

/-! ## Rows, columns and the accumulation of one pixel -/

section AccessLemmas

theorem load_natCast {β : Type} (buf : List β) (k : Nat) : load buf (k : Int) = buf[k]? := by
  simp [load]

/-- What `get_row` does on a well-formed image. -/
theorem get_row_spec (image : Image) (hwf : image.wf) (y : Nat) (hy : y < image.ysize) :
    get_row image y =
        some ((image.data.drop (y * image.span)).take (image.bpp * image.xsize)) ∧
      ((image.data.drop (y * image.span)).take (image.bpp * image.xsize)).length =
        image.bpp * image.xsize ∧
      ∀ k, k < image.bpp * image.xsize →
        ((image.data.drop (y * image.span)).take (image.bpp * image.xsize))[k]? =
          image.data[image.span * y + k]? := by
  obtain ⟨h1, h2⟩ := hwf
  have b : image.span * (y + 1) ≤ image.span * image.ysize := Nat.mul_le_mul_left _ hy
  rw [Nat.mul_succ] at b
  have hc1 : y * image.span = image.span * y := Nat.mul_comm _ _
  have hc2 : image.bpp * image.xsize = image.xsize * image.bpp := Nat.mul_comm _ _
  have hle : y * image.span + image.bpp * image.xsize ≤ image.data.length := by omega
  refine ⟨?_, ?_, ?_⟩
  · unfold get_row
    rw [if_pos hy, if_pos hle]
  · rw [List.length_take, List.length_drop]
    omega
  · intro k hk
    rw [List.getElem?_take_of_lt hk, List.getElem?_drop, hc1]

/-- What `get_column` does on a well-formed image. -/
theorem get_column_spec (image : Image) (hwf : image.wf) (x : Nat) (hx : x < image.xsize) :
    ∃ column : List Nat, get_column image x = some column ∧
      column.length = image.ysize * image.bpp ∧
      ∀ r b, r < image.ysize → b < image.bpp →
        column[r * image.bpp + b]? = image.data[image.span * r + x * image.bpp + b]? := by
  unfold get_column
  rw [if_pos hx]
  have key := forLoop_inv
    (fun n (column : List Nat) => column.length = n * image.bpp ∧
      ∀ r b, r < n → b < image.bpp →
        column[r * image.bpp + b]? = image.data[image.span * r + x * image.bpp + b]?)
    image.ysize
    (fun i column =>
      forLoop image.bpp (fun j column =>
        (image.data[x * image.bpp + i * image.span + j]?).bind
          (fun v => some (column ++ [v]))) column)
    [] ⟨by simp, fun r b hr => absurd hr (Nat.not_lt_zero r)⟩
    (by
      intro i hi col ⟨hlen, hcol⟩
      obtain ⟨col', hrun, hlen', hold, hnew⟩ := forLoop_inv
        (fun m (column : List Nat) => column.length = i * image.bpp + m ∧
          (∀ r b, r < i → b < image.bpp →
            column[r * image.bpp + b]? =
              image.data[image.span * r + x * image.bpp + b]?) ∧
          ∀ b, b < m →
            column[i * image.bpp + b]? = image.data[image.span * i + x * image.bpp + b]?)
        image.bpp
        (fun j column =>
          (image.data[x * image.bpp + i * image.span + j]?).bind
            (fun v => some (column ++ [v])))
        col ⟨by omega, hcol, fun b hb => absurd hb (Nat.not_lt_zero b)⟩
        (by
          intro j hj c ⟨clen, cold, cnew⟩
          have hoff := pixel_offset_le image hwf x i hx hi
          have hidx : x * image.bpp + i * image.span + j < image.data.length := by
            have : i * image.span = image.span * i := Nat.mul_comm _ _
            omega
          have hre : x * image.bpp + i * image.span + j =
              image.span * i + x * image.bpp + j := by
            have : i * image.span = image.span * i := Nat.mul_comm _ _
            omega
          refine ⟨c ++ [image.data[x * image.bpp + i * image.span + j]], ?_, ?_, ?_, ?_⟩
          · simp [List.getElem?_eq_getElem hidx]
          · simp [clen]
            omega
          · intro r b hr hb
            have hlt : r * image.bpp + b < c.length := by
              have := Nat.mul_le_mul_right image.bpp (Nat.succ_le_of_lt hr)
              rw [Nat.succ_mul] at this
              omega
            rw [List.getElem?_append_left hlt]
            exact cold r b hr hb
          · intro b hb
            rcases Nat.lt_succ_iff_lt_or_eq.mp hb with hlt | heq
            · have hl : i * image.bpp + b < c.length := by omega
              rw [List.getElem?_append_left hl]
              exact cnew b hlt
            · subst heq
              have hl : c.length ≤ i * image.bpp + b := by omega
              rw [List.getElem?_append_right hl]
              have h0 : i * image.bpp + b - c.length = 0 := by omega
              rw [h0, ← hre, List.getElem?_eq_getElem hidx]
              rfl)
      refine ⟨col', hrun, ?_, ?_⟩
      · rw [hlen', Nat.succ_mul]
      · intro r b hr hb
        rcases Nat.lt_succ_iff_lt_or_eq.mp hr with hlt | heq
        · exact hold r b hlt hb
        · subst heq
          exact hnew b hb)
  obtain ⟨column, hrun, hlen, hcol⟩ := key
  exact ⟨column, hrun, hlen, hcol⟩

theorem load_eq_some_byteAt (buf : List Nat) (k : Int) (h0 : 0 ≤ k)
    (h1 : k.toNat < buf.length) : load buf k = some (byteAt buf k) := by
  unfold byteAt load
  rw [if_pos h0, List.getElem?_eq_getElem h1]
  rfl

theorem byteAt_natCast (buf : List Nat) (k : Nat) : byteAt buf (k : Int) = (buf[k]?).getD 0 := by
  unfold byteAt
  rw [load_natCast]

variable {α : Type} [LinearOrderedField α]

/-- The loop `for (b = 0; b < bpp; b++) pixel[b] = 0.0;`. -/
theorem zero_loop_spec (bpp : Nat) (pixel : List α) (h : bpp ≤ pixel.length) :
    ∃ px : List α, forLoop bpp (fun b pixel => store pixel b (0.0 : α)) pixel = some px ∧
      px.length = pixel.length ∧ ∀ b, b < bpp → px[b]? = some 0 := by
  have e0 : (0.0 : α) = 0 := by norm_num
  exact forLoop_inv
    (fun n (px : List α) => px.length = pixel.length ∧ ∀ b, b < n → px[b]? = some 0)
    bpp (fun b pixel => store pixel b (0.0 : α)) pixel
    ⟨rfl, fun b hb => absurd hb (Nat.not_lt_zero b)⟩
    (by
      intro n hn px ⟨hlen, hz⟩
      have hlt : n < px.length := by omega
      refine ⟨px.set n 0, by simp [store, hlt, e0], by simp [hlen], ?_⟩
      intro b hb
      rcases Nat.lt_succ_iff_lt_or_eq.mp hb with hlt' | heq
      · have hne : n ≠ b := by omega
        rw [List.getElem?_set_ne hne]
        exact hz b hlt'
      · subst heq
        exact List.getElem?_set_self hlt)

/-- The loop `for (b = 0; b < bpp; b++) pixel[b] += raster[c.pixel + b] * c.weight;`
for one entry `c` whose bytes are inside the raster. -/
theorem add_loop_spec (bpp : Nat) (raster : List Nat) (c : CONTRIB α) (pixel : List α)
    (h : bpp ≤ pixel.length) (h0 : 0 ≤ c.pixel)
    (h1 : c.pixel + (bpp : Int) ≤ (raster.length : Int)) :
    ∃ px : List α,
      forLoop bpp (fun b pixel =>
        (load raster (c.pixel + (b : Int))).bind (fun r =>
          (pixel[b]?).bind (fun old =>
            store pixel b (old + (r : α) * c.weight)))) pixel = some px ∧
      px.length = pixel.length ∧
      ∀ b, b < bpp → px[b]? =
        (pixel[b]?).map (fun old => old + (byteAt raster (c.pixel + (b : Int)) : α) * c.weight) := by
  obtain ⟨px, hrun, hlen, hlow, _⟩ := forLoop_inv
    (fun n (px : List α) => px.length = pixel.length ∧
      (∀ b, b < n → px[b]? =
        (pixel[b]?).map
          (fun old => old + (byteAt raster (c.pixel + (b : Int)) : α) * c.weight)) ∧
      ∀ b, n ≤ b → px[b]? = pixel[b]?)
    bpp
    (fun b pixel =>
      (load raster (c.pixel + (b : Int))).bind (fun r =>
        (pixel[b]?).bind (fun old =>
          store pixel b (old + (r : α) * c.weight))))
    pixel ⟨rfl, fun b hb => absurd hb (Nat.not_lt_zero b), fun _ _ => rfl⟩
    (by
      intro n hn px ⟨hlen, hlow, hhigh⟩
      have hlt : n < px.length := by omega
      have hlt' : n < pixel.length := by omega
      have hload := load_eq_some_byteAt raster (c.pixel + (n : Int)) (by omega) (by omega)
      have hold : px[n]? = some pixel[n] := by
        rw [hhigh n (le_refl n), List.getElem?_eq_getElem hlt']
      refine ⟨px.set n (pixel[n] + (byteAt raster (c.pixel + (n : Int)) : α) * c.weight),
        ?_, by simp [hlen], ?_, ?_⟩
      · beta_reduce
        rw [hload, hold]
        simp [store, hlt]
      · intro b hb
        rcases Nat.lt_succ_iff_lt_or_eq.mp hb with hb' | heq
        · have hne : n ≠ b := by omega
          rw [List.getElem?_set_ne hne]
          exact hlow b hb'
        · subst heq
          rw [List.getElem?_set_self hlt, List.getElem?_eq_getElem hlt']
          rfl
      · intro b hb
        have hne : n ≠ b := by omega
        rw [List.getElem?_set_ne hne]
        exact hhigh b (by omega))
  exact ⟨px, hrun, hlen, hlow⟩

/-- The loop over the entries of a contribution list adds the weighted sum to
every channel. -/
theorem entries_loop_spec (bpp : Nat) (raster : List Nat) (clist : List (CONTRIB α)) :
    ∀ pixel : List α, bpp ≤ pixel.length →
      (∀ c ∈ clist, 0 ≤ c.pixel ∧ c.pixel + (bpp : Int) ≤ (raster.length : Int)) →
      ∃ px : List α,
        clist.foldlM (fun pixel c =>
          forLoop bpp (fun b pixel =>
            (load raster (c.pixel + (b : Int))).bind (fun r =>
              (pixel[b]?).bind (fun old =>
                store pixel b (old + (r : α) * c.weight)))) pixel) pixel = some px ∧
        px.length = pixel.length ∧
        ∀ b, b < bpp →
          px[b]? = (pixel[b]?).map (fun old => old + weighted_sum raster clist b) := by
  induction clist with
  | nil =>
    intro pixel _ _
    refine ⟨pixel, rfl, rfl, ?_⟩
    intro b _
    simp [weighted_sum]
  | cons c rest ih =>
    intro pixel hlen hin
    obtain ⟨hc0, hc1⟩ := hin c (List.mem_cons_self c rest)
    obtain ⟨px1, hrun1, hlen1, hval1⟩ := add_loop_spec bpp raster c pixel hlen hc0 hc1
    obtain ⟨px, hrun, hlen2, hval⟩ := ih px1 (by omega)
      (fun c' hc' => hin c' (List.mem_cons_of_mem c hc'))
    refine ⟨px, ?_, by omega, ?_⟩
    · rw [List.foldlM_cons, hrun1]
      exact hrun
    · intro b hb
      rw [hval b hb, hval1 b hb, Option.map_map]
      congr 1
      funext old
      simp only [Function.comp, weighted_sum, List.map_cons, List.sum_cons]
      ring

/-- What `accumulate` does when every entry of the list is inside the raster and
the accumulator has room for `bpp` channels: channel `b` of the result is the
weighted sum for `b`. -/
theorem accumulate_spec (bpp : Nat) (raster : List Nat) (clist : List (CONTRIB α))
    (pixel : List α) (hlen : bpp ≤ pixel.length)
    (hin : ∀ c ∈ clist, 0 ≤ c.pixel ∧ c.pixel + (bpp : Int) ≤ (raster.length : Int)) :
    ∃ px : List α, accumulate bpp raster clist pixel = some px ∧
      px.length = pixel.length ∧
      ∀ b, b < bpp → px[b]? = some (weighted_sum raster clist b) := by
  obtain ⟨px0, hrun0, hlen0, hz⟩ := zero_loop_spec bpp pixel hlen
  obtain ⟨px, hrun, hlen1, hval⟩ := entries_loop_spec bpp raster clist px0 (by omega) hin
  refine ⟨px, ?_, by omega, ?_⟩
  · unfold accumulate
    rw [hrun0]
    exact hrun
  · intro b hb
    rw [hval b hb, hz b hb]
    simp

/-- Two weighted sums agree when the bytes they read agree. -/
theorem sum_congr_bytes (clist : List (CONTRIB α)) (g h : CONTRIB α → Nat)
    (hgh : ∀ c ∈ clist, g c = h c) :
    (clist.map (fun c => (g c : α) * c.weight)).sum =
      (clist.map (fun c => (h c : α) * c.weight)).sum := by
  congr 1
  apply List.map_congr_left
  intro c hc
  rw [hgh c hc]

end AccessLemmas

/-! ## The two loops of a pass -/

section PassLemmas

variable {α : Type} [LinearOrderedField α] [FloorRing α]

/-- One iteration of the inner loop of a pass: accumulate the pixel of list
`clist` and store it at `(x, y)`. -/
theorem pixel_step (bpp : Nat) (raster : List Nat) (clist : List (CONTRIB α))
    (contrib : List (List (CONTRIB α))) (i x y : Nat) (st : Image × List α)
    (hwf : st.1.wf) (hbpp : st.1.bpp = bpp) (h4 : bpp ≤ st.2.length)
    (htbl : contrib[i]? = some clist)
    (hin : ∀ c ∈ clist, 0 ≤ c.pixel ∧ c.pixel + (bpp : Int) ≤ (raster.length : Int))
    (hx : x < st.1.xsize) (hy : y < st.1.ysize) :
    ∃ st' : Image × List α,
      (contrib[i]?).bind (fun clist =>
        (accumulate bpp raster clist st.2).bind (fun pixel =>
          (put_pixel st.1 x y pixel).bind (fun t => some (t, pixel)))) = some st' ∧
      st'.1.xsize = st.1.xsize ∧ st'.1.ysize = st.1.ysize ∧ st'.1.bpp = st.1.bpp ∧
      st'.1.span = st.1.span ∧ st'.1.data.length = st.1.data.length ∧
      st'.2.length = st.2.length ∧
      (∀ b, b < bpp → st'.1.data[st.1.span * y + x * bpp + b]? =
        some (clampByte (weighted_sum raster clist b))) ∧
      (∀ q, (∀ b, b < bpp → q ≠ st.1.span * y + x * bpp + b) →
        st'.1.data[q]? = st.1.data[q]?) := by
  obtain ⟨px, hacc, hpxlen, hpx⟩ := accumulate_spec bpp raster clist st.2 h4 hin
  obtain ⟨img, hput, g1, g2, g3, g4, g5, hval, hframe⟩ := put_pixel_spec st.1 x y px hx hy
    (by rw [hbpp]; omega) (pixel_offset_le st.1 hwf x y hx hy)
  rw [hbpp] at hval hframe
  refine ⟨(img, px), ?_, g1, g2, g3, g4, g5, hpxlen, ?_, ?_⟩
  · rw [htbl]
    simp only [Option.some_bind, hacc, hput]
  · intro b hb
    rw [hval b hb, hpx b hb]
    rfl
  · intro q hq
    apply hframe q
    by_contra hcon
    have h1 : st.1.span * y + x * bpp ≤ q := by omega
    have h2 : q < st.1.span * y + x * bpp + bpp := by omega
    exact hq (q - (st.1.span * y + x * bpp)) (by omega) (by omega)

/-- The two nested loops of a pass of `zoom`.  The outer loop fetches the raster
`rasters k`, the inner loop accumulates the pixel of list `tbl i` and stores it
at `(fx k i, fy k i)`.  When all reads are in range the loops succeed, keep the
geometry, and every pixel `(fx k i, fy k i)` holds the clamped weighted sums. -/
theorem pixel_loops (bpp m n : Nat) (getter : Nat → Option (List Nat))
    (rasters : Nat → List Nat) (tbl : Nat → List (CONTRIB α))
    (contrib : List (List (CONTRIB α))) (fx fy : Nat → Nat → Nat)
    (img0 : Image) (px0 : List α)
    (hwf : img0.wf) (hbpp : img0.bpp = bpp) (h4 : bpp ≤ px0.length)
    (hget : ∀ k, k < m → getter k = some (rasters k))
    (htbl : ∀ i, i < n → contrib[i]? = some (tbl i))
    (hin : ∀ k i, k < m → i < n → ∀ c ∈ tbl i,
      0 ≤ c.pixel ∧ c.pixel + (bpp : Int) ≤ ((rasters k).length : Int))
    (hfx : ∀ k i, k < m → i < n → fx k i < img0.xsize)
    (hfy : ∀ k i, k < m → i < n → fy k i < img0.ysize)
    (hinj : ∀ k i k' i', k < m → i < n → k' < m → i' < n →
      fx k i = fx k' i' → fy k i = fy k' i' → k = k' ∧ i = i') :
    ∃ st : Image × List α,
      forLoop m (fun k st =>
        (getter k).bind (fun raster =>
          forLoop n (fun i st =>
            (contrib[i]?).bind (fun clist =>
              (accumulate bpp raster clist st.2).bind (fun pixel =>
                (put_pixel st.1 (fx k i) (fy k i) pixel).bind (fun t =>
                  some (t, pixel))))) st)) (img0, px0) = some st ∧
      st.1.xsize = img0.xsize ∧ st.1.ysize = img0.ysize ∧ st.1.bpp = img0.bpp ∧
      st.1.span = img0.span ∧ st.1.data.length = img0.data.length ∧
      ∀ k i b, k < m → i < n → b < bpp →
        st.1.data[img0.span * fy k i + fx k i * bpp + b]? =
          some (clampByte (weighted_sum (rasters k) (tbl i) b)) := by
  obtain ⟨st, hrun, g1, g2, g3, g4, g5, _, hval⟩ := forLoop_inv
    (fun K (st : Image × List α) =>
      st.1.xsize = img0.xsize ∧ st.1.ysize = img0.ysize ∧ st.1.bpp = img0.bpp ∧
      st.1.span = img0.span ∧ st.1.data.length = img0.data.length ∧
      st.2.length = px0.length ∧
      ∀ k i b, k < m → i < n → b < bpp → k < K →
        st.1.data[img0.span * fy k i + fx k i * bpp + b]? =
          some (clampByte (weighted_sum (rasters k) (tbl i) b)))
    m
    (fun k st =>
      (getter k).bind (fun raster =>
        forLoop n (fun i st =>
          (contrib[i]?).bind (fun clist =>
            (accumulate bpp raster clist st.2).bind (fun pixel =>
              (put_pixel st.1 (fx k i) (fy k i) pixel).bind (fun t =>
                some (t, pixel))))) st))
    (img0, px0)
    ⟨rfl, rfl, rfl, rfl, rfl, rfl, fun k _ _ _ _ _ hk => absurd hk (Nat.not_lt_zero k)⟩
    (by
      intro K hK st0 ⟨a1, a2, a3, a4, a5, a6, aval⟩
      beta_reduce
      rw [hget K hK, Option.some_bind]
      obtain ⟨st, hrun, g1, g2, g3, g4, g5, g6, hval⟩ := forLoop_inv
        (fun I (st : Image × List α) =>
          st.1.xsize = img0.xsize ∧ st.1.ysize = img0.ysize ∧ st.1.bpp = img0.bpp ∧
          st.1.span = img0.span ∧ st.1.data.length = img0.data.length ∧
          st.2.length = px0.length ∧
          ∀ k i b, k < m → i < n → b < bpp → (k < K ∨ (k = K ∧ i < I)) →
            st.1.data[img0.span * fy k i + fx k i * bpp + b]? =
              some (clampByte (weighted_sum (rasters k) (tbl i) b)))
        n
        (fun i st =>
          (contrib[i]?).bind (fun clist =>
            (accumulate bpp (rasters K) clist st.2).bind (fun pixel =>
              (put_pixel st.1 (fx K i) (fy K i) pixel).bind (fun t =>
                some (t, pixel)))))
        st0
        ⟨a1, a2, a3, a4, a5, a6, fun k i b hk hi hb hor =>
          aval k i b hk hi hb (by omega)⟩
        (by
          intro I hI st ⟨g1, g2, g3, g4, g5, g6, gval⟩
          have swf : st.1.wf := by
            unfold Image.wf
            rw [g1, g2, g3, g4, g5]
            exact hwf
          obtain ⟨st', hstep, e1, e2, e3, e4, e5, e6, enew, eframe⟩ :=
            pixel_step bpp (rasters K) (tbl I) contrib I (fx K I) (fy K I) st swf
              (by rw [g3, hbpp]) (by omega) (htbl I hI) (hin K I hK hI)
              (by rw [g1]; exact hfx K I hK hI) (by rw [g2]; exact hfy K I hK hI)
          rw [g4] at enew eframe
          refine ⟨st', hstep, by rw [e1, g1], by rw [e2, g2], by rw [e3, g3],
            by rw [e4, g4], by rw [e5, g5], by rw [e6, g6], ?_⟩
          intro k i b hk hi hb hor
          by_cases hcur : k = K ∧ i = I
          · obtain ⟨rfl, rfl⟩ := hcur
            exact enew b hb
          · rw [eframe]
            · exact gval k i b hk hi hb (by omega)
            · intro b' hb' heq
              have hsp : img0.xsize * bpp ≤ img0.span := by
                rw [← hbpp]
                exact hwf.1
              obtain ⟨q1, q2, _⟩ := pixel_offset_inj img0.span bpp img0.xsize hsp
                (fx k i) (fy k i) b (fx K I) (fy K I) b' (hfx k i hk hi)
                (hfx K I hK hI) hb hb' heq
              exact hcur (hinj k i K I hk hi hK hI q2 q1))
      refine ⟨st, hrun, g1, g2, g3, g4, g5, g6, ?_⟩
      intro k i b hk hi hb hlt
      exact hval k i b hk hi hb (by omega))
  exact ⟨st, hrun, g1, g2, g3, g4, g5, fun k i b hk hi hb => hval k i b hk hi hb hk⟩

theorem new_image_none_wf (xsize ysize bpp : Nat) :
    (new_image xsize ysize bpp none).wf := by
  simp [Image.wf, new_image]

theorem new_image_some_wf (xsize ysize bpp : Nat) (data : List Nat)
    (h : xsize * bpp * ysize ≤ data.length) :
    (new_image xsize ysize bpp (some data)).wf := by
  simp [Image.wf, new_image, h]

/-- Every entry of a contribution list stores a multiple of `bpp`. -/
theorem contribution_spec_pixel (S D : Nat) (f : α → α) (s : α) (bpp i : Nat)
    (c : CONTRIB α) (hc : c ∈ contribution_spec S D f s bpp i) :
    ∃ j : Int, c.pixel = reflect S j * (bpp : Int) := by
  unfold contribution_spec at hc
  obtain ⟨k, _, rfl⟩ := List.mem_map.mp hc
  exact ⟨_, rfl⟩

/-- The horizontal pass: when every row read is in range, `zoom_horizontal`
returns the intermediate image of `dst.xsize` by `src.ysize` pixels whose
pixel `(x, r)` holds the clamped weighted sums of row `r` of `src`. -/
theorem zoom_horizontal_spec (dst src : Image) (f : α → α) (s : α)
    (hsrc : src.wf) (hbpp : dst.bpp = src.bpp) (h4 : src.bpp ≤ 4)
    (hrow : ∀ x, x < dst.xsize → ∀ e ∈ contribution_spec src.xsize dst.xsize f s src.bpp x,
      0 ≤ e.pixel ∧ e.pixel + (src.bpp : Int) ≤ ((src.xsize * src.bpp : Nat) : Int)) :
    ∃ T : Image, zoom_horizontal dst src f s = some T ∧
      T.xsize = dst.xsize ∧ T.ysize = src.ysize ∧ T.bpp = src.bpp ∧
      T.span = dst.xsize * src.bpp ∧ T.data.length = dst.xsize * src.bpp * src.ysize ∧
      ∀ x r b, x < dst.xsize → r < src.ysize → b < src.bpp →
        T.data[dst.xsize * src.bpp * r + x * src.bpp + b]? =
          some (clampByte (weighted_sum
            ((src.data.drop (r * src.span)).take (src.bpp * src.xsize))
            (contribution_spec src.xsize dst.xsize f s src.bpp x) b)) := by
  obtain ⟨st, hrun, g1, g2, g3, g4, g5, hval⟩ := pixel_loops src.bpp src.ysize dst.xsize
    (get_row src)
    (fun r => (src.data.drop (r * src.span)).take (src.bpp * src.xsize))
    (contribution_spec src.xsize dst.xsize f s src.bpp)
    ((List.range dst.xsize).map (contribution_spec src.xsize dst.xsize f s src.bpp))
    (fun _ i => i) (fun k _ => k)
    (new_image dst.xsize src.ysize dst.bpp none) (List.replicate 4 (0 : α))
    (new_image_none_wf _ _ _) hbpp (by simpa using h4)
    (fun k hk => (get_row_spec src hsrc k hk).1)
    (fun i hi => by simp [List.getElem?_map, List.getElem?_range hi])
    (by
      intro k i hk hi c hc
      obtain ⟨c0, c1⟩ := hrow i hi c hc
      rw [(get_row_spec src hsrc k hk).2.1]
      refine ⟨c0, ?_⟩
      rw [Nat.mul_comm src.bpp src.xsize]
      exact c1)
    (fun _ i _ hi => hi) (fun k _ hk _ => hk)
    (fun _ _ _ _ _ _ _ _ e1 e2 => ⟨e2, e1⟩)
  refine ⟨st.1, ?_, g1, g2, ?_, ?_, ?_, ?_⟩
  · unfold zoom_horizontal
    simp only [row_contributions_eq, Option.some_bind]
    exact congrArg (fun o => Option.bind o (fun st => some st.1)) hrun
  · rw [g3]
    exact hbpp
  · rw [g4]
    show dst.xsize * dst.bpp = dst.xsize * src.bpp
    rw [hbpp]
  · rw [g5]
    simp [new_image, hbpp]
  · intro x r b hx hr hb
    have := hval r x b hr hx hb
    have e : (new_image dst.xsize src.ysize dst.bpp none).span = dst.xsize * src.bpp := by
      show dst.xsize * dst.bpp = dst.xsize * src.bpp
      rw [hbpp]
    rw [e] at this
    exact this

/-- The vertical pass: when every column read is in range, `zoom_vertical`
returns `dst` with pixel `(x, y)` holding the clamped weighted sums of column
`x` of the intermediate image. -/
theorem zoom_vertical_spec (dst src tmp : Image) (f : α → α) (s : α)
    (hdst : dst.wf) (htmp : tmp.wf) (hbpp : dst.bpp = src.bpp) (hbpp2 : tmp.bpp = src.bpp)
    (htx : tmp.xsize = dst.xsize) (hty : tmp.ysize = src.ysize) (h4 : src.bpp ≤ 4)
    (hcol : ∀ y, y < dst.ysize → ∀ e ∈ contribution_spec src.ysize dst.ysize f s src.bpp y,
      0 ≤ e.pixel ∧ e.pixel + (src.bpp : Int) ≤ ((src.ysize * src.bpp : Nat) : Int)) :
    ∃ out : Image, zoom_vertical dst src tmp f s = some out ∧
      out.xsize = dst.xsize ∧ out.ysize = dst.ysize ∧ out.bpp = dst.bpp ∧
      out.span = dst.span ∧ out.data.length = dst.data.length ∧
      ∀ x y b, x < dst.xsize → y < dst.ysize → b < src.bpp →
        ∃ column : List Nat, get_column tmp x = some column ∧
          out.data[dst.span * y + x * src.bpp + b]? =
            some (clampByte (weighted_sum column
              (contribution_spec src.ysize dst.ysize f s src.bpp y) b)) := by
  have hcolumn : ∀ x, x < dst.xsize →
      get_column tmp x = some ((get_column tmp x).getD []) := by
    intro x hx
    obtain ⟨col, hc, _⟩ := get_column_spec tmp htmp x (by rw [htx]; exact hx)
    rw [hc]
    rfl
  obtain ⟨st, hrun, g1, g2, g3, g4, g5, hval⟩ := pixel_loops src.bpp dst.xsize dst.ysize
    (get_column tmp)
    (fun x => (get_column tmp x).getD [])
    (contribution_spec src.ysize dst.ysize f s src.bpp)
    ((List.range dst.ysize).map (contribution_spec src.ysize dst.ysize f s src.bpp))
    (fun k _ => k) (fun _ i => i)
    dst (List.replicate 4 (0 : α))
    hdst hbpp (by simpa using h4)
    hcolumn
    (fun i hi => by simp [List.getElem?_map, List.getElem?_range hi])
    (by
      intro k i hk hi c hc
      obtain ⟨c0, c1⟩ := hcol i hi c hc
      obtain ⟨col, hcl, hlen, _⟩ := get_column_spec tmp htmp k (by rw [htx]; exact hk)
      simp only [hcl, Option.getD_some, hlen, hty, hbpp2]
      exact ⟨c0, c1⟩)
    (fun k _ hk _ => hk) (fun _ i _ hi => hi)
    (fun _ _ _ _ _ _ _ _ e1 e2 => ⟨e1, e2⟩)
  refine ⟨st.1, ?_, g1, g2, g3, g4, g5, ?_⟩
  · unfold zoom_vertical
    simp only [hty, column_contributions_eq, Option.some_bind]
    exact congrArg (fun o => Option.bind o (fun st => some st.1)) hrun
  · intro x y b hx hy hb
    exact ⟨(get_column tmp x).getD [], hcolumn x hx, hval x y b hx hy hb⟩

/-- A byte of the raster that `get_row` fills is the byte of the scanline. -/
theorem row_raster_byte (src : Image) (hsrc : src.wf) (r : Nat) (hr : r < src.ysize)
    (k : Int) (h0 : 0 ≤ k) (h1 : k < ((src.xsize * src.bpp : Nat) : Int)) :
    byteAt ((src.data.drop (r * src.span)).take (src.bpp * src.xsize)) k =
      src.row_byte (r : Int) k := by
  obtain ⟨n, rfl⟩ := Int.eq_ofNat_of_zero_le h0
  have hn : n < src.bpp * src.xsize := by
    rw [Nat.mul_comm]
    exact_mod_cast h1
  unfold Image.row_byte
  have e : (src.span : Int) * (r : Int) + (n : Int) = ((src.span * r + n : Nat) : Int) := by
    push_cast
    ring
  rw [e, byteAt_natCast, byteAt_natCast, (get_row_spec src hsrc r hr).2.2 n hn]

/-- A byte of the raster that `get_column` fills is the byte of the pixel of
that column. -/
theorem column_raster_byte (tmp : Image) (htmp : tmp.wf) (x : Nat) (hx : x < tmp.xsize)
    (column : List Nat) (hcol : get_column tmp x = some column)
    (p : Int) (j : Int) (hp : p = j * (tmp.bpp : Int)) (h0 : 0 ≤ p)
    (h1 : p + (tmp.bpp : Int) ≤ ((tmp.ysize * tmp.bpp : Nat) : Int))
    (b : Nat) (hb : b < tmp.bpp) :
    byteAt column (p + (b : Int)) = tmp.channel (x : Int) (p / (tmp.bpp : Int)) b := by
  obtain ⟨col, hc, _, hval⟩ := get_column_spec tmp htmp x hx
  rw [hcol] at hc
  obtain rfl := Option.some.inj hc
  have hbpos : (0 : Int) < (tmp.bpp : Int) := by omega
  subst hp
  have hj0 : 0 ≤ j := nonneg_of_mul_nonneg_left h0 hbpos
  obtain ⟨n, rfl⟩ := Int.eq_ofNat_of_zero_le hj0
  have hn : n < tmp.ysize := by
    have h2 : ((n + 1 : Nat) : Int) * (tmp.bpp : Int) ≤ (tmp.ysize : Int) * (tmp.bpp : Int) := by
      push_cast
      push_cast at h1
      linarith
    have h3 : ((n + 1 : Nat) : Int) ≤ (tmp.ysize : Int) := le_of_mul_le_mul_right h2 hbpos
    omega
  rw [Int.mul_ediv_cancel _ (ne_of_gt hbpos)]
  unfold Image.channel Image.row_byte
  have e1 : (n : Int) * (tmp.bpp : Int) + (b : Int) = ((n * tmp.bpp + b : Nat) : Int) := by
    push_cast
    ring
  have e2 : (tmp.span : Int) * (n : Int) + ((x : Int) * (tmp.bpp : Int) + (b : Int)) =
      ((tmp.span * n + x * tmp.bpp + b : Nat) : Int) := by
    push_cast
    ring
  rw [e1, e2, byteAt_natCast, byteAt_natCast, hval n b hn hb]

/-- The two passes of `zoom` as formulas: when all reads are in range, the
horizontal pass returns the intermediate image `T` and `zoom` returns `out`,
both given pixel by pixel by clamped weighted sums. -/
theorem zoom_spec (dst src : Image) (f : α → α) (s : α)
    (hsrc : src.wf) (hdst : dst.wf) (hbpp : dst.bpp = src.bpp) (h4 : src.bpp ≤ 4)
    (hrow : ∀ x, x < dst.xsize → ∀ e ∈ contribution_spec src.xsize dst.xsize f s src.bpp x,
      0 ≤ e.pixel ∧ e.pixel + (src.bpp : Int) ≤ ((src.xsize * src.bpp : Nat) : Int))
    (hcol : ∀ y, y < dst.ysize → ∀ e ∈ contribution_spec src.ysize dst.ysize f s src.bpp y,
      0 ≤ e.pixel ∧ e.pixel + (src.bpp : Int) ≤ ((src.ysize * src.bpp : Nat) : Int)) :
    ∃ T out : Image,
      zoom_horizontal dst src f s = some T ∧ zoom dst src f s = some out ∧
      T.xsize = dst.xsize ∧ T.ysize = src.ysize ∧ T.bpp = src.bpp ∧
      T.span = dst.xsize * src.bpp ∧ T.data.length = dst.xsize * src.bpp * src.ysize ∧
      (∀ x r b, x < dst.xsize → r < src.ysize → b < src.bpp →
        T.data[T.span * r + x * src.bpp + b]? =
          some (clampByte
            (((contribution_spec src.xsize dst.xsize f s src.bpp x).map
              (fun e => (src.row_byte (r : Int) (e.pixel + (b : Int)) : α) * e.weight)).sum))) ∧
      out.xsize = dst.xsize ∧ out.ysize = dst.ysize ∧ out.bpp = dst.bpp ∧
      out.span = dst.span ∧ out.data.length = dst.data.length ∧
      (∀ x y b, x < dst.xsize → y < dst.ysize → b < src.bpp →
        out.data[out.span * y + x * src.bpp + b]? =
          some (clampByte
            (((contribution_spec src.ysize dst.ysize f s src.bpp y).map
              (fun e => (T.channel (x : Int) (e.pixel / (src.bpp : Int)) b : α) *
                e.weight)).sum))) := by
  obtain ⟨T, hT, t1, t2, t3, t4, t5, tval⟩ := zoom_horizontal_spec dst src f s hsrc hbpp h4 hrow
  have hTwf : T.wf := by
    unfold Image.wf
    rw [t1, t2, t3, t4, t5]
    exact ⟨le_refl _, le_refl _⟩
  obtain ⟨out, hout, o1, o2, o3, o4, o5, oval⟩ := zoom_vertical_spec dst src T f s hdst hTwf
    hbpp t3 t1 t2 h4 hcol
  refine ⟨T, out, hT, ?_, t1, t2, t3, t4, t5, ?_, o1, o2, o3, o4, o5, ?_⟩
  · unfold zoom
    rw [hT]
    exact hout
  · intro x r b hx hr hb
    rw [t4, tval x r b hx hr hb]
    congr 2
    unfold weighted_sum
    apply sum_congr_bytes
    intro c hc
    obtain ⟨c0, c1⟩ := hrow x hx c hc
    exact row_raster_byte src hsrc r hr (c.pixel + (b : Int)) (by omega) (by omega)
  · intro x y b hx hy hb
    obtain ⟨column, hcolumn, hv⟩ := oval x y b hx hy hb
    rw [o4, hv]
    congr 2
    unfold weighted_sum
    apply sum_congr_bytes
    intro c hc
    obtain ⟨c0, c1⟩ := hcol y hy c hc
    obtain ⟨j, hj⟩ := contribution_spec_pixel _ _ _ _ _ _ c hc
    have := column_raster_byte T hTwf x (by rw [t1]; exact hx) column hcolumn c.pixel
      (reflect src.ysize j) (by rw [t3]; exact hj) c0 (by rw [t2, t3]; exact c1) b
      (by rw [t3]; exact hb)
    rw [t3] at this
    exact this

/-- Claim C1. For a well-formed source and destination with the same channel
count `bpp <= 4`, and a kernel and sizes for which every contribution index is
in range, the horizontal pass of `zoom` produces an intermediate image `T` of
size `dst.xsize` by `src.ysize` with
`T[x, r, b] = clampByte (Σ e in row table x, src[r][e.pixel + b] * e.weight)`,
and `zoom` writes, at every destination pixel `(x, y)` and channel `b`, the byte
`clampByte (Σ e in column table y, T[x, e.pixel / bpp, b] * e.weight)`. -/
theorem zoom_two_pass (dst src : Image) (f : α → α) (s : α)
    (hsrc : src.wf) (hdst : dst.wf) (hbpp : dst.bpp = src.bpp) (h4 : src.bpp ≤ 4)
    (hsx : 1 ≤ src.xsize) (hsy : 1 ≤ src.ysize)
    (hrow : ∀ x, x < dst.xsize → ∀ e ∈ contribution_spec src.xsize dst.xsize f s src.bpp x,
      0 ≤ e.pixel ∧ e.pixel + (src.bpp : Int) ≤ ((src.xsize * src.bpp : Nat) : Int))
    (hcol : ∀ y, y < dst.ysize → ∀ e ∈ contribution_spec src.ysize dst.ysize f s src.bpp y,
      0 ≤ e.pixel ∧ e.pixel + (src.bpp : Int) ≤ ((src.ysize * src.bpp : Nat) : Int)) :
    ∃ T out : Image,
      zoom_horizontal dst src f s = some T ∧ zoom dst src f s = some out ∧
      T.xsize = dst.xsize ∧ T.ysize = src.ysize ∧ T.bpp = src.bpp ∧
      (∀ x r b, x < dst.xsize → r < src.ysize → b < src.bpp →
        T.data[T.span * r + x * src.bpp + b]? =
          some (clampByte
            (((contribution_spec src.xsize dst.xsize f s src.bpp x).map
              (fun e => (src.row_byte (r : Int) (e.pixel + (b : Int)) : α) * e.weight)).sum))) ∧
      out.xsize = dst.xsize ∧ out.ysize = dst.ysize ∧ out.bpp = dst.bpp ∧
      out.span = dst.span ∧ out.data.length = dst.data.length ∧
      (∀ x y b, x < dst.xsize → y < dst.ysize → b < src.bpp →
        out.data[out.span * y + x * src.bpp + b]? =
          some (clampByte
            (((contribution_spec src.ysize dst.ysize f s src.bpp y).map
              (fun e => (T.channel (x : Int) (e.pixel / (src.bpp : Int)) b : α) *
                e.weight)).sum))) := by
  have _h1 := hsx
  have _h2 := hsy
  obtain ⟨T, out, a1, a2, a3, a4, a5, _, _, a8, a9, a10, a11, a12, a13, a14⟩ :=
    zoom_spec dst src f s hsrc hdst hbpp h4 hrow hcol
  exact ⟨T, out, a1, a2, a3, a4, a5, a8, a9, a10, a11, a12, a13, a14⟩

/-- Witness for `zoom_two_pass`: a 2 x 2 one-channel image zoomed to 3 x 3 with
the bell kernel. -/
theorem zoom_two_pass_witness :
    ∃ T out : Image,
      zoom_horizontal (new_image 3 3 1 none) (new_image 2 2 1 (some [0, 255, 10, 20]))
        (bell_filter : ℚ → ℚ) bell_support = some T ∧
      zoom (new_image 3 3 1 none) (new_image 2 2 1 (some [0, 255, 10, 20]))
        (bell_filter : ℚ → ℚ) bell_support = some out ∧
      T.xsize = 3 ∧ T.ysize = 2 ∧ out.data.length = 9 := by
  obtain ⟨T, out, h1, h2, h3, h4, _, _, _, _, _, _, h5, _⟩ := zoom_two_pass
    (new_image 3 3 1 none) (new_image 2 2 1 (some [0, 255, 10, 20]))
    (bell_filter : ℚ → ℚ) bell_support
    (by decide) (by decide) (by decide) (by decide) (by decide) (by decide)
    (by decide!) (by decide!)
  exact ⟨T, out, h1, h2, h3, h4, h5⟩

end PassLemmas

/-! ## The box kernel at identity scale and on a one-pixel source -/

section BoxLemmas

variable {α : Type} [LinearOrderedField α]

theorem box_filter_zero : box_filter (0 : α) = 1 := by
  norm_num [box_filter]

theorem byteAt_le (buf : List Nat) (hbuf : ∀ v ∈ buf, v ≤ 255) (k : Int) :
    byteAt buf k ≤ 255 := by
  unfold byteAt load
  split_ifs with h
  · rcases hget : buf[k.toNat]? with _ | v
    · exact Nat.zero_le _
    · exact hbuf v (List.getElem?_mem hget)
  · exact Nat.zero_le _

theorem row_byte_le (image : Image) (hbuf : ∀ v ∈ image.data, v ≤ 255) (r k : Int) :
    image.row_byte r k ≤ 255 :=
  byteAt_le image.data hbuf _

theorem byteAt_of_getElem? (buf : List Nat) (k v : Nat) (h : buf[k]? = some v) :
    byteAt buf (k : Int) = v := by
  rw [byteAt_natCast, h]
  rfl

/-- A contribution list whose entries all read the same sample and whose
weights sum to one selects that sample. -/
theorem sum_selector (clist : List (CONTRIB α)) (g : Int → Nat) (P : Int)
    (hp : ∀ e ∈ clist, e.pixel = P) (hw : (clist.map (fun e => e.weight)).sum = 1) :
    (clist.map (fun e => (g e.pixel : α) * e.weight)).sum = (g P : α) := by
  have e1 : clist.map (fun e => (g e.pixel : α) * e.weight) =
      clist.map (fun e => (g P : α) * e.weight) := by
    apply List.map_congr_left
    intro e he
    rw [hp e he]
  rw [e1, List.sum_map_mul_left, hw, mul_one]

variable [FloorRing α]

/-- At identity scale the box kernel with support 0.5 gives the single entry
`(i * bpp, 1)`. -/
theorem box_identity_list (S bpp i : Nat) (hi : i < S) :
    contribution_spec S S (box_filter : α → α) box_support bpp i =
      [⟨(i : Int) * (bpp : Int), 1⟩] := by
  have hS : (S : α) ≠ 0 := by
    have : 0 < S := by omega
    exact_mod_cast this.ne'
  have hsc : (S : α) / (S : α) = 1 := div_self hS
  have hc : spec_center S S i = (i : α) := by
    unfold spec_center
    rw [hsc, div_one]
  have hw : spec_width S S (box_support : α) = 1 / 2 := by
    unfold spec_width box_support
    rw [hsc, if_neg (lt_irrefl _)]
    norm_num
  have hf : spec_fscale S S = (1 : α) := by
    unfold spec_fscale
    rw [hsc, if_neg (lt_irrefl _)]
  have hl : spec_left S S (box_support : α) i = (i : Int) := by
    unfold spec_left
    rw [hc, hw, Int.ceil_eq_iff]
    push_cast
    constructor <;> linarith
  have hr : spec_right S S (box_support : α) i = (i : Int) := by
    unfold spec_right
    rw [hc, hw, Int.floor_eq_iff]
    push_cast
    constructor <;> linarith
  have hre : reflect S (i : Int) = (i : Int) := by
    unfold reflect
    rw [if_neg (by omega), if_neg (by omega)]
  unfold contribution_spec
  rw [hl, hr]
  have h1 : ((i : Int) + 1 - (i : Int)).toNat = 1 := by omega
  rw [h1]
  have hr1 : List.range 1 = [0] := rfl
  rw [hr1]
  simp only [List.map_cons, List.map_nil, spec_entry, hc, hf, Nat.cast_zero,
    add_zero, hre, Int.cast_natCast, sub_self, zero_div, div_one, box_filter_zero]

/-- On a one-pixel source the box kernel with support 0.5 gives, for every
destination index, a list whose entries all read source pixel 0 and whose
weights are `1` or `1, 0`. -/
theorem box_one_pixel_list (D bpp i : Nat) (hi : i < D) :
    contribution_spec 1 D (box_filter : α → α) box_support bpp i = [⟨0, 1⟩] ∨
      contribution_spec 1 D (box_filter : α → α) box_support bpp i = [⟨0, 1⟩, ⟨0, 0⟩] := by
  have hDpos : (0 : α) < (D : α) := by
    have : 0 < D := by omega
    exact_mod_cast this
  have hsc : ((D : α) / ((1 : Nat) : α)) = (D : α) := by
    rw [Nat.cast_one, div_one]
  have hge : ¬ ((D : α) < 1) := by
    have : 1 ≤ D := by omega
    have h1 : ((1 : Nat) : α) ≤ (D : α) := Nat.cast_le.mpr this
    rw [Nat.cast_one] at h1
    exact not_lt.mpr h1
  have hc : spec_center 1 D i = (i : α) / (D : α) := by
    unfold spec_center
    rw [hsc]
  have hw : spec_width 1 D (box_support : α) = 1 / 2 := by
    unfold spec_width box_support
    rw [hsc, if_neg hge]
    norm_num
  have hf : spec_fscale 1 D = (1 : α) := by
    unfold spec_fscale
    rw [hsc, if_neg hge]
  have hc0 : (0 : α) ≤ (i : α) / (D : α) := div_nonneg (Nat.cast_nonneg i) hDpos.le
  have hc1 : (i : α) / (D : α) < 1 := by
    rw [div_lt_one hDpos]
    exact_mod_cast hi
  have hre0 : reflect 1 0 = 0 := by decide
  have hre1 : reflect 1 1 = 0 := by decide
  have hr1 : List.range 1 = [0] := rfl
  have hr2 : List.range 2 = [0, 1] := rfl
  unfold contribution_spec
  rcases lt_trichotomy ((i : α) / (D : α)) (1 / 2) with hlt | heq | hgt
  · left
    have hl : spec_left 1 D (box_support : α) i = 0 := by
      unfold spec_left
      rw [hc, hw, Int.ceil_eq_iff]
      push_cast
      constructor <;> linarith
    have hr : spec_right 1 D (box_support : α) i = 0 := by
      unfold spec_right
      rw [hc, hw, Int.floor_eq_iff]
      push_cast
      constructor <;> linarith
    rw [hl, hr]
    have hb : box_filter ((i : α) / (D : α)) = 1 := by
      unfold box_filter
      rw [if_pos ⟨by norm_num; linarith, by norm_num; linarith⟩]
      norm_num
    have h1 : ((0 : Int) + 1 - 0).toNat = 1 := by decide
    rw [h1, hr1]
    simp only [List.map_cons, List.map_nil, spec_entry, hc, hf, Nat.cast_zero, add_zero,
      Int.cast_zero, sub_zero, div_one, hre0, zero_mul, hb]
  · right
    have hl : spec_left 1 D (box_support : α) i = 0 := by
      unfold spec_left
      rw [hc, hw, Int.ceil_eq_iff]
      push_cast
      constructor <;> linarith
    have hr : spec_right 1 D (box_support : α) i = 1 := by
      unfold spec_right
      rw [hc, hw, Int.floor_eq_iff]
      push_cast
      constructor <;> linarith
    rw [hl, hr]
    have hb1 : box_filter (1 / 2 : α) = 1 := by norm_num [box_filter]
    have hb2 : box_filter ((1 / 2 : α) - 1) = 0 := by norm_num [box_filter]
    have h2 : ((1 : Int) + 1 - 0).toNat = 2 := by decide
    rw [h2, hr2]
    simp only [List.map_cons, List.map_nil, spec_entry, hc, hf, Nat.cast_zero, add_zero,
      Int.cast_zero, sub_zero, div_one, hre0, zero_mul, heq, hb1, Nat.cast_one, zero_add,
      Int.cast_one, hre1, hb2]
  · left
    have hl : spec_left 1 D (box_support : α) i = 1 := by
      unfold spec_left
      rw [hc, hw, Int.ceil_eq_iff]
      push_cast
      constructor <;> linarith
    have hr : spec_right 1 D (box_support : α) i = 1 := by
      unfold spec_right
      rw [hc, hw, Int.floor_eq_iff]
      push_cast
      constructor <;> linarith
    rw [hl, hr]
    have hb : box_filter ((i : α) / (D : α) - 1) = 1 := by
      unfold box_filter
      rw [if_pos ⟨by norm_num; linarith, by norm_num; linarith⟩]
      norm_num
    have h1 : ((1 : Int) + 1 - 1).toNat = 1 := by decide
    rw [h1, hr1]
    simp only [List.map_cons, List.map_nil, spec_entry, hc, hf, Nat.cast_zero, add_zero,
      Int.cast_one, div_one, hre1, zero_mul, hb]

/-- When every row list selects source column `sx x` and every column list
selects source row `sy y`, `zoom` copies pixel `(sx x, sy y)` to `(x, y)`. -/
theorem zoom_select (dst src : Image) (f : α → α) (s : α)
    (hsrc : src.wf) (hdst : dst.wf) (hbpp : dst.bpp = src.bpp) (h4 : src.bpp ≤ 4)
    (hbytes : ∀ v ∈ src.data, v ≤ 255) (sx sy : Nat → Nat)
    (hsx : ∀ x, x < dst.xsize → sx x < src.xsize ∧
      (∀ e ∈ contribution_spec src.xsize dst.xsize f s src.bpp x,
        e.pixel = (sx x : Int) * (src.bpp : Int)) ∧
      ((contribution_spec src.xsize dst.xsize f s src.bpp x).map (fun e => e.weight)).sum = 1)
    (hsy : ∀ y, y < dst.ysize → sy y < src.ysize ∧
      (∀ e ∈ contribution_spec src.ysize dst.ysize f s src.bpp y,
        e.pixel = (sy y : Int) * (src.bpp : Int)) ∧
      ((contribution_spec src.ysize dst.ysize f s src.bpp y).map (fun e => e.weight)).sum = 1) :
    ∃ out : Image, zoom dst src f s = some out ∧
      out.xsize = dst.xsize ∧ out.ysize = dst.ysize ∧ out.bpp = dst.bpp ∧
      out.span = dst.span ∧ out.data.length = dst.data.length ∧
      ∀ x y b, x < dst.xsize → y < dst.ysize → b < src.bpp →
        out.data[out.span * y + x * src.bpp + b]? =
          src.data[src.span * sy y + sx x * src.bpp + b]? := by
  have hrow : ∀ x, x < dst.xsize →
      ∀ e ∈ contribution_spec src.xsize dst.xsize f s src.bpp x,
      0 ≤ e.pixel ∧ e.pixel + (src.bpp : Int) ≤ ((src.xsize * src.bpp : Nat) : Int) := by
    intro x hx e he
    obtain ⟨h1, h2, _⟩ := hsx x hx
    rw [h2 e he]
    have : (sx x + 1) * src.bpp ≤ src.xsize * src.bpp := Nat.mul_le_mul_right _ h1
    constructor
    · positivity
    · have h3 : (((sx x + 1) * src.bpp : Nat) : Int) ≤ ((src.xsize * src.bpp : Nat) : Int) :=
        Int.ofNat_le.mpr this
      push_cast at h3 ⊢
      linarith
  have hcol : ∀ y, y < dst.ysize →
      ∀ e ∈ contribution_spec src.ysize dst.ysize f s src.bpp y,
      0 ≤ e.pixel ∧ e.pixel + (src.bpp : Int) ≤ ((src.ysize * src.bpp : Nat) : Int) := by
    intro y hy e he
    obtain ⟨h1, h2, _⟩ := hsy y hy
    rw [h2 e he]
    have : (sy y + 1) * src.bpp ≤ src.ysize * src.bpp := Nat.mul_le_mul_right _ h1
    constructor
    · positivity
    · have h3 : (((sy y + 1) * src.bpp : Nat) : Int) ≤ ((src.ysize * src.bpp : Nat) : Int) :=
        Int.ofNat_le.mpr this
      push_cast at h3 ⊢
      linarith
  obtain ⟨T, out, _, hout, t1, t2, t3, t4, t5, tval, o1, o2, o3, o4, o5, oval⟩ :=
    zoom_spec dst src f s hsrc hdst hbpp h4 hrow hcol
  refine ⟨out, hout, o1, o2, o3, o4, o5, ?_⟩
  intro x y b hx hy hb
  obtain ⟨hx1, hx2, hx3⟩ := hsx x hx
  obtain ⟨hy1, hy2, hy3⟩ := hsy y hy
  have hbpos : (0 : Int) < (src.bpp : Int) := by omega
  -- the intermediate pixel `(x, sy y)`
  have hT : T.data[T.span * sy y + x * src.bpp + b]? =
      some (src.row_byte (sy y : Int) ((sx x : Int) * (src.bpp : Int) + (b : Int))) := by
    rw [tval x (sy y) b hx hy1 hb,
      sum_selector _ (fun p => src.row_byte (sy y : Int) (p + (b : Int))) _ hx2 hx3,
      clampByte_natCast _ (row_byte_le src hbytes _ _)]
  have hTc : T.channel (x : Int) (sy y : Int) b =
      src.row_byte (sy y : Int) ((sx x : Int) * (src.bpp : Int) + (b : Int)) := by
    unfold Image.channel
    conv_lhs => unfold Image.row_byte
    have e : (T.span : Int) * (sy y : Int) + ((x : Int) * (T.bpp : Int) + (b : Int)) =
        ((T.span * sy y + x * src.bpp + b : Nat) : Int) := by
      rw [t3]
      push_cast
      ring
    rw [e]
    exact byteAt_of_getElem? _ _ _ hT
  have hsrcidx : src.span * sy y + sx x * src.bpp + b < src.data.length := by
    have := pixel_offset_le src hsrc (sx x) (sy y) hx1 hy1
    omega
  have hsrcb : src.row_byte (sy y : Int) ((sx x : Int) * (src.bpp : Int) + (b : Int)) =
      src.data[src.span * sy y + sx x * src.bpp + b] := by
    unfold Image.row_byte
    have e : (src.span : Int) * (sy y : Int) + ((sx x : Int) * (src.bpp : Int) + (b : Int)) =
        ((src.span * sy y + sx x * src.bpp + b : Nat) : Int) := by
      push_cast
      ring
    rw [e]
    exact byteAt_of_getElem? _ _ _ (List.getElem?_eq_getElem hsrcidx)
  rw [oval x y b hx hy hb,
    sum_selector _ (fun p => T.channel (x : Int) (p / (src.bpp : Int)) b) _ hy2 hy3]
  simp only [Int.mul_ediv_cancel _ (ne_of_gt hbpos)]
  rw [hTc, clampByte_natCast _ (row_byte_le src hbytes _ _), hsrcb,
    List.getElem?_eq_getElem hsrcidx]

/-- Every byte offset of a `w * bpp * h` buffer is the offset of a channel of
a pixel. -/
theorem offset_decompose (w h bpp k : Nat) (hk : k < w * bpp * h) :
    ∃ x y b, x < w ∧ y < h ∧ b < bpp ∧ k = w * bpp * y + x * bpp + b := by
  have hsp : 0 < w * bpp := by
    rcases Nat.eq_zero_or_pos (w * bpp) with h0 | h0
    · rw [h0, Nat.zero_mul] at hk
      exact absurd hk (Nat.not_lt_zero k)
    · exact h0
  have hbpp : 0 < bpp := Nat.pos_of_mul_pos_left hsp
  refine ⟨k % (w * bpp) / bpp, k / (w * bpp), k % (w * bpp) % bpp, ?_, ?_, ?_, ?_⟩
  · apply Nat.div_lt_of_lt_mul
    have h0 := Nat.mod_lt k hsp
    have h1 : bpp * w = w * bpp := Nat.mul_comm _ _
    omega
  · exact Nat.div_lt_of_lt_mul hk
  · exact Nat.mod_lt _ hbpp
  · have h1 := Nat.div_add_mod k (w * bpp)
    have h2 := Nat.div_add_mod (k % (w * bpp)) bpp
    have h3 : k % (w * bpp) / bpp * bpp = bpp * (k % (w * bpp) / bpp) := Nat.mul_comm _ _
    omega

/-- The result of a resize whose bytes are those of `data`. -/
theorem image_eq_of_bytes (out : Image) (w h bpp : Nat) (data : List Nat)
    (h1 : out.xsize = w) (h2 : out.ysize = h) (h3 : out.bpp = bpp)
    (h4 : out.span = w * bpp) (h5 : out.data.length = w * bpp * h)
    (hlen : data.length = w * bpp * h)
    (hval : ∀ x y b, x < w → y < h → b < bpp →
      out.data[w * bpp * y + x * bpp + b]? = data[w * bpp * y + x * bpp + b]?) :
    out = new_image w h bpp (some data) := by
  have hd : out.data = data := by
    apply List.ext_getElem?
    intro k
    by_cases hk : k < w * bpp * h
    · obtain ⟨x, y, b, hx, hy, hb, rfl⟩ := offset_decompose w h bpp k hk
      exact hval x y b hx hy hb
    · rw [List.getElem?_eq_none (by omega), List.getElem?_eq_none (by omega)]
  cases out
  simp only at h1 h2 h3 h4 hd
  subst h1 h2 h3 h4 hd
  rfl

/-- Claim C9. Zooming a `w` by `h` image of `1 <= bpp <= 4` channels with
`box_filter` and support 0.5 to the same width and height: the row table and
the column table hold, for every destination index `i`, the single entry
`(i * bpp, 1)`, and the destination image is byte for byte the source image. -/
theorem box_identity_resize (w h bpp : Nat) (data : List Nat)
    (hw : 1 ≤ w) (hh : 1 ≤ h) (hb1 : 1 ≤ bpp) (hb4 : bpp ≤ 4)
    (hlen : data.length = w * bpp * h) (hbytes : ∀ v ∈ data, v ≤ 255) :
    row_contributions w w bpp ((w : α) / (w : α)) box_filter box_support =
        some ((List.range w).map (fun i => [⟨(i : Int) * (bpp : Int), (1 : α)⟩])) ∧
      column_contributions h h bpp ((h : α) / (h : α)) box_filter box_support =
        some ((List.range h).map (fun i => [⟨(i : Int) * (bpp : Int), (1 : α)⟩])) ∧
      zoom (new_image w h bpp none) (new_image w h bpp (some data))
          (box_filter : α → α) box_support =
        some (new_image w h bpp (some data)) := by
  have _hw := hw
  have _hh := hh
  have _hb := hb1
  refine ⟨?_, ?_, ?_⟩
  · rw [row_contributions_eq]
    congr 1
    apply List.map_congr_left
    intro i hi
    exact box_identity_list w bpp i (List.mem_range.mp hi)
  · rw [column_contributions_eq]
    congr 1
    apply List.map_congr_left
    intro i hi
    exact box_identity_list h bpp i (List.mem_range.mp hi)
  · obtain ⟨out, hout, o1, o2, o3, o4, o5, oval⟩ := zoom_select
      (new_image w h bpp none) (new_image w h bpp (some data))
      (box_filter : α → α) box_support
      (new_image_some_wf w h bpp data (by omega)) (new_image_none_wf w h bpp) rfl hb4
      hbytes (fun x => x) (fun y => y)
      (by
        intro x hx
        refine ⟨hx, ?_, ?_⟩
        · intro e he
          change e ∈ contribution_spec w w (box_filter : α → α) box_support bpp x at he
          rw [box_identity_list w bpp x hx, List.mem_singleton] at he
          rw [he]
          rfl
        · change ((contribution_spec w w (box_filter : α → α) box_support bpp x).map
            (fun e => e.weight)).sum = 1
          rw [box_identity_list w bpp x hx]
          simp)
      (by
        intro y hy
        refine ⟨hy, ?_, ?_⟩
        · intro e he
          change e ∈ contribution_spec h h (box_filter : α → α) box_support bpp y at he
          rw [box_identity_list h bpp y hy, List.mem_singleton] at he
          rw [he]
          rfl
        · change ((contribution_spec h h (box_filter : α → α) box_support bpp y).map
            (fun e => e.weight)).sum = 1
          rw [box_identity_list h bpp y hy]
          simp)
    rw [hout]
    congr 1
    apply image_eq_of_bytes out w h bpp data o1 o2 o3 o4
    · rw [o5]
      simp [new_image]
    · exact hlen
    · intro x y b hx hy hb
      have := oval x y b hx hy hb
      rw [o4] at this
      exact this

/-- Witness for `box_identity_resize`: a 2 x 2 image of one channel. -/
theorem box_identity_resize_witness :
    zoom (new_image 2 2 1 none) (new_image 2 2 1 (some [1, 2, 3, 4]))
        (box_filter : ℚ → ℚ) box_support =
      some (new_image 2 2 1 (some [1, 2, 3, 4])) :=
  (box_identity_resize 2 2 1 [1, 2, 3, 4] (by decide) (by decide) (by decide) (by decide)
    (by decide) (by decide)).2.2

/-- Claim C10. Zooming a source of width 1 to width `D >= 1`, height unchanged,
with `box_filter` and support 0.5: every entry of the row contribution table
stores byte offset 0, that is source index 0, and every output pixel of row `y`
equals the single source pixel of row `y`. -/
theorem box_one_pixel_wide (D h bpp : Nat) (data : List Nat)
    (hD : 1 ≤ D) (hh : 1 ≤ h) (hb1 : 1 ≤ bpp) (hb4 : bpp ≤ 4)
    (hlen : data.length = bpp * h) (hbytes : ∀ v ∈ data, v ≤ 255) :
    (∃ tbl : List (List (CONTRIB α)),
      row_contributions D 1 bpp ((D : α) / ((1 : Nat) : α)) box_filter box_support =
        some tbl ∧
      tbl.length = D ∧ ∀ l ∈ tbl, ∀ e ∈ l, e.pixel = 0) ∧
    ∃ out : Image,
      zoom (new_image D h bpp none) (new_image 1 h bpp (some data))
        (box_filter : α → α) box_support = some out ∧
      out.xsize = D ∧ out.ysize = h ∧ out.bpp = bpp ∧ out.span = D * bpp ∧
      out.data.length = D * bpp * h ∧
      ∀ x y b, x < D → y < h → b < bpp →
        out.data[D * bpp * y + x * bpp + b]? = data[bpp * y + b]? := by
  have _hD := hD
  have _hh := hh
  have _hb := hb1
  have hpix : ∀ x, x < D →
      ∀ e ∈ contribution_spec 1 D (box_filter : α → α) box_support bpp x, e.pixel = 0 := by
    intro x hx e he
    rcases @box_one_pixel_list α _ _ D bpp x hx with hl | hl
    · rw [hl, List.mem_singleton] at he
      rw [he]
    · rw [hl] at he
      simp only [List.mem_cons, List.mem_singleton, List.mem_nil_iff, or_false] at he
      rcases he with he | he <;> rw [he]
  have hsum : ∀ x, x < D →
      ((contribution_spec 1 D (box_filter : α → α) box_support bpp x).map
        (fun e => e.weight)).sum = 1 := by
    intro x hx
    rcases @box_one_pixel_list α _ _ D bpp x hx with hl | hl
    · rw [hl]
      simp
    · rw [hl]
      simp
  constructor
  · refine ⟨(List.range D).map (contribution_spec 1 D (box_filter : α → α) box_support bpp),
      row_contributions_eq 1 D bpp _ _, by simp, ?_⟩
    intro l hl e he
    obtain ⟨x, hx, rfl⟩ := List.mem_map.mp hl
    exact hpix x (List.mem_range.mp hx) e he
  · obtain ⟨out, hout, o1, o2, o3, o4, o5, oval⟩ := zoom_select
      (new_image D h bpp none) (new_image 1 h bpp (some data))
      (box_filter : α → α) box_support
      (new_image_some_wf 1 h bpp data (by rw [Nat.one_mul]; omega)) (new_image_none_wf D h bpp)
      rfl hb4
      hbytes (fun _ => 0) (fun y => y)
      (by
        intro x hx
        refine ⟨Nat.one_pos, ?_, hsum x hx⟩
        intro e he
        rw [hpix x hx e he]
        simp)
      (by
        intro y hy
        refine ⟨hy, ?_, ?_⟩
        · intro e he
          change e ∈ contribution_spec h h (box_filter : α → α) box_support bpp y at he
          rw [box_identity_list h bpp y hy, List.mem_singleton] at he
          rw [he]
          rfl
        · change ((contribution_spec h h (box_filter : α → α) box_support bpp y).map
            (fun e => e.weight)).sum = 1
          rw [box_identity_list h bpp y hy]
          simp)
    refine ⟨out, hout, o1, o2, o3, o4, ?_, ?_⟩
    · rw [o5]
      simp [new_image]
    · intro x y b hx hy hb
      have := oval x y b hx hy hb
      rw [o4] at this
      simp only [new_image, Nat.one_mul, Nat.zero_mul, Nat.add_zero] at this
      exact this

/-- Witness for `box_one_pixel_wide`: a 1 x 2 source of two channels zoomed to
width 5. -/
theorem box_one_pixel_wide_witness :
    ∃ out : Image,
      zoom (new_image 5 2 2 none) (new_image 1 2 2 (some [7, 9, 100, 200]))
        (box_filter : ℚ → ℚ) box_support = some out ∧
      out.data.length = 5 * 2 * 2 := by
  obtain ⟨_, out, hout, _, _, _, _, h5, _⟩ := @box_one_pixel_wide ℚ _ _ 5 2 2 [7, 9, 100, 200]
    (by decide) (by decide) (by decide) (by decide) (by decide) (by decide)
  exact ⟨out, hout, h5⟩

end BoxLemmas

/-! ## Two runs on sources that agree on one channel -/

section RelationalLemmas

theorem optRel_bind {σ τ σ' τ' : Type} (R : σ → τ → Prop) (Q : σ' → τ' → Prop)
    (a : Option σ) (b : Option τ) (f : σ → Option σ') (g : τ → Option τ')
    (hab : optRel R a b) (hfg : ∀ x y, R x y → optRel Q (f x) (g y)) :
    optRel Q (a.bind f) (b.bind g) := by
  cases a <;> cases b
  · exact True.intro
  · exact hab.elim
  · exact hab.elim
  · exact hfg _ _ hab

theorem optRel_mono {σ τ : Type} (R Q : σ → τ → Prop) (a : Option σ) (b : Option τ)
    (hab : optRel R a b) (h : ∀ x y, R x y → Q x y) : optRel Q a b := by
  cases a <;> cases b
  · exact True.intro
  · exact hab.elim
  · exact hab.elim
  · exact h _ _ hab

/-- Relational rule for `forLoop`: two loops whose bodies preserve a relation
between their states fail together or end in related states. -/
theorem forLoop_rel {σ τ : Type} (R : Nat → σ → τ → Prop) (n : Nat)
    (b1 : Nat → σ → Option σ) (b2 : Nat → τ → Option τ) (s : σ) (t : τ)
    (h0 : R 0 s t)
    (hstep : ∀ i, i < n → ∀ s t, R i s t → optRel (R (i + 1)) (b1 i s) (b2 i t)) :
    optRel (R n) (forLoop n b1 s) (forLoop n b2 t) := by
  induction n with
  | zero => exact h0
  | succ n ih =>
    exact optRel_bind (R n) (R (n + 1)) _ _ _ _
      (ih (fun i hi => hstep i (Nat.lt_succ_of_lt hi)))
      (hstep n (Nat.lt_succ_self n))

/-- Relational rule for a loop over the entries of a list. -/
theorem foldlM_rel {σ τ γ : Type} (R : σ → τ → Prop) (l : List γ)
    (f1 : σ → γ → Option σ) (f2 : τ → γ → Option τ) :
    ∀ (s : σ) (t : τ), R s t →
      (∀ c ∈ l, ∀ s t, R s t → optRel R (f1 s c) (f2 t c)) →
      optRel R (l.foldlM f1 s) (l.foldlM f2 t) := by
  induction l with
  | nil =>
    intro s t h _
    exact h
  | cons c rest ih =>
    intro s t h hstep
    rw [List.foldlM_cons, List.foldlM_cons]
    exact optRel_bind R R _ _ _ _ (hstep c (List.mem_cons_self c rest) s t h)
      (fun x y hxy => ih x y hxy (fun c' hc' => hstep c' (List.mem_cons_of_mem c hc')))

/-- Reading the same index of two buffers of the same length. -/
theorem getElem?_optRel {β : Type} (l1 l2 : List β) (i : Nat) (P : Prop)
    (hlen : l1.length = l2.length) (h : P → l1[i]? = l2[i]?) :
    optRel (fun v1 v2 => P → v1 = v2) l1[i]? l2[i]? := by
  by_cases hi : i < l1.length
  · have hi2 : i < l2.length := by omega
    rw [List.getElem?_eq_getElem hi, List.getElem?_eq_getElem hi2]
    intro hP
    have := h hP
    rw [List.getElem?_eq_getElem hi, List.getElem?_eq_getElem hi2] at this
    exact Option.some.inj this
  · rw [List.getElem?_eq_none (by omega), List.getElem?_eq_none (by omega)]
    exact True.intro

/-- Reading `raster[j * bpp + b]` from two rasters that agree on channel `c`. -/
theorem load_rel (bpp c b : Nat) (hc : c < bpp) (r1 r2 : List Nat)
    (hr : raster_agree bpp c r1 r2) (j : Int) :
    optRel (fun v1 v2 => b = c → v1 = v2)
      (load r1 (j * (bpp : Int) + (b : Int))) (load r2 (j * (bpp : Int) + (b : Int))) := by
  unfold load
  by_cases h0 : 0 ≤ j * (bpp : Int) + (b : Int)
  · rw [if_pos h0, if_pos h0]
    apply getElem?_optRel _ _ _ _ hr.1
    intro hbc
    subst hbc
    have hj : 0 ≤ j := by
      by_contra hneg
      have h1 : j ≤ -1 := by omega
      have h2 : j * (bpp : Int) ≤ -1 * (bpp : Int) :=
        Int.mul_le_mul_of_nonneg_right h1 (Int.ofNat_nonneg bpp)
      omega
    obtain ⟨n, rfl⟩ := Int.eq_ofNat_of_zero_le hj
    have e : ((n : Int) * (bpp : Int) + (b : Int)).toNat = n * bpp + b := by
      have : (n : Int) * (bpp : Int) + (b : Int) = ((n * bpp + b : Nat) : Int) := by
        push_cast
        ring
      rw [this, Int.toNat_ofNat]
    rw [e]
    exact hr.2 n
  · rw [if_neg h0, if_neg h0]
    exact True.intro

/-- Storing at the same index of two accumulators that agree on channel `c`. -/
theorem store_rel {β : Type} (c b : Nat) (p1 p2 : List β) (v1 v2 : β)
    (hlen : p1.length = p2.length) (hp : p1[c]? = p2[c]?) (hv : b = c → v1 = v2) :
    optRel (fun q1 q2 => q1.length = q2.length ∧ q1[c]? = q2[c]?)
      (store p1 b v1) (store p2 b v2) := by
  unfold store
  by_cases hb : b < p1.length
  · rw [if_pos hb, if_pos (by omega)]
    refine ⟨by simp [hlen], ?_⟩
    rw [List.getElem?_set, List.getElem?_set]
    by_cases hbc : b = c
    · rw [if_pos hbc, if_pos hbc, if_pos hb, if_pos (by omega), hv hbc]
    · rw [if_neg hbc, if_neg hbc]
      exact hp
  · rw [if_neg hb, if_neg (by omega)]
    exact True.intro

variable {α : Type} [LinearOrderedField α]

/-- Two runs of `accumulate` on rasters that agree on channel `c`, with a list
whose entries store multiples of `bpp`, agree on channel `c`. -/
theorem accumulate_rel (bpp c : Nat) (hc : c < bpp) (r1 r2 : List Nat)
    (hr : raster_agree bpp c r1 r2) (clist : List (CONTRIB α))
    (hmul : ∀ e ∈ clist, ∃ j : Int, e.pixel = j * (bpp : Int))
    (p1 p2 : List α) (hp : pixel_agree c p1 p2) :
    optRel (pixel_agree c) (accumulate bpp r1 clist p1) (accumulate bpp r2 clist p2) := by
  unfold accumulate
  apply optRel_bind (pixel_agree c) (pixel_agree c)
  · apply forLoop_rel (fun _ => pixel_agree c) bpp _ _ p1 p2 hp
    intro b _ q1 q2 hq
    exact store_rel c b q1 q2 _ _ hq.1 hq.2 (fun _ => rfl)
  · intro q1 q2 hq
    apply foldlM_rel (pixel_agree c) clist _ _ q1 q2 hq
    intro e he s1 s2 hs
    obtain ⟨j, hj⟩ := hmul e he
    apply forLoop_rel (fun _ => pixel_agree c) bpp _ _ s1 s2 hs
    intro b _ t1 t2 ht
    beta_reduce
    rw [hj]
    apply optRel_bind _ _ _ _ _ _ (load_rel bpp c b hc r1 r2 hr j)
    intro v1 v2 hv
    apply optRel_bind _ _ _ _ _ _
      (getElem?_optRel t1 t2 b (b = c) ht.1 (fun hbc => by rw [hbc]; exact ht.2))
    intro o1 o2 ho
    refine store_rel c b t1 t2 _ _ ht.1 ht.2 ?_
    intro hbc
    rw [ho hbc, hv hbc]

variable [FloorRing α]

/-- Two runs of `put_pixel` on images that agree on channel `c`, with
accumulators that agree on channel `c`, give images that agree on channel `c`. -/
theorem put_pixel_rel (X Y B SP c : Nat) (hc : c < B) (hsp : X * B ≤ SP)
    (a b : Image) (hab : image_agree X Y B SP c a b) (x y : Nat)
    (p1 p2 : List α) (hp : pixel_agree c p1 p2) :
    optRel (image_agree X Y B SP c) (put_pixel a x y p1) (put_pixel b x y p2) := by
  have hab' := hab
  obtain ⟨a1, a2, a3, a4, e1, e2, e3, e4, _, _⟩ := hab
  have b1 : b.xsize = X := by rw [← e1, a1]
  have b2 : b.ysize = Y := by rw [← e2, a2]
  have b3 : b.bpp = B := by rw [← e3, a3]
  have b4 : b.span = SP := by rw [← e4, a4]
  unfold put_pixel
  simp only [a1, a2, a3, a4, b1, b2, b3, b4]
  by_cases hxy : x < X ∧ y < Y
  · rw [if_pos hxy, if_pos hxy]
    apply forLoop_rel (fun _ => image_agree X Y B SP c) B _ _ a b hab'
    intro i hi s t hst
    obtain ⟨s1, s2, s3, s4, f1, f2, f3, f4, f5, f6⟩ := hst
    apply optRel_bind _ _ _ _ _ _
      (getElem?_optRel p1 p2 i (i = c) hp.1 (fun hic => by rw [hic]; exact hp.2))
    intro v1 v2 hv
    unfold store
    by_cases hidx : SP * y + x * B + i < s.data.length
    · rw [if_pos hidx, if_pos (by omega)]
      refine ⟨s1, s2, s3, s4, f1, f2, f3, f4, by simp [f5], ?_⟩
      intro x' hx' y' hy'
      simp only [s1, s2, s3, s4] at hx' hy' ⊢
      rw [List.getElem?_set, List.getElem?_set]
      by_cases hq : SP * y + x * B + i = SP * y' + x' * B + c
      · rw [if_pos hq, if_pos hq, if_pos hidx, if_pos (by omega)]
        obtain ⟨_, _, hic⟩ := pixel_offset_inj SP B X hsp x y i x' y' c hxy.1 hx' hi hc hq
        rw [hv hic]
      · rw [if_neg hq, if_neg hq]
        have := f6 x' (by rw [s1]; exact hx') y' (by rw [s2]; exact hy')
        rw [s3, s4] at this
        exact this
    · rw [if_neg hidx, if_neg (by omega)]
      exact True.intro
  · rw [if_neg hxy, if_neg hxy]
    exact True.intro

omit [LinearOrderedField α] [FloorRing α] in
/-- Two runs of `get_row` on images that agree on channel `c` give rasters that
agree on channel `c`. -/
theorem get_row_rel (c : Nat) (src1 src2 : Image)
    (h : agree_on_channel c src1 src2) (y : Nat) :
    optRel (raster_agree src1.bpp c) (get_row src1 y) (get_row src2 y) := by
  obtain ⟨e1, e2, e3, e4, e5, e6⟩ := h
  unfold get_row
  rw [← e1, ← e2, ← e3, ← e4, ← e5]
  by_cases hy : y < src1.ysize
  · rw [if_pos hy, if_pos hy]
    by_cases hle : y * src1.span + src1.bpp * src1.xsize ≤ src1.data.length
    · rw [if_pos hle, if_pos hle]
      refine ⟨by simp [e5], ?_⟩
      intro n
      rw [List.getElem?_take, List.getElem?_take, List.getElem?_drop, List.getElem?_drop]
      by_cases hn : n * src1.bpp + c < src1.bpp * src1.xsize
      · rw [if_pos hn, if_pos hn]
        have hnx : n < src1.xsize := by
          by_contra hge
          have := Nat.mul_le_mul_right src1.bpp (not_lt.mp hge)
          have hcomm : src1.bpp * src1.xsize = src1.xsize * src1.bpp := Nat.mul_comm _ _
          omega
        have := e6 n hnx y hy
        have hcomm : y * src1.span = src1.span * y := Nat.mul_comm _ _
        rw [hcomm, ← Nat.add_assoc]
        exact this
      · rw [if_neg hn, if_neg hn]
    · rw [if_neg hle, if_neg hle]
      exact True.intro
  · rw [if_neg hy, if_neg hy]
    exact True.intro

omit [LinearOrderedField α] [FloorRing α] in
/-- Two runs of `get_column` on images that agree on channel `c` give rasters
that agree on channel `c`. -/
theorem get_column_rel (c : Nat) (tmp1 tmp2 : Image) (hc : c < tmp1.bpp)
    (h : agree_on_channel c tmp1 tmp2) (x : Nat) :
    optRel (raster_agree tmp1.bpp c) (get_column tmp1 x) (get_column tmp2 x) := by
  obtain ⟨e1, e2, e3, e4, e5, e6⟩ := h
  unfold get_column
  rw [← e1, ← e2, ← e3, ← e4]
  by_cases hx : x < tmp1.xsize
  · rw [if_pos hx, if_pos hx]
    have key := forLoop_rel
      (fun i (c1 c2 : List Nat) => c1.length = i * tmp1.bpp ∧ c2.length = i * tmp1.bpp ∧
        ∀ n, c1[n * tmp1.bpp + c]? = c2[n * tmp1.bpp + c]?)
      tmp1.ysize
      (fun i column =>
        forLoop tmp1.bpp (fun j column =>
          (tmp1.data[x * tmp1.bpp + i * tmp1.span + j]?).bind
            (fun v => some (column ++ [v]))) column)
      (fun i column =>
        forLoop tmp1.bpp (fun j column =>
          (tmp2.data[x * tmp1.bpp + i * tmp1.span + j]?).bind
            (fun v => some (column ++ [v]))) column)
      [] [] ⟨by simp, by simp, fun _ => rfl⟩
      (by
        intro i hi c1 c2 ⟨l1, l2, hcc⟩
        have inner := forLoop_rel
          (fun j (c1 c2 : List Nat) => c1.length = i * tmp1.bpp + j ∧
            c2.length = i * tmp1.bpp + j ∧
            ∀ n, c1[n * tmp1.bpp + c]? = c2[n * tmp1.bpp + c]?)
          tmp1.bpp
          (fun j column =>
            (tmp1.data[x * tmp1.bpp + i * tmp1.span + j]?).bind
              (fun v => some (column ++ [v])))
          (fun j column =>
            (tmp2.data[x * tmp1.bpp + i * tmp1.span + j]?).bind
              (fun v => some (column ++ [v])))
          c1 c2 ⟨by omega, by omega, hcc⟩
          (by
            intro j hj d1 d2 ⟨m1, m2, hdd⟩
            beta_reduce
            apply optRel_bind _ _ _ _ _ _
              (getElem?_optRel tmp1.data tmp2.data (x * tmp1.bpp + i * tmp1.span + j)
                (j = c) e5
                (fun hjc => by
                  have := e6 x hx i hi
                  have hcomm : i * tmp1.span = tmp1.span * i := Nat.mul_comm _ _
                  have hre : x * tmp1.bpp + i * tmp1.span + j =
                      tmp1.span * i + x * tmp1.bpp + c := by omega
                  rw [hre]
                  exact this))
            intro v1 v2 hv
            refine ⟨by simp [m1]; omega, by simp [m2]; omega, ?_⟩
            intro n
            rw [List.getElem?_append, List.getElem?_append, m1, m2]
            by_cases hlt : n * tmp1.bpp + c < i * tmp1.bpp + j
            · rw [if_pos hlt, if_pos hlt]
              exact hdd n
            · rw [if_neg hlt, if_neg hlt]
              by_cases hz : n * tmp1.bpp + c - (i * tmp1.bpp + j) = 0
              · rw [hz]
                have hni : n = i := by
                  rcases Nat.lt_trichotomy n i with hl | hl | hl
                  · have := Nat.mul_le_mul_right tmp1.bpp (Nat.succ_le_of_lt hl)
                    rw [Nat.succ_mul] at this
                    omega
                  · exact hl
                  · have := Nat.mul_le_mul_right tmp1.bpp (Nat.succ_le_of_lt hl)
                    rw [Nat.succ_mul] at this
                    omega
                subst hni
                have hjc : j = c := by omega
                rw [hv hjc]
              · have hpos : 0 < n * tmp1.bpp + c - (i * tmp1.bpp + j) := by omega
                rw [List.getElem?_eq_none (by simp only [List.length_singleton]; omega),
                  List.getElem?_eq_none (by simp only [List.length_singleton]; omega)])
        refine optRel_mono _ _ _ _ inner ?_
        intro d1 d2 ⟨m1, m2, hdd⟩
        exact ⟨by rw [m1, Nat.succ_mul], by rw [m2, Nat.succ_mul], hdd⟩)
    refine optRel_mono _ _ _ _ key ?_
    intro d1 d2 ⟨m1, m2, hdd⟩
    exact ⟨by rw [m1, m2], hdd⟩
  · rw [if_neg hx, if_neg hx]
    exact True.intro

/-- The two nested loops of a pass, run on rasters that agree on channel `c`
and started on images and accumulators that agree on channel `c`, fail
together or end in images and accumulators that agree on channel `c`. -/
theorem pixel_loops_rel (X Y B SP c : Nat) (hc : c < B) (hsp : X * B ≤ SP) (m n : Nat)
    (g1 g2 : Nat → Option (List Nat))
    (hg : ∀ k, optRel (raster_agree B c) (g1 k) (g2 k))
    (contrib : List (List (CONTRIB α)))
    (hmul : ∀ cl ∈ contrib, ∀ e ∈ cl, ∃ j : Int, e.pixel = j * (B : Int))
    (fx fy : Nat → Nat → Nat) (a b : Image) (p1 p2 : List α)
    (hab : image_agree X Y B SP c a b) (hp : pixel_agree c p1 p2) :
    optRel (fun (s t : Image × List α) =>
        image_agree X Y B SP c s.1 t.1 ∧ pixel_agree c s.2 t.2)
      (forLoop m (fun k st =>
        (g1 k).bind (fun raster =>
          forLoop n (fun i st =>
            (contrib[i]?).bind (fun clist =>
              (accumulate B raster clist st.2).bind (fun pixel =>
                (put_pixel st.1 (fx k i) (fy k i) pixel).bind (fun t =>
                  some (t, pixel))))) st)) (a, p1))
      (forLoop m (fun k st =>
        (g2 k).bind (fun raster =>
          forLoop n (fun i st =>
            (contrib[i]?).bind (fun clist =>
              (accumulate B raster clist st.2).bind (fun pixel =>
                (put_pixel st.1 (fx k i) (fy k i) pixel).bind (fun t =>
                  some (t, pixel))))) st)) (b, p2)) := by
  apply forLoop_rel (fun _ (s t : Image × List α) =>
    image_agree X Y B SP c s.1 t.1 ∧ pixel_agree c s.2 t.2) m _ _ _ _ ⟨hab, hp⟩
  intro k _ s t hst
  apply optRel_bind _ _ _ _ _ _ (hg k)
  intro r1 r2 hr
  apply forLoop_rel (fun _ (s t : Image × List α) =>
    image_agree X Y B SP c s.1 t.1 ∧ pixel_agree c s.2 t.2) n _ _ _ _ hst
  intro i _ s' t' hst'
  beta_reduce
  rcases hcl : contrib[i]? with _ | cl
  · exact True.intro
  · simp only [Option.some_bind]
    apply optRel_bind _ _ _ _ _ _
      (accumulate_rel B c hc r1 r2 hr cl (hmul cl (List.getElem?_mem hcl)) s'.2 t'.2 hst'.2)
    intro q1 q2 hq
    apply optRel_bind _ _ _ _ _ _
      (put_pixel_rel X Y B SP c hc hsp s'.1 t'.1 hst'.1 (fx k i) (fy k i) q1 q2 hq)
    intro u1 u2 hu
    exact ⟨hu, hq⟩

/-- Two runs of `zoom_horizontal` on sources that agree on channel `c`. -/
theorem zoom_horizontal_rel (dst src1 src2 : Image) (f : α → α) (s : α) (c : Nat)
    (hagree : agree_on_channel c src1 src2) (hc : c < src1.bpp)
    (hb : dst.bpp = src1.bpp) :
    optRel (image_agree dst.xsize src1.ysize src1.bpp (dst.xsize * src1.bpp) c)
      (zoom_horizontal dst src1 f s) (zoom_horizontal dst src2 f s) := by
  have hagree' := hagree
  obtain ⟨e1, e2, e3, e4, e5, e6⟩ := hagree
  unfold zoom_horizontal
  rw [← e1, ← e3]
  simp only [row_contributions_eq, Option.some_bind]
  have hy : (new_image dst.xsize src2.ysize dst.bpp none) =
      (new_image dst.xsize src1.ysize dst.bpp none) := by rw [e2]
  rw [hy]
  have hstart : image_agree dst.xsize src1.ysize src1.bpp (dst.xsize * src1.bpp) c
      (new_image dst.xsize src1.ysize dst.bpp none)
      (new_image dst.xsize src1.ysize dst.bpp none) := by
    rw [hb]
    exact ⟨rfl, rfl, rfl, rfl, rfl, rfl, rfl, rfl, rfl, fun _ _ _ _ => rfl⟩
  have key := pixel_loops_rel dst.xsize src1.ysize src1.bpp (dst.xsize * src1.bpp) c hc
    (le_refl _) (new_image dst.xsize src1.ysize dst.bpp none).ysize
    (new_image dst.xsize src1.ysize dst.bpp none).xsize
    (get_row src1) (get_row src2) (fun k => get_row_rel c src1 src2 hagree' k)
    ((List.range dst.xsize).map (contribution_spec src1.xsize dst.xsize f s src1.bpp))
    (by
      intro cl hcl e he
      obtain ⟨i, _, rfl⟩ := List.mem_map.mp hcl
      obtain ⟨j, hj⟩ := contribution_spec_pixel _ _ _ _ _ _ e he
      exact ⟨_, hj⟩)
    (fun _ i => i) (fun k _ => k)
    (new_image dst.xsize src1.ysize dst.bpp none)
    (new_image dst.xsize src1.ysize dst.bpp none)
    (List.replicate 4 (0 : α)) (List.replicate 4 (0 : α)) hstart ⟨rfl, rfl⟩
  exact optRel_bind _ _ _ _ _ _ key (fun x y hxy => hxy.1)

/-- Two runs of `zoom_vertical` on intermediate images that agree on channel
`c`. -/
theorem zoom_vertical_rel (dst src1 src2 tmp1 tmp2 : Image) (f : α → α) (s : α) (c : Nat)
    (hsrc : src1.bpp = src2.bpp ∧ src1.ysize = src2.ysize) (hc : c < src1.bpp)
    (hb : dst.bpp = src1.bpp) (hsp : dst.xsize * dst.bpp ≤ dst.span)
    (htmp : image_agree dst.xsize src1.ysize src1.bpp (dst.xsize * src1.bpp) c tmp1 tmp2) :
    optRel (image_agree dst.xsize dst.ysize dst.bpp dst.span c)
      (zoom_vertical dst src1 tmp1 f s) (zoom_vertical dst src2 tmp2 f s) := by
  obtain ⟨t1, t2, t3, t4, tag⟩ := htmp
  have tag' := tag
  obtain ⟨u1, u2, u3, u4, u5, u6⟩ := tag
  unfold zoom_vertical
  rw [← hsrc.1, ← hsrc.2, ← u2, t2]
  simp only [column_contributions_eq, Option.some_bind]
  have hstart : image_agree dst.xsize dst.ysize dst.bpp dst.span c dst dst :=
    ⟨rfl, rfl, rfl, rfl, rfl, rfl, rfl, rfl, rfl, fun _ _ _ _ => rfl⟩
  have key := pixel_loops_rel dst.xsize dst.ysize dst.bpp dst.span c (by rw [hb]; exact hc)
    hsp dst.xsize dst.ysize
    (get_column tmp1) (get_column tmp2)
    (fun k => by
      have := get_column_rel c tmp1 tmp2 (by rw [t3]; exact hc) tag' k
      rw [t3, ← hb] at this
      exact this)
    ((List.range dst.ysize).map (contribution_spec src1.ysize dst.ysize f s src1.bpp))
    (by
      intro cl hcl e he
      obtain ⟨i, _, rfl⟩ := List.mem_map.mp hcl
      obtain ⟨j, hj⟩ := contribution_spec_pixel _ _ _ _ _ _ e he
      rw [hb]
      exact ⟨_, hj⟩)
    (fun k _ => k) (fun _ i => i)
    dst dst (List.replicate 4 (0 : α)) (List.replicate 4 (0 : α)) hstart ⟨rfl, rfl⟩
  rw [hb] at key
  exact optRel_bind _ _ _ _ _ _ key (fun x y hxy => by rw [hb]; exact hxy.1)

/-- Two runs of `zoom` on sources that agree on channel `c` fail together or
give destination images that agree on channel `c`. -/
theorem zoom_rel (dst src1 src2 : Image) (f : α → α) (s : α) (c : Nat)
    (hagree : agree_on_channel c src1 src2) (hc : c < src1.bpp)
    (hb : dst.bpp = src1.bpp) (hsp : dst.xsize * dst.bpp ≤ dst.span) :
    optRel (image_agree dst.xsize dst.ysize dst.bpp dst.span c)
      (zoom dst src1 f s) (zoom dst src2 f s) := by
  unfold zoom
  exact optRel_bind _ _ _ _ _ _ (zoom_horizontal_rel dst src1 src2 f s c hagree hc hb)
    (fun t1 t2 ht => zoom_vertical_rel dst src1 src2 t1 t2 f s c
      ⟨hagree.2.2.1, hagree.2.1⟩ hc hb hsp ht)

/-- Claim C5. No cross-channel mixing.  For two source images of the same
geometry that agree on channel `c` at every pixel (the other channels are
arbitrary), every destination and every kernel, the two runs of `zoom` fail
together or both return a destination image, and the two destination images
agree on channel `c` at every pixel.  The same holds for the buffers returned
by `simage_resize`. -/
theorem no_cross_channel_mixing (dst src1 src2 : Image) (f : α → α) (s : α) (c : Nat)
    (hagree : agree_on_channel c src1 src2) (hc : c < src1.bpp)
    (hb : dst.bpp = src1.bpp) (hsp : dst.xsize * dst.bpp ≤ dst.span) :
    ((zoom dst src1 f s = none ∧ zoom dst src2 f s = none) ∨
      ∃ o1 o2 : Image, zoom dst src1 f s = some o1 ∧ zoom dst src2 f s = some o2 ∧
        o1.xsize = dst.xsize ∧ o1.ysize = dst.ysize ∧ o1.bpp = dst.bpp ∧
        o1.span = dst.span ∧ agree_on_channel c o1 o2) ∧
    ∀ (d1 d2 : List Nat) (w h bpp W H : Nat), c < bpp → d1.length = d2.length →
      (∀ x, x < w → ∀ y, y < h →
        d1[w * bpp * y + x * bpp + c]? = d2[w * bpp * y + x * bpp + c]?) →
      ((simage_resize α d1 w h bpp W H = none ∧ simage_resize α d2 w h bpp W H = none) ∨
        ∃ r1 r2 : List Nat,
          simage_resize α d1 w h bpp W H = some r1 ∧
          simage_resize α d2 w h bpp W H = some r2 ∧ r1.length = r2.length ∧
          ∀ x, x < W → ∀ y, y < H →
            r1[W * bpp * y + x * bpp + c]? = r2[W * bpp * y + x * bpp + c]?) := by
  constructor
  · have key := zoom_rel dst src1 src2 f s c hagree hc hb hsp
    rcases h1 : zoom dst src1 f s with _ | o1 <;> rcases h2 : zoom dst src2 f s with _ | o2
    · exact Or.inl ⟨rfl, rfl⟩
    · rw [h1, h2] at key
      exact key.elim
    · rw [h1, h2] at key
      exact key.elim
    · rw [h1, h2] at key
      obtain ⟨k1, k2, k3, k4, k5⟩ := key
      exact Or.inr ⟨o1, o2, rfl, rfl, k1, k2, k3, k4, k5⟩
  · intro d1 d2 w h bpp W H hcb hlen hd
    have key := zoom_rel (new_image W H bpp none) (new_image w h bpp (some d1))
      (new_image w h bpp (some d2)) (bell_filter : α → α) bell_support c
      ⟨rfl, rfl, rfl, rfl, hlen, hd⟩ hcb rfl (le_refl _)
    have hs : ∀ d : List Nat, simage_resize α d w h bpp W H =
        (zoom (new_image W H bpp none) (new_image w h bpp (some d))
          (bell_filter : α → α) bell_support).bind (fun o => some o.data) :=
      fun _ => rfl
    rcases h1 : zoom (new_image W H bpp none) (new_image w h bpp (some d1))
        (bell_filter : α → α) bell_support with _ | o1 <;>
      rcases h2 : zoom (new_image W H bpp none) (new_image w h bpp (some d2))
        (bell_filter : α → α) bell_support with _ | o2
    · exact Or.inl ⟨by rw [hs, h1]; rfl, by rw [hs, h2]; rfl⟩
    · rw [h1, h2] at key
      exact key.elim
    · rw [h1, h2] at key
      exact key.elim
    · rw [h1, h2] at key
      obtain ⟨k1, k2, k3, k4, _, _, _, _, k5, k6⟩ := key
      refine Or.inr ⟨o1.data, o2.data, by rw [hs, h1]; rfl, by rw [hs, h2]; rfl, k5, ?_⟩
      intro x hx y hy
      have := k6 x (by rw [k1]; exact hx) y (by rw [k2]; exact hy)
      rw [k3, k4] at this
      exact this

/-- Witness for `no_cross_channel_mixing`: two 2 x 1 images of two channels
that agree on channel 0 and differ on channel 1, box kernel, same size. -/
theorem no_cross_channel_mixing_witness :
    ∃ o1 o2 : Image,
      zoom (new_image 2 1 2 none) (new_image 2 1 2 (some [1, 2, 3, 4]))
        (box_filter : ℚ → ℚ) box_support = some o1 ∧
      zoom (new_image 2 1 2 none) (new_image 2 1 2 (some [1, 9, 3, 7]))
        (box_filter : ℚ → ℚ) box_support = some o2 ∧
      agree_on_channel 0 o1 o2 := by
  rcases (no_cross_channel_mixing (new_image 2 1 2 none)
    (new_image 2 1 2 (some [1, 2, 3, 4])) (new_image 2 1 2 (some [1, 9, 3, 7]))
    (box_filter : ℚ → ℚ) box_support 0 (by decide) (by decide) (by decide)
    (by decide)).1 with hnone | ⟨o1, o2, h1, h2, _, _, _, _, h3⟩
  · exact absurd hnone.1 (by decide!)
  · exact ⟨o1, o2, h1, h2, h3⟩

end RelationalLemmas

/-! ## Capacity of the contribution lists, channel count, zero width -/

section CapacityLemmas

/-- Partial-correctness rule for `forLoop`: a property that every successful
iteration preserves holds of the final state of a loop that succeeded. -/
theorem forLoop_some_inv {σ : Type} (P : σ → Prop) (n : Nat)
    (body : Nat → σ → Option σ) (s t : σ) (h0 : P s)
    (hstep : ∀ i, i < n → ∀ a b, P a → body i a = some b → P b)
    (h : forLoop n body s = some t) : P t := by
  induction n generalizing t with
  | zero =>
    have e : s = t := Option.some.inj h
    rw [← e]
    exact h0
  | succ n ih =>
    rcases hn : forLoop n body s with _ | u
    · simp [forLoop, hn] at h
    · have hu := ih u (fun i hi => hstep i (Nat.lt_succ_of_lt hi)) hn
      have hb : body n u = some t := by simpa [forLoop, hn] using h
      exact hstep n (Nat.lt_succ_self n) u t hu hb

variable {α : Type} [LinearOrderedField α]

/-- The loop `for (b = 0; b < bpp; b++) pixel[b] = 0.0;` leaves the accumulator
when `bpp` exceeds its length. -/
theorem zero_loop_overflow (bpp : Nat) (pixel : List α) (h : pixel.length < bpp) :
    forLoop bpp (fun b pixel => store pixel b (0.0 : α)) pixel = none := by
  induction bpp with
  | zero => exact absurd h (Nat.not_lt_zero _)
  | succ n ih =>
    rcases hn : forLoop n (fun b pixel => store pixel b (0.0 : α)) pixel with _ | px
    · simp [forLoop, hn]
    · have hlen : px.length = pixel.length :=
        forLoop_some_inv (fun q : List α => q.length = pixel.length) n _ pixel px rfl
          (by
            intro i _ a b ha hb
            unfold store at hb
            split_ifs at hb
            have e : a.set i 0.0 = b := Option.some.inj hb
            rw [← e, List.length_set]
            exact ha) hn
      have hst : store px n (0.0 : α) = none := by
        unfold store
        rw [if_neg (by omega)]
      simp [forLoop, hn, hst]

/-- With more channels than the four slots of `float pixel[4]`, `accumulate`
writes outside the accumulator. -/
theorem accumulate_overflow (bpp : Nat) (raster : List Nat) (clist : List (CONTRIB α))
    (pixel : List α) (h : pixel.length < bpp) :
    accumulate bpp raster clist pixel = none := by
  unfold accumulate
  rw [zero_loop_overflow bpp pixel h]
  rfl

variable [FloorRing α]

theorem capacity_eq (S D : Nat) (s : α) (hs : 0 ≤ s) :
    c_int (spec_width S D s * 2 + 1) = ⌊spec_width S D s * 2⌋ + 1 := by
  have hw := spec_width_nonneg S D s hs
  unfold c_int
  rw [if_pos (by positivity), Int.floor_add_one]

theorem contribution_spec_length_le_capacity (S D : Nat) (f : α → α) (s : α) (bpp i : Nat)
    (hs : 0 ≤ s) :
    ((contribution_spec S D f s bpp i).length : Int) ≤ c_int (spec_width S D s * 2 + 1) := by
  rw [contribution_spec_length]
  rcases Nat.eq_zero_or_pos (spec_right S D s i + 1 - spec_left S D s i).toNat with h0 | hpos
  · rw [h0, capacity_eq S D s hs]
    have hw := spec_width_nonneg S D s hs
    have : 0 ≤ ⌊spec_width S D s * 2⌋ := Int.floor_nonneg.mpr (by positivity)
    push_cast
    omega
  · have := count_lt_capacity (spec_center S D i : α) (spec_width S D s)
      ((spec_right S D s i + 1 - spec_left S D s i).toNat - 1)
      (by
        unfold spec_right spec_left at hpos ⊢
        omega)
    omega

/-- The capacity in exact arithmetic.  For `S, D >= 1`, support `s > 0` and
every destination index `i < D`, the capacity `(int) (width * 2 + 1)` is
`floor (width * 2) + 1`, the number of integers of
`[ceil (center - width), floor (center + width)]` does not exceed it, and the
builders of the exact embedding complete.  This holds when `xscale`, `width`
and `center` are exact; the binary32 values of the C code do not satisfy it
(see the section on binary32 at the end). -/
theorem capacity_suffices_exact (S D bpp i : Nat) (f : α → α) (s : α)
    (hS : 1 ≤ S) (hD : 1 ≤ D) (hs : 0 < s) (hi : i < D) :
    c_int (spec_width S D s * 2 + 1) = ⌊spec_width S D s * 2 + 1⌋ ∧
      ((⌊(i : α) / ((D : α) / (S : α)) + spec_width S D s⌋ + 1 -
          ⌈(i : α) / ((D : α) / (S : α)) - spec_width S D s⌉).toNat : Int) ≤
        c_int (spec_width S D s * 2 + 1) ∧
      ∃ tbl : List (List (CONTRIB α)),
        row_contributions D S bpp ((D : α) / (S : α)) f s = some tbl ∧
        column_contributions D S bpp ((D : α) / (S : α)) f s = some tbl ∧
        ∃ l : List (CONTRIB α), tbl[i]? = some l ∧
          l.length = (⌊(i : α) / ((D : α) / (S : α)) + spec_width S D s⌋ + 1 -
            ⌈(i : α) / ((D : α) / (S : α)) - spec_width S D s⌉).toNat ∧
          (l.length : Int) ≤ c_int (spec_width S D s * 2 + 1) := by
  have _hS := hS
  have _hD := hD
  have hlen := contribution_spec_length S D f s bpp i
  have hle := contribution_spec_length_le_capacity S D f s bpp i hs.le
  refine ⟨?_, ?_, (List.range D).map (contribution_spec S D f s bpp),
    row_contributions_eq S D bpp f s, column_contributions_eq S D bpp f s,
    contribution_spec S D f s bpp i, ?_, hlen, hle⟩
  · rw [capacity_eq S D s hs.le, Int.floor_add_one]
  · rw [hlen] at hle
    exact hle
  · simp [List.getElem?_map, List.getElem?_range hi]

/-- An instance of `capacity_suffices_exact`: source length 100, destination
length 10, support 3, list of destination index 4. -/
theorem capacity_suffices_exact_instance :
    ∃ tbl : List (List (CONTRIB ℚ)),
      row_contributions 10 100 1 (((10 : Nat) : ℚ) / ((100 : Nat) : ℚ)) bell_filter 3 =
        some tbl ∧
      ∃ l : List (CONTRIB ℚ), tbl[4]? = some l ∧
        (l.length : Int) ≤ c_int (spec_width 100 10 (3 : ℚ) * 2 + 1) := by
  obtain ⟨_, _, tbl, h1, _, l, h2, _, h3⟩ := capacity_suffices_exact 100 10 1 4
    (bell_filter : ℚ → ℚ) 3 (by decide) (by decide) (by norm_num) (by decide)
  exact ⟨tbl, h1, l, h2, h3⟩

/-- Claim C13 (the code at the failing input). With five channels the
accumulator `float pixel[4]` is indexed at 4: `accumulate` fails on an
accumulator of four slots, and `simage_resize` of a 2 x 2 image of five
channels to 2 x 2 does not return a buffer. -/
theorem five_channels_overflow :
    accumulate 5 [1, 2, 3, 4, 5] [(⟨0, 1⟩ : CONTRIB ℚ)] [0, 0, 0, 0] = none ∧
      store [(0 : ℚ), 0, 0, 0] 4 0 = none ∧
      simage_resize ℚ (List.replicate 20 7) 2 2 5 2 2 = none ∧
      simage_resize ℚ (List.replicate 16 7) 2 2 4 2 2 = some (List.replicate 16 7) := by
  refine ⟨?_, ?_, ?_, ?_⟩ <;> decide!

end CapacityLemmas

/-! ## A constant channel -/

section ConstantLemmas

variable {α : Type} [LinearOrderedField α]

/-- A weighted sum over entries that all read the value `v` is `v` times the
sum of the weights. -/
theorem sum_const (clist : List (CONTRIB α)) (g : CONTRIB α → Nat) (v : Nat)
    (hg : ∀ e ∈ clist, g e = v) :
    (clist.map (fun e => (g e : α) * e.weight)).sum = (v : α) * weight_total clist := by
  have e1 : clist.map (fun e => (g e : α) * e.weight) =
      clist.map (fun e => (v : α) * e.weight) := by
    apply List.map_congr_left
    intro e he
    rw [hg e he]
  rw [e1, List.sum_map_mul_left]
  rfl

/-- An in-range stored offset that is a multiple of `bpp` is `n * bpp` for a
sample number `n` below the source length. -/
theorem sample_of_offset (S bpp : Nat) (hb : 0 < bpp) (p j : Int)
    (hp : p = j * (bpp : Int)) (h0 : 0 ≤ p)
    (h1 : p + (bpp : Int) ≤ ((S * bpp : Nat) : Int)) :
    ∃ n : Nat, n < S ∧ p = (n : Int) * (bpp : Int) := by
  have hbpos : (0 : Int) < (bpp : Int) := by omega
  subst hp
  have hj0 : 0 ≤ j := nonneg_of_mul_nonneg_left h0 hbpos
  obtain ⟨n, rfl⟩ := Int.eq_ofNat_of_zero_le hj0
  refine ⟨n, ?_, rfl⟩
  have h2 : ((n + 1 : Nat) : Int) * (bpp : Int) ≤ (S : Int) * (bpp : Int) := by
    push_cast
    push_cast at h1
    linarith
  have h3 : ((n + 1 : Nat) : Int) ≤ (S : Int) := le_of_mul_le_mul_right h2 hbpos
  omega

variable [FloorRing α]

/-- A channel that is `v` at every source pixel: when all reads are in range,
channel `c` of the output pixel `(x, y)` is
`clampByte (clampByte (v * Wx) * Wy)` with `Wx`, `Wy` the sums of the weights
of the row list of `x` and of the column list of `y`. -/
theorem zoom_const (dst src : Image) (f : α → α) (s : α) (c v : Nat)
    (hsrc : src.wf) (hdst : dst.wf) (hbpp : dst.bpp = src.bpp) (h4 : src.bpp ≤ 4)
    (hc : c < src.bpp)
    (hrow : ∀ x, x < dst.xsize → ∀ e ∈ contribution_spec src.xsize dst.xsize f s src.bpp x,
      0 ≤ e.pixel ∧ e.pixel + (src.bpp : Int) ≤ ((src.xsize * src.bpp : Nat) : Int))
    (hcol : ∀ y, y < dst.ysize → ∀ e ∈ contribution_spec src.ysize dst.ysize f s src.bpp y,
      0 ≤ e.pixel ∧ e.pixel + (src.bpp : Int) ≤ ((src.ysize * src.bpp : Nat) : Int))
    (hconst : ∀ x, x < src.xsize → ∀ y, y < src.ysize →
      src.data[src.span * y + x * src.bpp + c]? = some v) :
    ∃ out : Image, zoom dst src f s = some out ∧
      out.xsize = dst.xsize ∧ out.ysize = dst.ysize ∧ out.bpp = dst.bpp ∧
      out.span = dst.span ∧ out.data.length = dst.data.length ∧
      ∀ x y, x < dst.xsize → y < dst.ysize →
        out.data[out.span * y + x * src.bpp + c]? =
          some (clampByte
            (((clampByte ((v : α) *
                weight_total (contribution_spec src.xsize dst.xsize f s src.bpp x)) : Nat) : α) *
              weight_total (contribution_spec src.ysize dst.ysize f s src.bpp y))) := by
  obtain ⟨T, out, _, hout, t1, t2, t3, t4, t5, tval, o1, o2, o3, o4, o5, oval⟩ :=
    zoom_spec dst src f s hsrc hdst hbpp h4 hrow hcol
  refine ⟨out, hout, o1, o2, o3, o4, o5, ?_⟩
  have hbpos : 0 < src.bpp := by omega
  -- the intermediate image is constant along every column
  have hT : ∀ x r, x < dst.xsize → r < src.ysize →
      T.data[T.span * r + x * src.bpp + c]? =
        some (clampByte ((v : α) *
          weight_total (contribution_spec src.xsize dst.xsize f s src.bpp x))) := by
    intro x r hx hr
    rw [tval x r c hx hr hc]
    congr 2
    apply sum_const
    intro e he
    obtain ⟨e0, e1⟩ := hrow x hx e he
    obtain ⟨j, hj⟩ := contribution_spec_pixel _ _ _ _ _ _ e he
    obtain ⟨n, hn, hpn⟩ := sample_of_offset src.xsize src.bpp hbpos e.pixel _ hj e0 e1
    unfold Image.row_byte
    have e2 : (src.span : Int) * (r : Int) + (e.pixel + (c : Int)) =
        ((src.span * r + n * src.bpp + c : Nat) : Int) := by
      rw [hpn]
      push_cast
      ring
    rw [e2]
    exact byteAt_of_getElem? _ _ _ (hconst n hn r hr)
  intro x y hx hy
  rw [oval x y c hx hy hc]
  congr 2
  apply sum_const
  intro e he
  obtain ⟨e0, e1⟩ := hcol y hy e he
  obtain ⟨j, hj⟩ := contribution_spec_pixel _ _ _ _ _ _ e he
  obtain ⟨n, hn, hpn⟩ := sample_of_offset src.ysize src.bpp hbpos e.pixel _ hj e0 e1
  have hbne : (src.bpp : Int) ≠ 0 := by omega
  rw [hpn, Int.mul_ediv_cancel _ hbne]
  unfold Image.channel Image.row_byte
  have e2 : (T.span : Int) * (n : Int) + ((x : Int) * (T.bpp : Int) + (c : Int)) =
      ((T.span * n + x * src.bpp + c : Nat) : Int) := by
    rw [t3]
    push_cast
    ring
  rw [e2]
  exact byteAt_of_getElem? _ _ _ (hT x n hx hn)

end ConstantLemmas

/-! ## The reads of the public entry point (bell kernel, support 1.5) -/

section BellRangeLemmas

theorem reflect_in_range (S : Nat) (j : Int) (h1 : -(S : Int) < j) (h2 : j < 2 * (S : Int)) :
    0 ≤ reflect S j ∧ reflect S j < (S : Int) := by
  unfold reflect
  split_ifs <;> constructor <;> omega

variable {α : Type} [LinearOrderedField α]

theorem spec_center_eq (S D i : Nat) :
    (spec_center S D i : α) = (i : α) * (S : α) / (D : α) := by
  unfold spec_center
  rw [div_div_eq_mul_div]

/-- For source and destination lengths at least 2 the window of the bell
kernel stays strictly between `-S` and `2 S`. -/
theorem bell_window (S D i : Nat) (hS : 2 ≤ S) (hD : 2 ≤ D) (hi : i < D) :
    -(S : α) < spec_center S D i - spec_width S D (bell_support : α) ∧
      (spec_center S D i : α) + spec_width S D (bell_support : α) < 2 * (S : α) := by
  have hS2 : (2 : α) ≤ (S : α) := by exact_mod_cast hS
  have hD2 : (2 : α) ≤ (D : α) := by exact_mod_cast hD
  have hi0 : (0 : α) ≤ (i : α) := Nat.cast_nonneg i
  have hi1 : (i : α) + 1 ≤ (D : α) := by exact_mod_cast hi
  have hDpos : (0 : α) < (D : α) := by linarith
  have hSpos : (0 : α) < (S : α) := by linarith
  have hq : (0 : α) < (S : α) / (D : α) := div_pos hSpos hDpos
  have hc : (spec_center S D i : α) = (i : α) * ((S : α) / (D : α)) := by
    rw [spec_center_eq, mul_div_assoc]
  have hqD : (S : α) / (D : α) * (D : α) = (S : α) := div_mul_cancel₀ _ hDpos.ne'
  have hc0 : (0 : α) ≤ spec_center S D i := by
    rw [hc]
    positivity
  have hc1 : (spec_center S D i : α) + (S : α) / (D : α) ≤ (S : α) := by
    rw [hc]
    have := mul_le_mul_of_nonneg_right hi1 hq.le
    rw [mul_comm (D : α), hqD] at this
    linarith
  unfold spec_width bell_support
  split_ifs with hsc
  · have hw : (1.5 : α) / ((D : α) / (S : α)) = 3 / 2 * ((S : α) / (D : α)) := by
      rw [div_div_eq_mul_div]
      norm_num
      ring
    rw [hw]
    have hqle : (S : α) / (D : α) * 2 ≤ (S : α) := by
      have := mul_le_mul_of_nonneg_left hD2 hq.le
      rw [hqD] at this
      exact this
    constructor
    · linarith
    · linarith
  · have e : (1.5 : α) = 3 / 2 := by norm_num
    rw [e]
    constructor
    · linarith
    · linarith

variable [FloorRing α]

/-- For source and destination lengths at least 2, every offset that the bell
kernel stores is `n * bpp` for a sample `n` of the source. -/
theorem bell_in_range (S D bpp i : Nat) (f : α → α) (hS : 2 ≤ S) (hD : 2 ≤ D) (hi : i < D)
    (e : CONTRIB α) (he : e ∈ contribution_spec S D f bell_support bpp i) :
    ∃ n : Nat, n < S ∧ e.pixel = (n : Int) * (bpp : Int) := by
  obtain ⟨hlo, hhi⟩ := @bell_window α _ S D i hS hD hi
  unfold contribution_spec at he
  obtain ⟨k, hk, rfl⟩ := List.mem_map.mp he
  have hk' := List.mem_range.mp hk
  have h1 : spec_left S D (bell_support : α) i ≤ spec_left S D (bell_support : α) i + (k : Int) := by
    omega
  have h2 : spec_left S D (bell_support : α) i + (k : Int) ≤ spec_right S D (bell_support : α) i := by
    omega
  have h3 : -(S : Int) < spec_left S D (bell_support : α) i + (k : Int) := by
    have : -(S : Int) < spec_left S D (bell_support : α) i := by
      unfold spec_left
      rw [Int.lt_ceil]
      push_cast
      exact hlo
    omega
  have h4 : spec_left S D (bell_support : α) i + (k : Int) < 2 * (S : Int) := by
    have : spec_right S D (bell_support : α) i < 2 * (S : Int) := by
      unfold spec_right
      rw [Int.floor_lt]
      push_cast
      exact hhi
    omega
  obtain ⟨r0, r1⟩ := reflect_in_range S _ h3 h4
  obtain ⟨n, hn⟩ := Int.eq_ofNat_of_zero_le r0
  refine ⟨n, by omega, ?_⟩
  show reflect S _ * (bpp : Int) = _
  rw [hn]

/-- The in-range condition of the pass lemmas, for the bell kernel and lengths
at least 2. -/
theorem bell_reads_ok (S D bpp i : Nat) (f : α → α) (hS : 2 ≤ S) (hD : 2 ≤ D) (hi : i < D)
    (e : CONTRIB α) (he : e ∈ contribution_spec S D f bell_support bpp i) :
    0 ≤ e.pixel ∧ e.pixel + (bpp : Int) ≤ ((S * bpp : Nat) : Int) := by
  obtain ⟨n, hn, hp⟩ := bell_in_range S D bpp i f hS hD hi e he
  rw [hp]
  have h1 : (n + 1) * bpp ≤ S * bpp := Nat.mul_le_mul_right _ hn
  have h2 : (((n + 1) * bpp : Nat) : Int) ≤ ((S * bpp : Nat) : Int) := Int.ofNat_le.mpr h1
  constructor
  · positivity
  · push_cast at h2 ⊢
    linarith

/-- A sample `j` of the window of destination index `i` is stored in the list
of `i`. -/
theorem spec_entry_mem (S D : Nat) (f : α → α) (s : α) (bpp i : Nat) (j : Int)
    (h1 : spec_left S D s i ≤ j) (h2 : j ≤ spec_right S D s i) :
    spec_entry S D f bpp i j ∈ contribution_spec S D f s bpp i :=
  List.getElem?_mem (contribution_spec_getElem S D f s bpp i j h1 h2)

/-- With destination length 1 and source length `S >= 2`, the bell window of
destination index 0 holds the sample `-S`, which is mirrored to `S`. -/
theorem bell_dest_one (S : Nat) (hS : 2 ≤ S) :
    spec_left S 1 (bell_support : α) 0 ≤ -(S : Int) ∧
      -(S : Int) ≤ spec_right S 1 (bell_support : α) 0 := by
  have hS2 : (2 : α) ≤ (S : α) := by exact_mod_cast hS
  have hSpos : (0 : α) < (S : α) := by linarith
  have hc : (spec_center S 1 0 : α) = 0 := by
    unfold spec_center
    simp
  have hsc : ((1 : Nat) : α) / (S : α) < 1 := by
    rw [Nat.cast_one, div_lt_one hSpos]
    linarith
  have hw : spec_width S 1 (bell_support : α) = 3 / 2 * (S : α) := by
    unfold spec_width bell_support
    rw [if_pos hsc, Nat.cast_one, div_div_eq_mul_div]
    norm_num
  unfold spec_left spec_right
  rw [hc, hw, Int.ceil_le, Int.le_floor]
  push_cast
  constructor <;> linarith

/-- With source length 1, the bell window of destination index 0 holds the
sample `-1`, which is mirrored to `1`. -/
theorem bell_source_one (D : Nat) (hD : 1 ≤ D) :
    spec_left 1 D (bell_support : α) 0 ≤ -1 ∧ -1 ≤ spec_right 1 D (bell_support : α) 0 := by
  have hD1 : (1 : α) ≤ (D : α) := by exact_mod_cast hD
  have hc : (spec_center 1 D 0 : α) = 0 := by
    unfold spec_center
    simp
  have hsc : ¬ ((D : α) / ((1 : Nat) : α) < 1) := by
    rw [Nat.cast_one, div_one]
    exact not_lt.mpr hD1
  have hw : spec_width 1 D (bell_support : α) = 3 / 2 := by
    unfold spec_width bell_support
    rw [if_neg hsc]
    norm_num
  unfold spec_left spec_right
  rw [hc, hw, Int.ceil_le, Int.le_floor]
  push_cast
  constructor <;> norm_num

/-- Claim C16. For the bell kernel with support 1.5, the kernel of
`simage_resize`: when the source length `S` and the destination length `D` are
both at least 2, every offset stored in the row table and in the column table
is `n * bpp` with `0 <= n < S`; when `D = 1` and `S >= 2`, or when `S = 1`,
some stored offset is `n * bpp` with `n >= S`. -/
theorem bell_reads_in_range (S D bpp : Nat) :
    (2 ≤ S → 2 ≤ D → ∃ tbl : List (List (CONTRIB α)),
      row_contributions D S bpp ((D : α) / (S : α)) bell_filter bell_support = some tbl ∧
      column_contributions D S bpp ((D : α) / (S : α)) bell_filter bell_support = some tbl ∧
      tbl.length = D ∧
      ∀ l ∈ tbl, ∀ e ∈ l, ∃ n : Nat, n < S ∧ e.pixel = (n : Int) * (bpp : Int)) ∧
    (((D = 1 ∧ 2 ≤ S) ∨ (S = 1 ∧ 1 ≤ D)) → ∃ tbl : List (List (CONTRIB α)),
      row_contributions D S bpp ((D : α) / (S : α)) bell_filter bell_support = some tbl ∧
      column_contributions D S bpp ((D : α) / (S : α)) bell_filter bell_support = some tbl ∧
      ∃ l ∈ tbl, ∃ e ∈ l, ∃ n : Nat, S ≤ n ∧ e.pixel = (n : Int) * (bpp : Int)) := by
  constructor
  · intro hS hD
    refine ⟨(List.range D).map (contribution_spec S D (bell_filter : α → α) bell_support bpp),
      row_contributions_eq S D bpp _ _, column_contributions_eq S D bpp _ _, by simp, ?_⟩
    intro l hl e he
    obtain ⟨i, hi, rfl⟩ := List.mem_map.mp hl
    exact bell_in_range S D bpp i _ hS hD (List.mem_range.mp hi) e he
  · intro h
    refine ⟨(List.range D).map (contribution_spec S D (bell_filter : α → α) bell_support bpp),
      row_contributions_eq S D bpp _ _, column_contributions_eq S D bpp _ _,
      contribution_spec S D (bell_filter : α → α) bell_support bpp 0,
      List.mem_map.mpr ⟨0, List.mem_range.mpr (by omega), rfl⟩, ?_⟩
    rcases h with ⟨hD, hS⟩ | ⟨hS, hD⟩
    · subst hD
      obtain ⟨h1, h2⟩ := @bell_dest_one α _ _ S hS
      refine ⟨spec_entry S 1 (bell_filter : α → α) bpp 0 (-(S : Int)),
        spec_entry_mem S 1 _ _ bpp 0 _ h1 h2, S, le_refl S, ?_⟩
      show reflect S (-(S : Int)) * (bpp : Int) = _
      have : reflect S (-(S : Int)) = (S : Int) := by
        unfold reflect
        rw [if_pos (by omega)]
        omega
      rw [this]
    · subst hS
      obtain ⟨h1, h2⟩ := @bell_source_one α _ _ D hD
      refine ⟨spec_entry 1 D (bell_filter : α → α) bpp 0 (-1),
        spec_entry_mem 1 D _ _ bpp 0 _ h1 h2, 1, le_refl 1, ?_⟩
      show reflect 1 (-1) * (bpp : Int) = _
      have : reflect 1 (-1) = 1 := by decide
      rw [this]
      rfl

/-- Witness for `bell_reads_in_range`: source length 3 and destination length 2
are in range; source length 3 and destination length 1 are not. -/
theorem bell_reads_in_range_witness :
    (∃ tbl : List (List (CONTRIB ℚ)),
      row_contributions 2 3 1 (((2 : Nat) : ℚ) / ((3 : Nat) : ℚ)) bell_filter bell_support =
        some tbl ∧
      ∀ l ∈ tbl, ∀ e ∈ l, ∃ n : Nat, n < 3 ∧ e.pixel = (n : Int) * ((1 : Nat) : Int)) ∧
    ∃ tbl : List (List (CONTRIB ℚ)),
      row_contributions 1 3 1 (((1 : Nat) : ℚ) / ((3 : Nat) : ℚ)) bell_filter bell_support =
        some tbl ∧
      ∃ l ∈ tbl, ∃ e ∈ l, ∃ n : Nat, 3 ≤ n ∧ e.pixel = (n : Int) * ((1 : Nat) : Int) := by
  constructor
  · obtain ⟨tbl, h1, _, _, h4⟩ := (@bell_reads_in_range ℚ _ _ 3 2 1).1 (by decide) (by decide)
    exact ⟨tbl, h1, h4⟩
  · obtain ⟨tbl, h1, _, h3⟩ := (@bell_reads_in_range ℚ _ _ 3 1 1).2
      (Or.inl ⟨rfl, by decide⟩)
    exact ⟨tbl, h1, h3⟩

end BellRangeLemmas

/-! ## The integer translates of the bell kernel -/

section BellPartition

variable {α : Type} [LinearOrderedField α]

theorem bell_filter_inner (t : α) (h : |t| < 1 / 2) : bell_filter t = 3 / 4 - t * t := by
  rw [bell_filter_abs]
  have e : ¬ (|t| < (0 : α)) := not_lt.mpr (abs_nonneg t)
  have h1 : |t| < (0.5 : α) := by norm_num; exact h
  simp only [bell_filter, e, if_false, h1, if_true, abs_mul_abs_self]
  norm_num

theorem bell_filter_outer (t : α) (h1 : 1 / 2 ≤ |t|) (h2 : |t| < 3 / 2) :
    bell_filter t = 1 / 2 * ((|t| - 3 / 2) * (|t| - 3 / 2)) := by
  rw [bell_filter_abs]
  have e : ¬ (|t| < (0 : α)) := not_lt.mpr (abs_nonneg t)
  have h3 : ¬ (|t| < (0.5 : α)) := by norm_num; exact h1
  have h4 : |t| < (1.5 : α) := by norm_num; exact h2
  simp only [bell_filter, e, if_false, h3, h4, if_true]
  norm_num

theorem bell_filter_far (t : α) (h : 3 / 2 ≤ |t|) : bell_filter t = 0 := by
  rw [bell_filter_abs]
  have e : ¬ (|t| < (0 : α)) := not_lt.mpr (abs_nonneg t)
  have h3 : ¬ (|t| < (0.5 : α)) := by norm_num; linarith
  have h4 : ¬ (|t| < (1.5 : α)) := by norm_num; exact h
  simp only [bell_filter, e, if_false, h3, h4]
  norm_num

variable [FloorRing α]

/-- The integer translates of the bell kernel form a partition of unity: the
values of `bell_filter (c - j)` over the integers `j` of
`[ceil (c - 3/2), floor (c + 3/2)]` sum to 1. -/
theorem bell_partition (c : α) :
    ((List.range (⌊c + 3 / 2⌋ + 1 - ⌈c - 3 / 2⌉).toNat).map
      (fun (k : Nat) => bell_filter (c - ((⌈c - 3 / 2⌉ + (k : Int) : Int) : α)))).sum = 1 := by
  obtain ⟨m, f, hf0, hf1, rfl⟩ : ∃ (m : Int) (f : α), 0 ≤ f ∧ f < 1 ∧ c = (m : α) + f :=
    ⟨⌊c⌋, Int.fract c, Int.fract_nonneg c, Int.fract_lt_one c,
      (Int.floor_add_fract c).symm⟩
  have hr3 : List.range 3 = [0, 1, 2] := rfl
  have hr4 : List.range 4 = [0, 1, 2, 3] := rfl
  rcases lt_trichotomy f (1 / 2) with hlt | heq | hgt
  · have hl : ⌈(m : α) + f - 3 / 2⌉ = m - 1 := by
      rw [Int.ceil_eq_iff]
      push_cast
      constructor <;> linarith
    have hr : ⌊(m : α) + f + 3 / 2⌋ = m + 1 := by
      rw [Int.floor_eq_iff]
      push_cast
      constructor <;> linarith
    have hn : (m + 1 + 1 - (m - 1)).toNat = 3 := by omega
    rw [hl, hr, hn, hr3]
    have a1 : bell_filter (f + 1) = 1 / 2 * ((f + 1 - 3 / 2) * (f + 1 - 3 / 2)) := by
      rw [bell_filter_outer (f + 1) (by rw [abs_of_nonneg (by linarith)]; linarith)
        (by rw [abs_of_nonneg (by linarith)]; linarith), abs_of_nonneg (by linarith)]
    have a2 : bell_filter f = 3 / 4 - f * f :=
      bell_filter_inner f (by rw [abs_of_nonneg hf0]; exact hlt)
    have a3 : bell_filter (f - 1) = 1 / 2 * ((1 - f - 3 / 2) * (1 - f - 3 / 2)) := by
      rw [bell_filter_outer (f - 1) (by rw [abs_of_nonpos (by linarith)]; linarith)
        (by rw [abs_of_nonpos (by linarith)]; linarith), abs_of_nonpos (by linarith)]
      ring
    have b1 : (m : α) + f - (((m - 1 + ((0 : Nat) : Int) : Int)) : α) = f + 1 := by
      push_cast
      ring
    have b2 : (m : α) + f - (((m - 1 + ((1 : Nat) : Int) : Int)) : α) = f := by
      push_cast
      ring
    have b3 : (m : α) + f - (((m - 1 + ((2 : Nat) : Int) : Int)) : α) = f - 1 := by
      push_cast
      ring
    simp only [List.map_cons, List.map_nil, List.sum_cons, List.sum_nil, b1, b2, b3, a1, a2, a3]
    ring
  · subst heq
    have hl : ⌈(m : α) + 1 / 2 - 3 / 2⌉ = m - 1 := by
      rw [Int.ceil_eq_iff]
      push_cast
      constructor <;> linarith
    have hr : ⌊(m : α) + 1 / 2 + 3 / 2⌋ = m + 2 := by
      rw [Int.floor_eq_iff]
      push_cast
      constructor <;> linarith
    have hn : (m + 2 + 1 - (m - 1)).toNat = 4 := by omega
    rw [hl, hr, hn, hr4]
    have a1 : bell_filter (3 / 2 : α) = 0 :=
      bell_filter_far _ (by rw [abs_of_nonneg (by norm_num)])
    have a2 : bell_filter (1 / 2 : α) = 1 / 2 := by
      rw [bell_filter_outer (1 / 2) (by rw [abs_of_nonneg (by norm_num)])
        (by rw [abs_of_nonneg (by norm_num)]; norm_num), abs_of_nonneg (by norm_num)]
      norm_num
    have a3 : bell_filter (-(1 / 2) : α) = 1 / 2 := by
      rw [bell_filter_outer (-(1 / 2)) (by rw [abs_neg, abs_of_nonneg (by norm_num)])
        (by rw [abs_neg, abs_of_nonneg (by norm_num)]; norm_num), abs_neg,
        abs_of_nonneg (by norm_num)]
      norm_num
    have a4 : bell_filter (-(3 / 2) : α) = 0 :=
      bell_filter_far _ (by rw [abs_neg, abs_of_nonneg (by norm_num)])
    have b1 : (m : α) + 1 / 2 - (((m - 1 + ((0 : Nat) : Int) : Int)) : α) = 3 / 2 := by
      push_cast
      ring
    have b2 : (m : α) + 1 / 2 - (((m - 1 + ((1 : Nat) : Int) : Int)) : α) = 1 / 2 := by
      push_cast
      ring
    have b3 : (m : α) + 1 / 2 - (((m - 1 + ((2 : Nat) : Int) : Int)) : α) = -(1 / 2) := by
      push_cast
      ring
    have b4 : (m : α) + 1 / 2 - (((m - 1 + ((3 : Nat) : Int) : Int)) : α) = -(3 / 2) := by
      push_cast
      ring
    simp only [List.map_cons, List.map_nil, List.sum_cons, List.sum_nil, b1, b2, b3, b4,
      a1, a2, a3, a4]
    norm_num
  · have hl : ⌈(m : α) + f - 3 / 2⌉ = m := by
      rw [Int.ceil_eq_iff]
      constructor <;> linarith
    have hr : ⌊(m : α) + f + 3 / 2⌋ = m + 2 := by
      rw [Int.floor_eq_iff]
      push_cast
      constructor <;> linarith
    have hn : (m + 2 + 1 - m).toNat = 3 := by omega
    rw [hl, hr, hn, hr3]
    have a1 : bell_filter f = 1 / 2 * ((f - 3 / 2) * (f - 3 / 2)) := by
      rw [bell_filter_outer f (by rw [abs_of_nonneg hf0]; linarith)
        (by rw [abs_of_nonneg hf0]; linarith), abs_of_nonneg hf0]
    have a2 : bell_filter (f - 1) = 3 / 4 - (f - 1) * (f - 1) :=
      bell_filter_inner (f - 1) (by rw [abs_of_nonpos (by linarith)]; linarith)
    have a3 : bell_filter (f - 2) = 1 / 2 * ((2 - f - 3 / 2) * (2 - f - 3 / 2)) := by
      rw [bell_filter_outer (f - 2) (by rw [abs_of_nonpos (by linarith)]; linarith)
        (by rw [abs_of_nonpos (by linarith)]; linarith), abs_of_nonpos (by linarith)]
      ring
    have b1 : (m : α) + f - (((m + ((0 : Nat) : Int) : Int)) : α) = f := by
      push_cast
      ring
    have b2 : (m : α) + f - (((m + ((1 : Nat) : Int) : Int)) : α) = f - 1 := by
      push_cast
      ring
    have b3 : (m : α) + f - (((m + ((2 : Nat) : Int) : Int)) : α) = f - 2 := by
      push_cast
      ring
    simp only [List.map_cons, List.map_nil, List.sum_cons, List.sum_nil, b1, b2, b3, a1, a2, a3]
    ring

/-- When the destination is at least as long as the source, the weights of
every bell-kernel contribution list sum to 1. -/
theorem bell_upscale_total (S D bpp i : Nat) (hS : 1 ≤ S) (hSD : S ≤ D) :
    weight_total (contribution_spec S D (bell_filter : α → α) bell_support bpp i) = 1 := by
  have hSpos : (0 : α) < (S : α) := by exact_mod_cast hS
  have hle : (S : α) ≤ (D : α) := by exact_mod_cast hSD
  have hsc : ¬ ((D : α) / (S : α) < 1) := by
    rw [div_lt_one hSpos]
    exact not_lt.mpr hle
  have hw : spec_width S D (bell_support : α) = 3 / 2 := by
    unfold spec_width bell_support
    rw [if_neg hsc]
    norm_num
  have hf : spec_fscale S D = (1 : α) := by
    unfold spec_fscale
    rw [if_neg hsc]
  unfold weight_total contribution_spec
  rw [List.map_map]
  unfold spec_left spec_right
  rw [hw]
  have := bell_partition (spec_center S D i : α)
  rw [← this]
  congr 1
  apply List.map_congr_left
  intro k _
  simp only [Function.comp, spec_entry, hf, div_one]

/-- The public entry point on an image whose channel `c` is `v` at every
pixel, for lengths at least 2 on both axes and at most four channels: channel
`c` of the output pixel `(x, y)` is `clampByte (clampByte (v * Wx) * Wy)`. -/
theorem resize_const (data : List Nat) (w h bpp W H c v : Nat)
    (hw : 2 ≤ w) (hh : 2 ≤ h) (hW : 2 ≤ W) (hH : 2 ≤ H) (hc : c < bpp) (h4 : bpp ≤ 4)
    (hlen : data.length = w * bpp * h)
    (hconst : ∀ x, x < w → ∀ y, y < h → data[w * bpp * y + x * bpp + c]? = some v) :
    ∃ r : List Nat, simage_resize α data w h bpp W H = some r ∧
      r.length = W * bpp * H ∧
      ∀ x y, x < W → y < H →
        r[W * bpp * y + x * bpp + c]? =
          some (clampByte
            (((clampByte ((v : α) *
                weight_total (contribution_spec w W (bell_filter : α → α)
                  bell_support bpp x)) : Nat) : α) *
              weight_total (contribution_spec h H (bell_filter : α → α)
                bell_support bpp y))) := by
  obtain ⟨out, hout, o1, o2, o3, o4, o5, oval⟩ := zoom_const
    (new_image W H bpp none) (new_image w h bpp (some data))
    (bell_filter : α → α) bell_support c v
    (new_image_some_wf w h bpp data (by omega)) (new_image_none_wf W H bpp) rfl h4 hc
    (fun x hx e he => bell_reads_ok w W bpp x _ hw hW hx e he)
    (fun y hy e he => bell_reads_ok h H bpp y _ hh hH hy e he)
    hconst
  have hs : simage_resize α data w h bpp W H =
      (zoom (new_image W H bpp none) (new_image w h bpp (some data))
        (bell_filter : α → α) bell_support).bind (fun o => some o.data) := rfl
  refine ⟨out.data, by rw [hs, hout]; rfl, ?_, ?_⟩
  · rw [o5]
    simp [new_image]
  · intro x y hx hy
    have := oval x y hx hy
    rw [o4] at this
    exact this

/-- Claim C17. For every destination length `D >= S >= 2` and every
destination index `i`, the weights of the bell-kernel contribution list of `i`
sum to exactly 1 (the integer translates of `bell_filter` form a partition of
unity); hence, for width and height at least 2, a new width and height not
below them and at most four channels, `simage_resize` of an image whose channel
`c` is the constant byte `v` returns an image whose channel `c` is `v` at every
pixel. -/
theorem bell_upscale_preserves_constant (data : List Nat) (w h bpp W H c v : Nat)
    (hw : 2 ≤ w) (hh : 2 ≤ h) (hW : w ≤ W) (hH : h ≤ H) (hc : c < bpp) (h4 : bpp ≤ 4)
    (hv : v ≤ 255) (hlen : data.length = w * bpp * h)
    (hconst : ∀ x, x < w → ∀ y, y < h → data[w * bpp * y + x * bpp + c]? = some v) :
    (∀ S D i, 2 ≤ S → S ≤ D →
      weight_total (contribution_spec S D (bell_filter : α → α) bell_support bpp i) = 1) ∧
    ∃ r : List Nat, simage_resize α data w h bpp W H = some r ∧
      r.length = W * bpp * H ∧
      ∀ x y, x < W → y < H → r[W * bpp * y + x * bpp + c]? = some v := by
  constructor
  · intro S D i hS hSD
    exact bell_upscale_total S D bpp i (by omega) hSD
  · obtain ⟨r, hr, hlen', hval⟩ := @resize_const α _ _ data w h bpp W H c v hw hh
      (by omega) (by omega) hc h4 hlen hconst
    refine ⟨r, hr, hlen', ?_⟩
    intro x y hx hy
    rw [hval x y hx hy, bell_upscale_total w W bpp x (by omega) hW,
      bell_upscale_total h H bpp y (by omega) hH, mul_one, mul_one, clampByte_natCast v hv,
      clampByte_natCast v hv]

/-- Witness for `bell_upscale_preserves_constant`: a 2 x 2 image of two
channels whose channel 1 is 9, resized to 3 x 4. -/
theorem bell_upscale_preserves_constant_witness :
    ∃ r : List Nat, simage_resize ℚ [1, 9, 2, 9, 3, 9, 4, 9] 2 2 2 3 4 = some r ∧
      r.length = 3 * 2 * 4 ∧
      ∀ x y, x < 3 → y < 4 → r[3 * 2 * y + x * 2 + 1]? = some 9 :=
  (@bell_upscale_preserves_constant ℚ _ _ [1, 9, 2, 9, 3, 9, 4, 9] 2 2 2 3 4 1 9
    (by decide) (by decide) (by decide) (by decide) (by decide) (by decide) (by decide)
    (by decide) (by decide)).2

end BellPartition

/-! ## Images whose rows are all equal, and kernels at identity scale -/

section IdentityLemmas

variable {α : Type} [LinearOrderedField α]

variable [FloorRing α]

/-- A source image whose scanlines all equal `row`, zoomed with column lists
whose weights sum to one: when all reads are in range, every scanline of the
output is the horizontally filtered `row`. -/
theorem zoom_rows_equal (dst src : Image) (f : α → α) (s : α) (row : List Nat)
    (hsrc : src.wf) (hdst : dst.wf) (hbpp : dst.bpp = src.bpp) (h4 : src.bpp ≤ 4)
    (hrow : ∀ x, x < dst.xsize → ∀ e ∈ contribution_spec src.xsize dst.xsize f s src.bpp x,
      0 ≤ e.pixel ∧ e.pixel + (src.bpp : Int) ≤ ((src.xsize * src.bpp : Nat) : Int))
    (hcol : ∀ y, y < dst.ysize → ∀ e ∈ contribution_spec src.ysize dst.ysize f s src.bpp y,
      0 ≤ e.pixel ∧ e.pixel + (src.bpp : Int) ≤ ((src.ysize * src.bpp : Nat) : Int))
    (hrows : ∀ y, y < src.ysize → ∀ k, k < src.xsize * src.bpp →
      src.data[src.span * y + k]? = row[k]?)
    (htotal : ∀ y, y < dst.ysize →
      weight_total (contribution_spec src.ysize dst.ysize f s src.bpp y) = 1) :
    ∃ out : Image, zoom dst src f s = some out ∧
      out.xsize = dst.xsize ∧ out.ysize = dst.ysize ∧ out.bpp = dst.bpp ∧
      out.span = dst.span ∧ out.data.length = dst.data.length ∧
      ∀ x y b, x < dst.xsize → y < dst.ysize → b < src.bpp →
        out.data[out.span * y + x * src.bpp + b]? =
          some (clampByte (weighted_sum row
            (contribution_spec src.xsize dst.xsize f s src.bpp x) b)) := by
  obtain ⟨T, out, _, hout, t1, t2, t3, t4, t5, tval, o1, o2, o3, o4, o5, oval⟩ :=
    zoom_spec dst src f s hsrc hdst hbpp h4 hrow hcol
  refine ⟨out, hout, o1, o2, o3, o4, o5, ?_⟩
  have hT : ∀ x r b, x < dst.xsize → r < src.ysize → b < src.bpp →
      T.data[T.span * r + x * src.bpp + b]? =
        some (clampByte (weighted_sum row
          (contribution_spec src.xsize dst.xsize f s src.bpp x) b)) := by
    intro x r b hx hr hb
    rw [tval x r b hx hr hb]
    congr 2
    unfold weighted_sum
    apply sum_congr_bytes
    intro e he
    obtain ⟨e0, e1⟩ := hrow x hx e he
    obtain ⟨n, hn⟩ := Int.eq_ofNat_of_zero_le (show 0 ≤ e.pixel + (b : Int) by omega)
    have hnlt : n < src.xsize * src.bpp := by
      have : (n : Int) < ((src.xsize * src.bpp : Nat) : Int) := by omega
      exact_mod_cast this
    unfold Image.row_byte
    have e2 : (src.span : Int) * (r : Int) + (e.pixel + (b : Int)) =
        ((src.span * r + n : Nat) : Int) := by
      rw [hn]
      push_cast
      ring
    rw [e2, hn, byteAt_natCast, byteAt_natCast, hrows r hr n hnlt]
  intro x y b hx hy hb
  have hbpos : 0 < src.bpp := by omega
  rw [oval x y b hx hy hb]
  have hsum : ((contribution_spec src.ysize dst.ysize f s src.bpp y).map
      (fun e => (T.channel (x : Int) (e.pixel / (src.bpp : Int)) b : α) * e.weight)).sum =
      ((clampByte (weighted_sum row
        (contribution_spec src.xsize dst.xsize f s src.bpp x) b) : Nat) : α) *
        weight_total (contribution_spec src.ysize dst.ysize f s src.bpp y) := by
    apply sum_const
    intro e he
    obtain ⟨e0, e1⟩ := hcol y hy e he
    obtain ⟨j, hj⟩ := contribution_spec_pixel _ _ _ _ _ _ e he
    obtain ⟨n, hn, hpn⟩ := sample_of_offset src.ysize src.bpp hbpos e.pixel _ hj e0 e1
    have hbne : (src.bpp : Int) ≠ 0 := by omega
    rw [hpn, Int.mul_ediv_cancel _ hbne]
    unfold Image.channel Image.row_byte
    have e2 : (T.span : Int) * (n : Int) + ((x : Int) * (T.bpp : Int) + (b : Int)) =
        ((T.span * n + x * src.bpp + b : Nat) : Int) := by
      rw [t3]
      push_cast
      ring
    rw [e2]
    exact byteAt_of_getElem? _ _ _ (hT x n b hx hn hb)
  rw [hsum, htotal y hy, mul_one, clampByte_natCast _ (clampByte_le _)]

/-- The byte that `put_pixel` stores for a value between `n` and `n + 1`. -/
theorem clampByte_of_floor (v : α) (n : Nat) (h1 : (n : α) ≤ v) (h2 : v < (n : α) + 1)
    (h3 : n ≤ 255) : clampByte v = n := by
  have hv0 : 0 ≤ v := le_trans (Nat.cast_nonneg n) h1
  rw [clampByte_eq, if_neg (not_lt.mpr hv0)]
  split_ifs with h
  · have h4 : ((255 : Nat) : α) < ((n + 1 : Nat) : α) := by
      push_cast
      linarith
    have h5 : 255 < n + 1 := Nat.cast_lt.mp h4
    omega
  · rw [Nat.floor_eq_iff hv0]
    exact ⟨h1, h2⟩

/-- At identity scale the bell kernel with support 1.5 gives the three samples
`i - 1, i, i + 1` with the weights `1/8, 3/4, 1/8`. -/
theorem bell_identity_list (S bpp i : Nat) (hi : i < S) :
    contribution_spec S S (bell_filter : α → α) bell_support bpp i =
      [⟨reflect S ((i : Int) - 1) * (bpp : Int), 1 / 8⟩,
        ⟨(i : Int) * (bpp : Int), 3 / 4⟩,
        ⟨reflect S ((i : Int) + 1) * (bpp : Int), 1 / 8⟩] := by
  have hS : (S : α) ≠ 0 := by
    have : 0 < S := by omega
    exact_mod_cast this.ne'
  have hsc : (S : α) / (S : α) = 1 := div_self hS
  have hc : spec_center S S i = (i : α) := by
    unfold spec_center
    rw [hsc, div_one]
  have hw : spec_width S S (bell_support : α) = 3 / 2 := by
    unfold spec_width bell_support
    rw [hsc, if_neg (lt_irrefl _)]
    norm_num
  have hf : spec_fscale S S = (1 : α) := by
    unfold spec_fscale
    rw [hsc, if_neg (lt_irrefl _)]
  have hl : spec_left S S (bell_support : α) i = (i : Int) - 1 := by
    unfold spec_left
    rw [hc, hw, Int.ceil_eq_iff]
    push_cast
    constructor <;> linarith
  have hr : spec_right S S (bell_support : α) i = (i : Int) + 1 := by
    unfold spec_right
    rw [hc, hw, Int.floor_eq_iff]
    push_cast
    constructor <;> linarith
  have hre : reflect S (i : Int) = (i : Int) := by
    unfold reflect
    rw [if_neg (by omega), if_neg (by omega)]
  have b1 : bell_filter (1 : α) = 1 / 8 := by
    rw [bell_filter_outer 1 (by rw [abs_one]; norm_num) (by rw [abs_one]; norm_num), abs_one]
    norm_num
  have b0 : bell_filter (0 : α) = 3 / 4 := by
    rw [bell_filter_inner 0 (by rw [abs_zero]; norm_num)]
    norm_num
  have bm : bell_filter (-1 : α) = 1 / 8 := by
    rw [bell_filter_abs, abs_neg, abs_one, b1]
  unfold contribution_spec
  rw [hl, hr]
  have hn : ((i : Int) + 1 + 1 - ((i : Int) - 1)).toNat = 3 := by omega
  have hr3 : List.range 3 = [0, 1, 2] := rfl
  rw [hn, hr3]
  have j0 : (i : Int) - 1 + ((0 : Nat) : Int) = (i : Int) - 1 := by omega
  have j1 : (i : Int) - 1 + ((1 : Nat) : Int) = (i : Int) := by omega
  have j2 : (i : Int) - 1 + ((2 : Nat) : Int) = (i : Int) + 1 := by omega
  have w0 : (i : α) - (((i : Int) - 1 : Int) : α) = 1 := by push_cast; ring
  have w1 : (i : α) - (((i : Int) : Int) : α) = 0 := by push_cast; ring
  have w2 : (i : α) - (((i : Int) + 1 : Int) : α) = -1 := by push_cast; ring
  simp only [List.map_cons, List.map_nil, spec_entry, hc, hf, div_one, j0, j1, j2, w0, w1, w2,
    b1, b0, bm, hre]

/-- The 2 x 2 one-channel image with rows `[0, 255]` is resized to the same
size by `simage_resize` as the image with rows `[63, 223]`. -/
theorem bell_blur_example :
    simage_resize α [0, 255, 0, 255] 2 2 1 2 2 = some [63, 223, 63, 223] := by
  obtain ⟨out, hout, o1, o2, o3, o4, o5, oval⟩ := zoom_rows_equal
    (new_image 2 2 1 none) (new_image 2 2 1 (some [0, 255, 0, 255]))
    (bell_filter : α → α) bell_support [0, 255]
    (new_image_some_wf 2 2 1 _ (by decide)) (new_image_none_wf 2 2 1) rfl (by decide)
    (fun x hx e he => bell_reads_ok 2 2 1 x _ (by decide) (by decide) hx e he)
    (fun y hy e he => bell_reads_ok 2 2 1 y _ (by decide) (by decide) hy e he)
    (by decide)
    (fun y _ => bell_upscale_total 2 2 1 y (by decide) (le_refl 2))
  have hs : simage_resize α [0, 255, 0, 255] 2 2 1 2 2 =
      (zoom (new_image 2 2 1 none) (new_image 2 2 1 (some [0, 255, 0, 255]))
        (bell_filter : α → α) bell_support).bind (fun o => some o.data) := rfl
  have r0 : reflect 2 (((0 : Nat) : Int) - 1) * ((1 : Nat) : Int) = 1 := by decide
  have r1 : ((0 : Nat) : Int) * ((1 : Nat) : Int) = 0 := by decide
  have r2 : reflect 2 (((0 : Nat) : Int) + 1) * ((1 : Nat) : Int) = 1 := by decide
  have r3 : reflect 2 (((1 : Nat) : Int) - 1) * ((1 : Nat) : Int) = 0 := by decide
  have r4 : ((1 : Nat) : Int) * ((1 : Nat) : Int) = 1 := by decide
  have r5 : reflect 2 (((1 : Nat) : Int) + 1) * ((1 : Nat) : Int) = 1 := by decide
  have y0 : byteAt [0, 255] ((0 : Int) + ((0 : Nat) : Int)) = 0 := by decide
  have y1 : byteAt [0, 255] ((1 : Int) + ((0 : Nat) : Int)) = 255 := by decide
  have v0 : clampByte (weighted_sum [0, 255]
      (contribution_spec 2 2 (bell_filter : α → α) bell_support 1 0) 0) = 63 := by
    rw [bell_identity_list 2 1 0 (by decide)]
    simp only [weighted_sum, List.map_cons, List.map_nil, List.sum_cons, List.sum_nil,
      r0, r1, r2, y0, y1]
    apply clampByte_of_floor _ 63 _ _ (by decide) <;> norm_num
  have v1 : clampByte (weighted_sum [0, 255]
      (contribution_spec 2 2 (bell_filter : α → α) bell_support 1 1) 0) = 223 := by
    rw [bell_identity_list 2 1 1 (by decide)]
    simp only [weighted_sum, List.map_cons, List.map_nil, List.sum_cons, List.sum_nil,
      r3, r4, r5, y0, y1]
    apply clampByte_of_floor _ 223 _ _ (by decide) <;> norm_num
  have himg : out = new_image 2 2 1 (some [63, 223, 63, 223]) := by
    apply image_eq_of_bytes out 2 2 1 _ o1 o2 o3 o4
    · rw [o5]
      rfl
    · rfl
    · intro x y b hx hy hb
      have hv : out.data[2 * 1 * y + x * 1 + b]? =
          some (clampByte (weighted_sum [0, 255]
            (contribution_spec 2 2 (bell_filter : α → α) bell_support 1 x) b)) := by
        have := oval x y b hx hy hb
        rw [o4] at this
        exact this
      have hb0 : b = 0 := by omega
      subst hb0
      rcases Nat.lt_succ_iff_lt_or_eq.mp hx with hx0 | hx1
      · have hx00 : x = 0 := by omega
        subst hx00
        rw [v0] at hv
        rcases Nat.lt_succ_iff_lt_or_eq.mp hy with hy0 | hy1
        · have : y = 0 := by omega
          subst this
          exact hv
        · subst hy1
          exact hv
      · subst hx1
        rw [v1] at hv
        rcases Nat.lt_succ_iff_lt_or_eq.mp hy with hy0 | hy1
        · have : y = 0 := by omega
          subst this
          exact hv
        · subst hy1
          exact hv
  rw [hs, hout, himg]
  rfl

/-- Claim C18. At identity scale (`S >= 2`, destination length `S`) the
contribution list that the bell kernel of `simage_resize` builds for `i < S`,
in the row table and in the column table, is
`[(reflect (i - 1) * bpp, 1/8), (i * bpp, 3/4), (reflect (i + 1) * bpp, 1/8)]`
with `reflect (-1) = 1` and `reflect S = S - 1`; and `simage_resize` of the
2 x 2 one-channel image with rows `[0, 255]` to the same size returns the
different image with rows `[63, 223]`. -/
theorem bell_identity_is_blur (S bpp i : Nat) (hS : 2 ≤ S) (hi : i < S) :
    (∃ tbl : List (List (CONTRIB α)),
      row_contributions S S bpp ((S : α) / (S : α)) bell_filter bell_support = some tbl ∧
      column_contributions S S bpp ((S : α) / (S : α)) bell_filter bell_support = some tbl ∧
      tbl[i]? = some
        [⟨reflect S ((i : Int) - 1) * (bpp : Int), 1 / 8⟩,
          ⟨(i : Int) * (bpp : Int), 3 / 4⟩,
          ⟨reflect S ((i : Int) + 1) * (bpp : Int), 1 / 8⟩]) ∧
    reflect S (-1) = 1 ∧ reflect S (S : Int) = (S : Int) - 1 ∧
    simage_resize α [0, 255, 0, 255] 2 2 1 2 2 = some [63, 223, 63, 223] ∧
    simage_resize α [0, 255, 0, 255] 2 2 1 2 2 ≠ some [0, 255, 0, 255] := by
  refine ⟨⟨(List.range S).map (contribution_spec S S (bell_filter : α → α) bell_support bpp),
    row_contributions_eq S S bpp _ _, column_contributions_eq S S bpp _ _, ?_⟩, ?_, ?_,
    bell_blur_example, ?_⟩
  · rw [List.getElem?_map, List.getElem?_range hi, Option.map_some',
      bell_identity_list S bpp i hi]
  · unfold reflect
    rw [if_pos (by decide)]
    rfl
  · unfold reflect
    rw [if_neg (by omega), if_pos (by omega)]
    omega
  · rw [bell_blur_example]
    decide

/-- Witness for `bell_identity_is_blur`: source length 2, one channel,
destination index 0. -/
theorem bell_identity_is_blur_witness :
    ∃ tbl : List (List (CONTRIB ℚ)),
      row_contributions 2 2 1 (((2 : Nat) : ℚ) / ((2 : Nat) : ℚ)) bell_filter bell_support =
        some tbl ∧
      tbl[0]? = some [⟨1, 1 / 8⟩, ⟨0, 3 / 4⟩, ⟨1, 1 / 8⟩] := by
  obtain ⟨tbl, h1, _, h3⟩ := (@bell_identity_is_blur ℚ _ _ 2 1 0 (by decide) (by decide)).1
  refine ⟨tbl, h1, ?_⟩
  rw [h3]
  decide!

end IdentityLemmas

/-! ## Halving a constant image -/

section HalvingLemmas

/-- Every byte of a constant buffer, addressed as channel `b` of pixel
`(x, y)`. -/
theorem replicate_pixel (w h bpp v x y b : Nat) (hx : x < w) (hy : y < h) (hb : b < bpp) :
    (List.replicate (w * bpp * h) v)[w * bpp * y + x * bpp + b]? = some v := by
  have h1 : (x + 1) * bpp ≤ w * bpp := Nat.mul_le_mul_right _ hx
  have h2 : w * bpp * (y + 1) ≤ w * bpp * h := Nat.mul_le_mul_left _ hy
  have h3 : (x + 1) * bpp = x * bpp + bpp := by ring
  have h4 : w * bpp * (y + 1) = w * bpp * y + w * bpp := by ring
  rw [List.getElem?_replicate, if_pos (by omega)]

variable {α : Type} [LinearOrderedField α] [FloorRing α]

/-- Halving a length (`S = 2 D`) with a support of `m / 2`: the list of
destination index `i` holds the `2 m + 1` samples `2 i - m, ..., 2 i + m` with
the weights `f (m / 2) / 2, ..., f (-m / 2) / 2`. -/
theorem halving_list (D m bpp i : Nat) (f : α → α) (hD : 0 < D) :
    contribution_spec (2 * D) D f ((m : α) / 2) bpp i =
      (List.range (2 * m + 1)).map (fun (k : Nat) =>
        (⟨reflect (2 * D) (2 * (i : Int) - (m : Int) + (k : Int)) * (bpp : Int),
          f (((m : α) - (k : α)) / 2) / 2⟩ : CONTRIB α)) := by
  have hDne : (D : α) ≠ 0 := by exact_mod_cast hD.ne'
  have hsc : (D : α) / ((2 * D : Nat) : α) = 1 / 2 := by
    push_cast
    field_simp
    ring
  have hlt : (1 : α) / 2 < 1 := by norm_num
  have hc : spec_center (2 * D) D i = 2 * (i : α) := by
    unfold spec_center
    rw [hsc]
    field_simp
    ring
  have hw : spec_width (2 * D) D ((m : α) / 2) = (m : α) := by
    unfold spec_width
    rw [hsc, if_pos hlt]
    field_simp
  have hf : spec_fscale (2 * D) D = (2 : α) := by
    unfold spec_fscale
    rw [hsc, if_pos hlt]
    norm_num
  have hl : spec_left (2 * D) D ((m : α) / 2) i = 2 * (i : Int) - (m : Int) := by
    unfold spec_left
    rw [hc, hw]
    have : 2 * (i : α) - (m : α) = ((2 * (i : Int) - (m : Int) : Int) : α) := by push_cast; ring
    rw [this, Int.ceil_intCast]
  have hr : spec_right (2 * D) D ((m : α) / 2) i = 2 * (i : Int) + (m : Int) := by
    unfold spec_right
    rw [hc, hw]
    have : 2 * (i : α) + (m : α) = ((2 * (i : Int) + (m : Int) : Int) : α) := by push_cast; ring
    rw [this, Int.floor_intCast]
  unfold contribution_spec
  rw [hl, hr]
  have hn : (2 * (i : Int) + (m : Int) + 1 - (2 * (i : Int) - (m : Int))).toNat = 2 * m + 1 := by
    omega
  rw [hn]
  apply List.map_congr_left
  intro k _
  simp only [spec_entry, hc, hf]
  congr 3
  push_cast
  ring

/-- Halving with a support of `m / 2`, `m < 2 D`: one reflection brings every
sample into the source. -/
theorem halving_reads_ok (D m bpp i : Nat) (f : α → α) (hm : m < 2 * D) (hi : i < D)
    (e : CONTRIB α) (he : e ∈ contribution_spec (2 * D) D f ((m : α) / 2) bpp i) :
    0 ≤ e.pixel ∧ e.pixel + (bpp : Int) ≤ ((2 * D * bpp : Nat) : Int) := by
  rw [halving_list D m bpp i f (by omega)] at he
  obtain ⟨k, hk, rfl⟩ := List.mem_map.mp he
  have hk' := List.mem_range.mp hk
  obtain ⟨r0, r1⟩ := reflect_in_range (2 * D) (2 * (i : Int) - (m : Int) + (k : Int))
    (by push_cast; omega) (by push_cast; omega)
  obtain ⟨n, hn⟩ := Int.eq_ofNat_of_zero_le r0
  have hnS : n < 2 * D := by omega
  have h1 : (n + 1) * bpp ≤ 2 * D * bpp := Nat.mul_le_mul_right _ hnS
  have h2 : (((n + 1) * bpp : Nat) : Int) ≤ ((2 * D * bpp : Nat) : Int) := Int.ofNat_le.mpr h1
  show 0 ≤ reflect (2 * D) _ * (bpp : Int) ∧ reflect (2 * D) _ * (bpp : Int) + (bpp : Int) ≤ _
  rw [hn]
  constructor
  · positivity
  · push_cast at h2 ⊢
    linarith

/-- Halving with a support of `m / 2`: the weights of a list are
`f ((m - k) / 2) / 2` for `k = 0, ..., 2 m`. -/
theorem halving_total (D m bpp i : Nat) (f : α → α) (hD : 0 < D) :
    weight_total (contribution_spec (2 * D) D f ((m : α) / 2) bpp i) =
      ((List.range (2 * m + 1)).map
        (fun (k : Nat) => f (((m : α) - (k : α)) / 2) / 2)).sum := by
  rw [halving_list D m bpp i f hD]
  unfold weight_total
  rw [List.map_map]
  rfl

/-- Halving both axes of an image whose every byte is `v`, with a kernel whose
weights `f ((m - k) / 2) / 2` sum to one: the result is the image whose every
byte is `v`. -/
theorem halving_const (f : α → α) (m Dx Dy bpp v : Nat)
    (hDx : m < 2 * Dx) (hDy : m < 2 * Dy) (hb4 : bpp ≤ 4) (hv : v ≤ 255)
    (htot : ((List.range (2 * m + 1)).map
      (fun (k : Nat) => f (((m : α) - (k : α)) / 2) / 2)).sum = 1) :
    zoom (new_image Dx Dy bpp none)
        (new_image (2 * Dx) (2 * Dy) bpp (some (List.replicate (2 * Dx * bpp * (2 * Dy)) v)))
        f ((m : α) / 2) =
      some (new_image Dx Dy bpp (some (List.replicate (Dx * bpp * Dy) v))) := by
  have hsrc := new_image_some_wf (2 * Dx) (2 * Dy) bpp
    (List.replicate (2 * Dx * bpp * (2 * Dy)) v) (by rw [List.length_replicate])
  have hrow : ∀ x, x < Dx → ∀ e ∈ contribution_spec (2 * Dx) Dx f ((m : α) / 2) bpp x,
      0 ≤ e.pixel ∧ e.pixel + (bpp : Int) ≤ ((2 * Dx * bpp : Nat) : Int) :=
    fun x hx e he => halving_reads_ok Dx m bpp x f hDx hx e he
  have hcol : ∀ y, y < Dy → ∀ e ∈ contribution_spec (2 * Dy) Dy f ((m : α) / 2) bpp y,
      0 ≤ e.pixel ∧ e.pixel + (bpp : Int) ≤ ((2 * Dy * bpp : Nat) : Int) :=
    fun y hy e he => halving_reads_ok Dy m bpp y f hDy hy e he
  obtain ⟨T, out, _, hout, _, _, _, _, _, _, o1, o2, o3, o4, o5, _⟩ := zoom_spec
    (new_image Dx Dy bpp none)
    (new_image (2 * Dx) (2 * Dy) bpp (some (List.replicate (2 * Dx * bpp * (2 * Dy)) v)))
    f ((m : α) / 2) hsrc (new_image_none_wf Dx Dy bpp) rfl hb4 hrow hcol
  rw [hout]
  congr 1
  apply image_eq_of_bytes out Dx Dy bpp _ o1 o2 o3 o4
  · rw [o5]
    simp [new_image]
  · rw [List.length_replicate]
  · intro x y b hx hy hb
    obtain ⟨out2, hout2, _, _, _, p4, _, pval⟩ := zoom_const
      (new_image Dx Dy bpp none)
      (new_image (2 * Dx) (2 * Dy) bpp (some (List.replicate (2 * Dx * bpp * (2 * Dy)) v)))
      f ((m : α) / 2) b v hsrc (new_image_none_wf Dx Dy bpp) rfl hb4 hb hrow hcol
      (fun x1 hx1 y1 hy1 => replicate_pixel (2 * Dx) (2 * Dy) bpp v x1 y1 b hx1 hy1 hb)
    have heq : out = out2 := Option.some.inj (hout.symm.trans hout2)
    subst heq
    have hval : out.data[Dx * bpp * y + x * bpp + b]? =
        some (clampByte
          (((clampByte ((v : α) *
              weight_total (contribution_spec (2 * Dx) Dx f ((m : α) / 2) bpp x)) : Nat) : α) *
            weight_total (contribution_spec (2 * Dy) Dy f ((m : α) / 2) bpp y))) := by
      have := pval x y hx hy
      rw [p4] at this
      exact this
    rw [hval, halving_total Dx m bpp x f (by omega), halving_total Dy m bpp y f (by omega),
      htot, mul_one, mul_one, clampByte_natCast v hv, clampByte_natCast v hv,
      replicate_pixel Dx Dy bpp v x y b hx hy hb]

omit [FloorRing α] in
/-- The declared supports of the four narrow kernels as halves. -/
theorem support_halves :
    (filter_support : α) = ((2 : Nat) : α) / 2 ∧ (box_support : α) = ((1 : Nat) : α) / 2 ∧
      (triangle_support : α) = ((2 : Nat) : α) / 2 ∧
      (bell_support : α) = ((3 : Nat) : α) / 2 := by
  refine ⟨?_, ?_, ?_, ?_⟩ <;>
    norm_num [filter_support, box_support, triangle_support, bell_support]

omit [FloorRing α] in
/-- The weights of `box_filter` when halving sum to one. -/
theorem box_halving_total :
    ((List.range (2 * 1 + 1)).map
      (fun (k : Nat) => box_filter ((((1 : Nat) : α) - (k : α)) / 2) / 2)).sum = 1 := by
  have hr : List.range (2 * 1 + 1) = [0, 1, 2] := rfl
  have c0 : (((1 : Nat) : α) - ((0 : Nat) : α)) / 2 = 1 / 2 := by norm_num
  have c1 : (((1 : Nat) : α) - ((1 : Nat) : α)) / 2 = 0 := by norm_num
  have c2 : (((1 : Nat) : α) - ((2 : Nat) : α)) / 2 = -(1 / 2) := by norm_num
  have v0 : box_filter (1 / 2 : α) = 1 := by norm_num [box_filter]
  have v1 : box_filter (0 : α) = 1 := by norm_num [box_filter]
  have v2 : box_filter (-(1 / 2) : α) = 0 := by norm_num [box_filter]
  rw [hr]
  simp only [List.map_cons, List.map_nil, List.sum_cons, List.sum_nil, c0, c1, c2, v0, v1, v2]
  norm_num

omit [FloorRing α] in
/-- A kernel of support 1 with the values `0, 1/2, 1, 1/2, 0` at
`1, 1/2, 0, -1/2, -1`: its weights when halving sum to one. -/
theorem support_one_halving_total (f : α → α) (h1 : f 1 = 0) (h2 : f (1 / 2) = 1 / 2)
    (h3 : f 0 = 1) (h4 : f (-(1 / 2)) = 1 / 2) (h5 : f (-1) = 0) :
    ((List.range (2 * 2 + 1)).map
      (fun (k : Nat) => f ((((2 : Nat) : α) - (k : α)) / 2) / 2)).sum = 1 := by
  have hr : List.range (2 * 2 + 1) = [0, 1, 2, 3, 4] := rfl
  have c0 : (((2 : Nat) : α) - ((0 : Nat) : α)) / 2 = 1 := by norm_num
  have c1 : (((2 : Nat) : α) - ((1 : Nat) : α)) / 2 = 1 / 2 := by norm_num
  have c2 : (((2 : Nat) : α) - ((2 : Nat) : α)) / 2 = 0 := by norm_num
  have c3 : (((2 : Nat) : α) - ((3 : Nat) : α)) / 2 = -(1 / 2) := by norm_num
  have c4 : (((2 : Nat) : α) - ((4 : Nat) : α)) / 2 = -1 := by norm_num
  rw [hr]
  simp only [List.map_cons, List.map_nil, List.sum_cons, List.sum_nil, c0, c1, c2, c3, c4,
    h1, h2, h3, h4, h5]
  norm_num

omit [FloorRing α] in
/-- The weights of `bell_filter` when halving sum to one. -/
theorem bell_halving_total :
    ((List.range (2 * 3 + 1)).map
      (fun (k : Nat) => bell_filter ((((3 : Nat) : α) - (k : α)) / 2) / 2)).sum = 1 := by
  have hr : List.range (2 * 3 + 1) = [0, 1, 2, 3, 4, 5, 6] := rfl
  have c0 : (((3 : Nat) : α) - ((0 : Nat) : α)) / 2 = 3 / 2 := by norm_num
  have c1 : (((3 : Nat) : α) - ((1 : Nat) : α)) / 2 = 1 := by norm_num
  have c2 : (((3 : Nat) : α) - ((2 : Nat) : α)) / 2 = 1 / 2 := by norm_num
  have c3 : (((3 : Nat) : α) - ((3 : Nat) : α)) / 2 = 0 := by norm_num
  have c4 : (((3 : Nat) : α) - ((4 : Nat) : α)) / 2 = -(1 / 2) := by norm_num
  have c5 : (((3 : Nat) : α) - ((5 : Nat) : α)) / 2 = -1 := by norm_num
  have c6 : (((3 : Nat) : α) - ((6 : Nat) : α)) / 2 = -(3 / 2) := by norm_num
  have a1 : |(1 : α)| = 1 := abs_one
  have a2 : |(1 / 2 : α)| = 1 / 2 := abs_of_nonneg (by norm_num)
  have a3 : |(3 / 2 : α)| = 3 / 2 := abs_of_nonneg (by norm_num)
  have v0 : bell_filter (3 / 2 : α) = 0 := bell_filter_far _ (by rw [a3])
  have v1 : bell_filter (1 : α) = 1 / 8 := by
    rw [bell_filter_outer 1 (by rw [a1]; norm_num) (by rw [a1]; norm_num), a1]
    norm_num
  have v2 : bell_filter (1 / 2 : α) = 1 / 2 := by
    rw [bell_filter_outer (1 / 2) (by rw [a2]) (by rw [a2]; norm_num), a2]
    norm_num
  have v3 : bell_filter (0 : α) = 3 / 4 := by
    rw [bell_filter_inner 0 (by rw [abs_zero]; norm_num)]
    norm_num
  have v4 : bell_filter (-(1 / 2) : α) = 1 / 2 := by
    rw [bell_filter_abs, abs_neg, a2, v2]
  have v5 : bell_filter (-1 : α) = 1 / 8 := by
    rw [bell_filter_abs, abs_neg, a1, v1]
  have v6 : bell_filter (-(3 / 2) : α) = 0 := by
    rw [bell_filter_abs, abs_neg, a3, v0]
  rw [hr]
  simp only [List.map_cons, List.map_nil, List.sum_cons, List.sum_nil, c0, c1, c2, c3, c4,
    c5, c6, v0, v1, v2, v3, v4, v5, v6]
  norm_num

/-- The four kernels whose halving window fits a four-sample row: for each of
`filter`, `box_filter`, `triangle_filter` and `bell_filter` with its declared
support, and at most four channels, zooming the 4 x 4 image whose every byte is
`v` (`v <= 255`, for instance 100) to 2 x 2 returns the 2 x 2 image whose every
byte is `v`. -/
theorem constant_halving (bpp v : Nat) (hb4 : bpp ≤ 4) (hv : v ≤ 255) :
    zoom (new_image 2 2 bpp none)
        (new_image 4 4 bpp (some (List.replicate (4 * bpp * 4) v)))
        (filter : α → α) filter_support =
      some (new_image 2 2 bpp (some (List.replicate (2 * bpp * 2) v))) ∧
    zoom (new_image 2 2 bpp none)
        (new_image 4 4 bpp (some (List.replicate (4 * bpp * 4) v)))
        (box_filter : α → α) box_support =
      some (new_image 2 2 bpp (some (List.replicate (2 * bpp * 2) v))) ∧
    zoom (new_image 2 2 bpp none)
        (new_image 4 4 bpp (some (List.replicate (4 * bpp * 4) v)))
        (triangle_filter : α → α) triangle_support =
      some (new_image 2 2 bpp (some (List.replicate (2 * bpp * 2) v))) ∧
    zoom (new_image 2 2 bpp none)
        (new_image 4 4 bpp (some (List.replicate (4 * bpp * 4) v)))
        (bell_filter : α → α) bell_support =
      some (new_image 2 2 bpp (some (List.replicate (2 * bpp * 2) v))) := by
  obtain ⟨s1, s2, s3, s4⟩ := @support_halves α _
  refine ⟨?_, ?_, ?_, ?_⟩
  · rw [s1]
    exact halving_const filter 2 2 2 bpp v (by decide) (by decide) hb4 hv
      (support_one_halving_total filter (by norm_num [filter]) (by norm_num [filter])
        (by norm_num [filter]) (by norm_num [filter]) (by norm_num [filter]))
  · rw [s2]
    exact halving_const box_filter 1 2 2 bpp v (by decide) (by decide) hb4 hv
      box_halving_total
  · rw [s3]
    exact halving_const triangle_filter 2 2 2 bpp v (by decide) (by decide) hb4 hv
      (support_one_halving_total triangle_filter (by norm_num [triangle_filter])
        (by norm_num [triangle_filter]) (by norm_num [triangle_filter])
        (by norm_num [triangle_filter]) (by norm_num [triangle_filter]))
  · rw [s4]
    exact halving_const bell_filter 3 2 2 bpp v (by decide) (by decide) hb4 hv
      bell_halving_total

/-- Claim C12. The failing input: with `B_spline_filter` and its support 2.0,
zooming the 4 x 4 one-channel image whose every byte is 100 to 2 x 2 does not
return an image of four pixels equal to 100; the window of destination index 0
holds the sample `-4`, which the single reflection stores as sample 4 of a
four-sample row, and the read of that sample is outside the row. -/
theorem B_spline_halving_fails :
    zoom (new_image 2 2 1 none) (new_image 4 4 1 (some (List.replicate 16 100)))
      (B_spline_filter : ℚ → ℚ) B_spline_support = none := by
  decide!

end HalvingLemmas

/-! ## What a run without an out-of-range access tells -/

section RunLemmas

/-- Every iteration of a loop that succeeded was run, from a state that
satisfies each property the successful iterations preserve, and succeeded. -/
theorem forLoop_some_iter {σ : Type} (P : σ → Prop) (n : Nat)
    (body : Nat → σ → Option σ) (s t : σ) (h0 : P s)
    (hstep : ∀ i, i < n → ∀ a b, P a → body i a = some b → P b)
    (h : forLoop n body s = some t) :
    ∀ i, i < n → ∃ a b, P a ∧ body i a = some b := by
  induction n generalizing t with
  | zero =>
    intro i hi
    exact absurd hi (Nat.not_lt_zero i)
  | succ n ih =>
    rcases hn : forLoop n body s with _ | u
    · simp [forLoop, hn] at h
    · have hb : body n u = some t := by simpa [forLoop, hn] using h
      have hu : P u := forLoop_some_inv P n body s u h0
        (fun i hi => hstep i (Nat.lt_succ_of_lt hi)) hn
      intro i hi
      rcases Nat.lt_succ_iff_lt_or_eq.mp hi with hlt | heq
      · exact ih u (fun i hi => hstep i (Nat.lt_succ_of_lt hi)) hn i hlt
      · subst heq
        exact ⟨u, t, hu, hb⟩

/-- The same for a fold over a list that succeeded. -/
theorem foldlM_some_iter {σ β : Type} (P : σ → Prop) (g : σ → β → Option σ)
    (l : List β) (s t : σ) (h0 : P s)
    (hstep : ∀ a e b, e ∈ l → P a → g a e = some b → P b)
    (h : l.foldlM g s = some t) :
    P t ∧ ∀ e ∈ l, ∃ a b, P a ∧ g a e = some b := by
  induction l generalizing s with
  | nil =>
    have e : s = t := by simpa using h
    rw [← e]
    exact ⟨h0, fun e he => absurd he (List.not_mem_nil e)⟩
  | cons x l ih =>
    rw [List.foldlM_cons] at h
    rcases hx : g s x with _ | u
    · rw [hx] at h
      exact absurd h (by simp)
    · rw [hx] at h
      have hu : P u := hstep s x u (List.mem_cons_self x l) h0 hx
      obtain ⟨ht, hall⟩ := ih u hu
        (fun a e b he => hstep a e b (List.mem_cons_of_mem x he)) h
      refine ⟨ht, ?_⟩
      intro e he
      rcases List.mem_cons.mp he with rfl | hmem
      · exact ⟨s, u, h0, hx⟩
      · exact hall e hmem

/-- A read that succeeded was inside the buffer. -/
theorem load_some_range {β : Type} (buf : List β) (i : Int) (r : β)
    (h : load buf i = some r) : 0 ≤ i ∧ i < (buf.length : Int) := by
  unfold load at h
  split_ifs at h with h0
  refine ⟨h0, ?_⟩
  obtain ⟨hlt, _⟩ := List.getElem?_eq_some.mp h
  omega

variable {α : Type} [LinearOrderedField α]

/-- A store that succeeded keeps the length of the buffer. -/
theorem store_some_length {β : Type} (buf : List β) (i : Nat) (v : β) (out : List β)
    (h : store buf i v = some out) : out.length = buf.length := by
  unfold store at h
  split_ifs at h
  have e : buf.set i v = out := Option.some.inj h
  rw [← e, List.length_set]

/-- An accumulation into the four-slot array `pixel` that succeeded: there are
at most four channels, and every read `raster[c.pixel + b]` was inside the
raster. -/
theorem accumulate_some (bpp : Nat) (raster : List Nat) (clist : List (CONTRIB α))
    (pixel p : List α) (hp : pixel.length = 4)
    (h : accumulate bpp raster clist pixel = some p) :
    bpp ≤ 4 ∧ p.length = 4 ∧
      ∀ c ∈ clist, ∀ b, b < bpp →
        0 ≤ c.pixel + (b : Int) ∧ c.pixel + (b : Int) < (raster.length : Int) := by
  have h4 : bpp ≤ 4 := by
    by_contra hcon
    rw [accumulate_overflow bpp raster clist pixel (by omega)] at h
    exact absurd h (by simp)
  unfold accumulate at h
  obtain ⟨p1, hz, hfold⟩ := Option.bind_eq_some.mp h
  have hp1 : p1.length = 4 :=
    forLoop_some_inv (fun q : List α => q.length = 4) bpp _ pixel p1 hp
      (by
        intro i _ a b ha hb
        rw [store_some_length a i _ b hb]
        exact ha) hz
  have hinner : ∀ (c : CONTRIB α) (a b : List α), a.length = 4 →
      forLoop bpp (fun b pixel =>
        (load raster (c.pixel + b)).bind (fun r =>
          (pixel[b]?).bind (fun old =>
            store pixel b (old + (r : α) * c.weight)))) a = some b → b.length = 4 := by
    intro c a b ha hb
    exact forLoop_some_inv (fun q : List α => q.length = 4) bpp _ a b ha
      (by
        intro i _ x y hx hy
        obtain ⟨r, _, hy1⟩ := Option.bind_eq_some.mp hy
        obtain ⟨old, _, hy2⟩ := Option.bind_eq_some.mp hy1
        rw [store_some_length x i _ y hy2]
        exact hx) hb
  obtain ⟨hpl, hall⟩ := foldlM_some_iter (fun q : List α => q.length = 4) _ clist p1 p hp1
    (fun a e b _ ha hb => hinner e a b ha hb) hfold
  refine ⟨h4, hpl, ?_⟩
  intro c hc b hb
  obtain ⟨a, a', _, hrun⟩ := hall c hc
  obtain ⟨x, y, _, hxy⟩ := forLoop_some_iter (fun _ : List α => True) bpp _ a a' trivial
    (fun _ _ _ _ _ _ => trivial) hrun b hb
  obtain ⟨r, hr, _⟩ := Option.bind_eq_some.mp hxy
  exact load_some_range raster _ r hr

variable [FloorRing α]

/-- The two nested loops of a pass of `zoom`, when they succeeded: every raster
was fetched, there are at most four channels, and every read of every list was
inside the raster. -/
theorem pixel_loops_some (bpp m n : Nat) (getter : Nat → Option (List Nat))
    (tbl : Nat → List (CONTRIB α))
    (contrib : List (List (CONTRIB α))) (fx fy : Nat → Nat → Nat)
    (img0 : Image) (px0 : List α) (st : Image × List α)
    (hpx : px0.length = 4)
    (htbl : ∀ i, i < n → contrib[i]? = some (tbl i))
    (h : forLoop m (fun k st =>
        (getter k).bind (fun raster =>
          forLoop n (fun i st =>
            (contrib[i]?).bind (fun clist =>
              (accumulate bpp raster clist st.2).bind (fun pixel =>
                (put_pixel st.1 (fx k i) (fy k i) pixel).bind (fun t =>
                  some (t, pixel))))) st)) (img0, px0) = some st) :
    ∀ k, k < m → ∃ raster, getter k = some raster ∧
      ∀ i, i < n → bpp ≤ 4 ∧ ∀ c ∈ tbl i, ∀ b, b < bpp →
        0 ≤ c.pixel + (b : Int) ∧ c.pixel + (b : Int) < (raster.length : Int) := by
  have hin : ∀ (k : Nat) (raster : List Nat) (i : Nat) (a b : Image × List α),
      a.2.length = 4 →
      (contrib[i]?).bind (fun clist =>
        (accumulate bpp raster clist a.2).bind (fun pixel =>
          (put_pixel a.1 (fx k i) (fy k i) pixel).bind (fun t =>
            some (t, pixel)))) = some b →
      b.2.length = 4 ∧ ∀ clist, contrib[i]? = some clist →
        ∃ pixel, accumulate bpp raster clist a.2 = some pixel := by
    intro k raster i a b ha hb
    obtain ⟨clist, hcl, hb1⟩ := Option.bind_eq_some.mp hb
    obtain ⟨pixel, hacc, hb2⟩ := Option.bind_eq_some.mp hb1
    obtain ⟨t, _, hb3⟩ := Option.bind_eq_some.mp hb2
    have e : (t, pixel) = b := Option.some.inj hb3
    refine ⟨?_, ?_⟩
    · rw [← e]
      exact (accumulate_some bpp raster clist a.2 pixel ha hacc).2.1
    · intro cl hcl2
      rw [hcl] at hcl2
      obtain rfl := Option.some.inj hcl2
      exact ⟨pixel, hacc⟩
  have hinnerP : ∀ (k : Nat) (raster : List Nat) (a b : Image × List α), a.2.length = 4 →
      forLoop n (fun i st =>
        (contrib[i]?).bind (fun clist =>
          (accumulate bpp raster clist st.2).bind (fun pixel =>
            (put_pixel st.1 (fx k i) (fy k i) pixel).bind (fun t =>
              some (t, pixel))))) a = some b → b.2.length = 4 := by
    intro k raster a b ha hb
    exact forLoop_some_inv (fun q : Image × List α => q.2.length = 4) n _ a b ha
      (fun i _ x y hx hy => (hin k raster i x y hx hy).1) hb
  intro k hk
  obtain ⟨a, b, ha, hab⟩ := forLoop_some_iter (fun q : Image × List α => q.2.length = 4) m _
    (img0, px0) st hpx
    (by
      intro i _ x y hx hy
      obtain ⟨raster, _, hy1⟩ := Option.bind_eq_some.mp hy
      exact hinnerP i raster x y hx hy1) h k hk
  obtain ⟨raster, hget, hrun⟩ := Option.bind_eq_some.mp hab
  refine ⟨raster, hget, ?_⟩
  intro i hi
  obtain ⟨x, y, hx, hxy⟩ := forLoop_some_iter (fun q : Image × List α => q.2.length = 4) n _
    a b ha (fun i _ x y hx hy => (hin k raster i x y hx hy).1) hrun i hi
  obtain ⟨pixel, hacc⟩ := (hin k raster i x y hx hxy).2 (tbl i) (htbl i hi)
  obtain ⟨h4, _, hreads⟩ := accumulate_some bpp raster (tbl i) x.2 pixel hx hacc
  exact ⟨h4, hreads⟩

/-- A raster that `get_row` returned: the scanline was inside the buffer, and
the raster has `bpp * xsize` bytes. -/
theorem get_row_some (image : Image) (y : Nat) (raster : List Nat)
    (h : get_row image y = some raster) :
    y * image.span + image.bpp * image.xsize ≤ image.data.length ∧
      raster.length = image.bpp * image.xsize := by
  unfold get_row at h
  split_ifs at h with h1 h2
  have e : (image.data.drop (y * image.span)).take (image.bpp * image.xsize) = raster :=
    Option.some.inj h
  refine ⟨h2, ?_⟩
  rw [← e, List.length_take, List.length_drop]
  omega

omit [LinearOrderedField α] [FloorRing α] in
/-- The in-range condition of the pass lemmas, from reads that succeeded. -/
theorem reads_in_range (S bpp : Nat) (hb : 0 < bpp) (len : Nat) (hlen : len = S * bpp)
    (clist : List (CONTRIB α))
    (h : ∀ c ∈ clist, ∀ b, b < bpp →
      0 ≤ c.pixel + (b : Int) ∧ c.pixel + (b : Int) < (len : Int)) :
    ∀ e ∈ clist, 0 ≤ e.pixel ∧ e.pixel + (bpp : Int) ≤ ((S * bpp : Nat) : Int) := by
  intro e he
  obtain ⟨h0, _⟩ := h e he 0 hb
  obtain ⟨_, h1⟩ := h e he (bpp - 1) (by omega)
  rw [hlen] at h1
  have e1 : ((bpp - 1 : Nat) : Int) = (bpp : Int) - 1 := by omega
  rw [e1] at h1
  constructor
  · simpa using h0
  · omega

/-- A horizontal pass that succeeded, for a source of at least one row and
channel and a destination of at least one column: the source buffer holds the
image, there are at most four channels, and every row read is in range. -/
theorem zoom_horizontal_some (dst src : Image) (f : α → α) (s : α) (T : Image)
    (hsp : src.span = src.xsize * src.bpp) (hb : 0 < src.bpp) (hy : 0 < src.ysize)
    (hx : 0 < dst.xsize) (h : zoom_horizontal dst src f s = some T) :
    src.wf ∧ src.bpp ≤ 4 ∧
      ∀ x, x < dst.xsize → ∀ e ∈ contribution_spec src.xsize dst.xsize f s src.bpp x,
        0 ≤ e.pixel ∧ e.pixel + (src.bpp : Int) ≤ ((src.xsize * src.bpp : Nat) : Int) := by
  unfold zoom_horizontal at h
  simp only [row_contributions_eq, Option.some_bind] at h
  obtain ⟨st, hst, _⟩ := Option.bind_eq_some.mp h
  have key := pixel_loops_some src.bpp src.ysize dst.xsize (get_row src)
    (contribution_spec src.xsize dst.xsize f s src.bpp)
    ((List.range dst.xsize).map (contribution_spec src.xsize dst.xsize f s src.bpp))
    (fun _ i => i) (fun k _ => k)
    (new_image dst.xsize src.ysize dst.bpp none) (List.replicate 4 (0 : α)) st
    (by simp)
    (fun i hi => by simp [List.getElem?_map, List.getElem?_range hi])
    hst
  obtain ⟨rl, hgl, _⟩ := key (src.ysize - 1) (by omega)
  obtain ⟨hfit, _⟩ := get_row_some src _ rl hgl
  obtain ⟨r0, hg0, hall⟩ := key 0 hy
  obtain ⟨_, hlen0⟩ := get_row_some src 0 r0 hg0
  refine ⟨?_, (hall 0 hx).1, ?_⟩
  · unfold Image.wf
    refine ⟨by rw [hsp], ?_⟩
    have e1 : src.span * src.ysize = (src.ysize - 1) * src.span + src.span := by
      have : src.ysize = (src.ysize - 1) + 1 := by omega
      conv_lhs => rw [this]
      ring
    have e2 : src.bpp * src.xsize = src.span := by rw [hsp, Nat.mul_comm]
    rw [e2] at hfit
    omega
  · intro x hxlt
    exact reads_in_range src.xsize src.bpp hb r0.length (by rw [hlen0, Nat.mul_comm])
      _ (hall x hxlt).2

/-- A vertical pass that succeeded, for at least one channel and a destination
of at least one column: every column read is in range. -/
theorem zoom_vertical_some (dst src tmp : Image) (f : α → α) (s : α) (out : Image)
    (htmp : tmp.wf) (hbpp2 : tmp.bpp = src.bpp) (htx : tmp.xsize = dst.xsize)
    (hty : tmp.ysize = src.ysize) (hb : 0 < src.bpp) (hx : 0 < dst.xsize)
    (h : zoom_vertical dst src tmp f s = some out) :
    ∀ y, y < dst.ysize → ∀ e ∈ contribution_spec src.ysize dst.ysize f s src.bpp y,
      0 ≤ e.pixel ∧ e.pixel + (src.bpp : Int) ≤ ((src.ysize * src.bpp : Nat) : Int) := by
  unfold zoom_vertical at h
  simp only [hty, column_contributions_eq, Option.some_bind] at h
  obtain ⟨st, hst, _⟩ := Option.bind_eq_some.mp h
  have key := pixel_loops_some src.bpp dst.xsize dst.ysize (get_column tmp)
    (contribution_spec src.ysize dst.ysize f s src.bpp)
    ((List.range dst.ysize).map (contribution_spec src.ysize dst.ysize f s src.bpp))
    (fun k _ => k) (fun _ i => i)
    dst (List.replicate 4 (0 : α)) st
    (by simp)
    (fun i hi => by simp [List.getElem?_map, List.getElem?_range hi])
    hst
  obtain ⟨r0, hg0, hall⟩ := key 0 hx
  obtain ⟨col, hcl, hlen, _⟩ := get_column_spec tmp htmp 0 (by rw [htx]; exact hx)
  rw [hg0] at hcl
  obtain rfl := Option.some.inj hcl
  intro y hylt
  exact reads_in_range src.ysize src.bpp hb r0.length (by rw [hlen, hty, hbpp2])
    _ (hall y hylt).2

/-- A `zoom` that succeeded, for a source and a destination of at least one
pixel and channel: the source buffer holds the image, there are at most four
channels, and every read of both passes is in range. -/
theorem zoom_some (dst src : Image) (f : α → α) (s : α) (out : Image)
    (hsp : src.span = src.xsize * src.bpp) (hbpp : dst.bpp = src.bpp)
    (hb : 0 < src.bpp) (hy : 0 < src.ysize) (hx : 0 < dst.xsize)
    (h : zoom dst src f s = some out) :
    src.wf ∧ src.bpp ≤ 4 ∧
      (∀ x, x < dst.xsize → ∀ e ∈ contribution_spec src.xsize dst.xsize f s src.bpp x,
        0 ≤ e.pixel ∧ e.pixel + (src.bpp : Int) ≤ ((src.xsize * src.bpp : Nat) : Int)) ∧
      ∀ y, y < dst.ysize → ∀ e ∈ contribution_spec src.ysize dst.ysize f s src.bpp y,
        0 ≤ e.pixel ∧ e.pixel + (src.bpp : Int) ≤ ((src.ysize * src.bpp : Nat) : Int) := by
  unfold zoom at h
  obtain ⟨T, hT, hv⟩ := Option.bind_eq_some.mp h
  obtain ⟨hwf, h4, hrow⟩ := zoom_horizontal_some dst src f s T hsp hb hy hx hT
  obtain ⟨T2, hT2, t1, t2, t3, t4, t5, _⟩ := zoom_horizontal_spec dst src f s hwf hbpp h4 hrow
  have e : T2 = T := Option.some.inj (hT2.symm.trans hT)
  subst e
  have hTwf : T2.wf := by
    unfold Image.wf
    rw [t1, t2, t3, t4, t5]
    exact ⟨le_refl _, le_refl _⟩
  exact ⟨hwf, h4, hrow, zoom_vertical_some dst src T2 f s out hTwf t3 t1 t2 hb hx hv⟩

/-- Claim C15. For positive `height`, `num_comp` and `newwidth` (and so for
all positive `width`, `height`, `num_comp`, `newwidth` and `newheight`), when
`simage_resize` runs without an out-of-range access and returns the buffer `r`:
`r` has exactly `newwidth * newheight * num_comp` bytes;
every offset of `r` is `newwidth * num_comp * y + x * num_comp + b` for a pixel
`(x, y)` of the destination and a channel `b` (row-major, row stride
`newwidth * num_comp`); the byte at that offset is the value the vertical pass
stores there, the clamped weighted sum over column `x` of the intermediate
image `T`; and `zoom` gives the same buffer whatever the destination buffer
held before, so that no byte of the allocation survives.  The source buffer is
an argument that `zoom` only reads: the stores go to `tmp` and `dst`. -/
theorem resize_output_buffer (src r : List Nat) (w h bpp W H : Nat)
    (hh : 0 < h) (hb : 0 < bpp) (hW : 0 < W)
    (hrun : simage_resize α src w h bpp W H = some r) :
    r.length = W * H * bpp ∧
    (∀ k, k < r.length →
      ∃ x y b, x < W ∧ y < H ∧ b < bpp ∧ k = W * bpp * y + x * bpp + b) ∧
    (∃ T : Image,
      zoom_horizontal (new_image W H bpp none) (new_image w h bpp (some src))
        (bell_filter : α → α) bell_support = some T ∧
      ∀ x y b, x < W → y < H → b < bpp →
        r[W * bpp * y + x * bpp + b]? =
          some (clampByte
            (((contribution_spec h H (bell_filter : α → α) bell_support bpp y).map
              (fun e => (T.channel (x : Int) (e.pixel / (bpp : Int)) b : α) *
                e.weight)).sum))) ∧
    ∀ d0 : List Nat, d0.length = W * bpp * H →
      zoom (new_image W H bpp (some d0)) (new_image w h bpp (some src))
        (bell_filter : α → α) bell_support = some (new_image W H bpp (some r)) := by
  have hs : simage_resize α src w h bpp W H =
      (zoom (new_image W H bpp none) (new_image w h bpp (some src))
        (bell_filter : α → α) bell_support).bind (fun o => some o.data) := rfl
  rw [hs] at hrun
  obtain ⟨out0, hz, hdata⟩ := Option.bind_eq_some.mp hrun
  have hr : out0.data = r := Option.some.inj hdata
  obtain ⟨hwf, h4, hrow, hcol⟩ := zoom_some (new_image W H bpp none)
    (new_image w h bpp (some src)) (bell_filter : α → α) bell_support out0 rfl rfl hb hh hW hz
  obtain ⟨T, out, hT, hout, _, _, _, _, _, _, o1, o2, o3, o4, o5, oval⟩ := zoom_spec
    (new_image W H bpp none) (new_image w h bpp (some src)) (bell_filter : α → α) bell_support
    hwf (new_image_none_wf W H bpp) rfl h4 hrow hcol
  have e : out = out0 := Option.some.inj (hout.symm.trans hz)
  subst e
  have hlen : r.length = W * bpp * H := by
    rw [← hr, o5]
    simp [new_image]
  have hval : ∀ x y b, x < W → y < H → b < bpp →
      r[W * bpp * y + x * bpp + b]? =
        some (clampByte
          (((contribution_spec h H (bell_filter : α → α) bell_support bpp y).map
            (fun e => (T.channel (x : Int) (e.pixel / (bpp : Int)) b : α) *
              e.weight)).sum)) := by
    intro x y b hx hy hbb
    have := oval x y b hx hy hbb
    rw [o4, hr] at this
    exact this
  refine ⟨by rw [hlen]; ring, ?_, ⟨T, hT, hval⟩, ?_⟩
  · intro k hk
    rw [hlen] at hk
    exact offset_decompose W H bpp k hk
  · intro d0 hd0
    obtain ⟨T2, out2, hT2, hout2, _, _, _, _, _, _, p1, p2, p3, p4, p5, pval⟩ := zoom_spec
      (new_image W H bpp (some d0)) (new_image w h bpp (some src)) (bell_filter : α → α)
      bell_support hwf (new_image_some_wf W H bpp d0 (by omega)) rfl h4 hrow hcol
    have eT : T2 = T := Option.some.inj (hT2.symm.trans hT)
    subst eT
    rw [hout2]
    congr 1
    apply image_eq_of_bytes out2 W H bpp r p1 p2 p3 p4
    · rw [p5]
      exact hd0
    · exact hlen
    · intro x y b hx hy hbb
      have := pval x y b hx hy hbb
      rw [p4] at this
      rw [hval x y b hx hy hbb]
      exact this

/-- Witness for `resize_output_buffer`: the 2 x 2 one-channel image with rows
`[0, 255]` resized to 2 x 2. -/
theorem resize_output_buffer_witness :
    simage_resize ℚ [0, 255, 0, 255] 2 2 1 2 2 = some [63, 223, 63, 223] ∧
    [63, 223, 63, 223].length = 2 * 2 * 1 ∧
    ∀ d0 : List Nat, d0.length = 2 * 1 * 2 →
      zoom (new_image 2 2 1 (some d0)) (new_image 2 2 1 (some [0, 255, 0, 255]))
        (bell_filter : ℚ → ℚ) bell_support =
          some (new_image 2 2 1 (some [63, 223, 63, 223])) :=
  ⟨by decide!,
    (@resize_output_buffer ℚ _ _ [0, 255, 0, 255] [63, 223, 63, 223] 2 2 1 2 2
      (by decide) (by decide) (by decide) (by decide!)).1,
    (@resize_output_buffer ℚ _ _ [0, 255, 0, 255] [63, 223, 63, 223] 2 2 1 2 2
      (by decide) (by decide) (by decide) (by decide!)).2.2.2⟩

end RunLemmas

/-! ## Which kernels reproduce every image at identity scale -/

section IdentityClaim

variable {α : Type} [LinearOrderedField α] [FloorRing α]

end IdentityClaim

/-! ## The allocation of the contribution lists in binary32 -/

section Binary32Lemmas

/-- A loop whose last iteration fails from every state fails. -/
theorem forLoop_last_none {σ : Type} (n : Nat) (body : Nat → σ → Option σ) (s : σ)
    (h : ∀ t, body n t = none) : forLoop (n + 1) body s = none := by
  show (forLoop n body s).bind (body n) = none
  cases forLoop n body s with
  | none => rfl
  | some t => exact h t

/-- The inner loop over `j` with a capacity `cap >= 0`: it stores `m` entries
when `m <= cap`, and writes past the `calloc`ed block otherwise. -/
theorem clist_loop_cases {α : Type} (cap : Int) (m : Nat) (g : Nat → CONTRIB α)
    (h0 : 0 ≤ cap) :
    forLoop m (fun idx p => clist_push cap p (g idx)) [] =
      if (m : Int) ≤ cap then some ((List.range m).map g) else none := by
  induction m with
  | zero =>
    rw [if_pos (by simpa using h0)]
    rfl
  | succ m ih =>
    show (forLoop m (fun idx p => clist_push cap p (g idx)) []).bind
      (fun p => clist_push cap p (g m)) = _
    rw [ih]
    by_cases h : (m : Int) ≤ cap
    · rw [if_pos h, Option.some_bind]
      unfold clist_push
      by_cases h2 : ((m + 1 : Nat) : Int) ≤ cap
      · rw [if_pos h2, if_pos (by simp; omega)]
        simp [List.range_succ]
      · rw [if_neg h2, if_neg (by simp; omega)]
    · rw [if_neg h, if_neg (by push_cast; omega)]
      rfl

/-- More entries than the capacity: the inner loop writes past the block. -/
theorem clist_overflow {α : Type} (cap : Int) (m : Nat) (g : Nat → CONTRIB α)
    (h0 : 0 ≤ cap) (h : cap < (m : Int)) :
    forLoop m (fun idx p => clist_push cap p (g idx)) [] = none := by
  rw [clist_loop_cases cap m g h0, if_neg (by omega)]

/-- Claim C20. The failing input: `zoom` from a source length of 300 to a
destination length of 10 with the bell kernel (support 1.5), as `simage_resize`
calls it, with the `float` variables in binary32.  `xscale` is the `float`
nearest to 1/30, which is above 1/30, so `width = 1.5 / xscale` is the `float`
`45 - 2^-18` and the capacity `(int) (width * 2 + 1)` is 90; for destination
index 9, `center` is 270, `left` is 225 and `right` is 315, so the loop over
`j` appends 91 entries and the index `k = 90` is not below the capacity.  Both
builders write past the `calloc`ed block, whatever the kernel function returns
and whatever the channel count. -/
theorem capacity_overflow_binary32 (bpp : Nat) (filterf : ℚ → ℚ) :
    fl32 (fl32 ((10 : Nat) : ℚ) / fl32 ((300 : Nat) : ℚ)) = 8947849 / 268435456 ∧
    (1 / 30 : ℚ) < 8947849 / 268435456 ∧
    fl32 ((bell_support : ℚ) / (8947849 / 268435456)) = 11796479 / 262144 ∧
    c_int (fl32 (fl32 ((11796479 / 262144 : ℚ) * 2) + 1)) = 90 ∧
    fl32 (fl32 ((9 : Nat) : ℚ) / (8947849 / 268435456)) = 270 ∧
    ⌈fl32 ((270 : ℚ) - 11796479 / 262144)⌉ = 225 ∧
    ⌊fl32 ((270 : ℚ) + 11796479 / 262144)⌋ = 315 ∧
    row_contributions32 10 300 bpp filterf bell_support = none ∧
    column_contributions32 10 300 bpp filterf bell_support = none := by
  refine ⟨by decide!, by norm_num, by decide!, by decide!, by decide!, by decide!,
    by decide!, ?_, ?_⟩
  · unfold row_contributions32
    dsimp only
    rw [if_pos (by decide!)]
    refine forLoop_last_none 9 _ _ (fun t => ?_)
    dsimp only
    rw [clist_overflow _ _ _ (by decide!) (by decide!)]
    rfl
  · unfold column_contributions32
    dsimp only
    rw [if_pos (by decide!)]
    refine forLoop_last_none 9 _ _ (fun t => ?_)
    dsimp only
    rw [clist_overflow _ _ _ (by decide!) (by decide!)]
    rfl

end Binary32Lemmas

end Resize
